import Mathlib

/-!
# average-prices-results-trigger: a shallow embedding of `main.go`

The Go program reads a historical CSV snapshot into a table of sums
(`read`), joins a detail CSV snapshot against it (`enrichData`) and hands the
enriched records to the database (`handler`).

Conventions of the embedding

* a Go `string` is the list of its bytes (`GoString`);
* a Go `int`/`int64` is an `Int` kept inside the 64-bit range by the
  functions that produce it (`int` is 64 bits wide on the platforms the
  Lambda runtime offers), narrowing conversions are explicit (`wrapInt`);
* a `float64`/`float32` is a sign, an integer significand and a binary
  exponent (`GoFloat`), every operation rounds the exact result to nearest,
  ties to even;
* a function that can return an error or stop with a run-time panic returns
  an `Outcome`.
-/

set_option autoImplicit false

namespace AvgPrices

/-! ## Strings and machine integers -/

/-- A Go string: its bytes, each a value in `0..255`. -/
abbrev GoString := List Nat

/-- The bytes of an ASCII literal. -/
def ascii (s : String) : GoString := s.toList.map Char.toNat

/-- Two's-complement narrowing of an integer to `w` bits (Go's `intN(x)`). -/
def wrapInt (w : Nat) (n : Int) : Int :=
  (n + 2 ^ (w - 1)) % 2 ^ w - 2 ^ (w - 1)

/-! ## `strconv.Atoi` (Go standard library, `intSize = 64`) -/

namespace strconv

/-- The two kinds of `*NumError` the parser reports. -/
inductive NumError where
  | invalid
  | range
deriving DecidableEq

/-- Value of `maxUint64`. -/
def maxUint64 : Nat := 2 ^ 64 - 1

/-- The function `lower(c)` of `strconv`: `c | ('x' - 'X')`. -/
def lower (c : Nat) : Nat := c ||| 32

/-- The digit loop of `ParseUint(s, 10, 0)`: `n` is the value read so far.
A byte that is no decimal digit ends the loop with a syntax error and value
`0`; an overflow ends it at once with `maxUint64` and a range error, before
the remaining bytes are looked at. -/
def parseUintLoop : List Nat → Nat → Nat × Option NumError
  | [], n => (n, none)
  | c :: cs, n =>
    let d : Option Nat :=
      if 48 ≤ c ∧ c ≤ 57 then some (c - 48)
      else if 97 ≤ lower c ∧ lower c ≤ 122 then some (lower c - 97 + 10)
      else none
    match d with
    | none => (0, some NumError.invalid)
    | some d =>
      if 10 ≤ d then (0, some NumError.invalid)
      else if maxUint64 / 10 + 1 ≤ n then (maxUint64, some NumError.range)
      else
        let n10 := (n * 10) % 2 ^ 64
        let n1 := (n10 + d) % 2 ^ 64
        if n1 < n10 ∨ maxUint64 < n1 then (maxUint64, some NumError.range)
        else parseUintLoop cs n1

/-- The call `ParseUint(s, 10, 0)`. -/
def ParseUint (s : GoString) : Nat × Option NumError :=
  if s = [] then (0, some NumError.invalid) else parseUintLoop s 0

/-- The call `ParseInt(s, 10, 0)`: sign, `ParseUint`, then the range check
that clamps to the largest magnitude of the sign. -/
def ParseInt (s : GoString) : Int × Option NumError :=
  match s with
  | [] => (0, some NumError.invalid)
  | c :: rest =>
    let neg := decide (c = 45)
    let body := if c = 43 ∨ c = 45 then rest else s
    match ParseUint body with
    | (_, some NumError.invalid) => (0, some NumError.invalid)
    | (un, _) =>
      let cutoff : Nat := 2 ^ 63
      if ¬ neg ∧ cutoff ≤ un then ((cutoff : Int) - 1, some NumError.range)
      else if neg ∧ cutoff < un then (-(cutoff : Int), some NumError.range)
      else
        let n := wrapInt 64 un
        (if neg then wrapInt 64 (-n) else n, none)

/-- The digit loop of the fast path of `Atoi`: `ch -= '0'` on a byte, then
`ch > 9` is a syntax error. -/
def atoiFast : List Nat → Int → Option Int
  | [], n => some n
  | ch :: cs, n =>
    let d := (ch + 256 - 48) % 256
    if 9 < d then none else atoiFast cs (n * 10 + d)

/-- The function `strconv.Atoi`: the value and the error it returns. -/
def Atoi (s : GoString) : Int × Option NumError :=
  if 0 < s.length ∧ s.length < 19 then
    match s with
    | [] => (0, some NumError.invalid)
    | c :: rest =>
      let body := if c = 45 ∨ c = 43 then rest else s
      if body.length < 1 then (0, some NumError.invalid)
      else
        match atoiFast body 0 with
        | none => (0, some NumError.invalid)
        | some n => (if c = 45 then -n else n, none)
  else ParseInt s

end strconv

/-- The statement `v, _ := strconv.Atoi(f)`: the value, the error dropped. -/
def atoi (f : GoString) : Int := (strconv.Atoi f).1

/-! ## `fmt.Sprintf("%d-%d-%d", ...)` -/

/-- Decimal digits of `u`, most significant first, written in front of
`acc` (the loop of `fmt.fmtInteger`, which fills its buffer from the end);
the first argument bounds the number of iterations. -/
def fmtUintAux : Nat → Nat → GoString → GoString
  | 0, u, acc => (48 + u % 10) :: acc
  | fuel + 1, u, acc =>
    if 10 ≤ u then fmtUintAux fuel (u / 10) ((48 + u % 10) :: acc)
    else (48 + u) :: acc

/-- The verb `%d` on a non-negative value. -/
def fmtUint (u : Nat) : GoString := fmtUintAux u u []

/-- The verb `%d` on an integer: a minus sign for a negative value, then the
digits of the magnitude. -/
def fmtInt (n : Int) : GoString :=
  if n < 0 then 45 :: fmtUint n.natAbs else fmtUint n.natAbs

/-- The key of both tables: `fmt.Sprintf("%d-%d-%d", realmId, auctionHouseId, itemId)`. -/
def compositeKey (realmId auctionHouseId itemId : Int) : GoString :=
  fmtInt realmId ++ 45 :: (fmtInt auctionHouseId ++ 45 :: fmtInt itemId)

/-! ## `encoding/csv` at the level of records -/

/-- What the tokenizer of `csv.Reader` finds next in the stream: a record,
or input it cannot turn into one (a quoting error, a failed read). -/
inductive RawItem where
  | record (fields : List GoString)
  | malformed
deriving DecidableEq

/-- A CSV stream: the items up to the end of the input. -/
abbrev Stream := List RawItem

/-- Errors the functions of `main.go` return. -/
inductive Error where
  | EOF
  | csvParse
  | csvFieldCount
  | noPriceAverage (key : GoString)
  | noCsvFile
  | external (code : Nat)
deriving DecidableEq

/-- Result of a Go function `(T, error)` that may also stop with a run-time
panic (an index out of range). -/
inductive Outcome (α : Type) where
  | ok (a : α)
  | error (e : Error)
  | panic
deriving DecidableEq

/-- One call of `(*csv.Reader).Read` on an item, with the reader's
`FieldsPerRecord` before the call: the result and `FieldsPerRecord` after it.
`csv.NewReader` leaves `FieldsPerRecord = 0`, so the first record fixes the
number of fields and a later record of another length is `ErrFieldCount`. -/
def csvRead (fieldsPerRecord : Nat) : RawItem → Except Error (List GoString) × Nat
  | RawItem.malformed => (Except.error Error.csvParse, fieldsPerRecord)
  | RawItem.record fields =>
    if 0 < fieldsPerRecord then
      if fields.length ≠ fieldsPerRecord then (Except.error Error.csvFieldCount, fieldsPerRecord)
      else (Except.ok fields, fieldsPerRecord)
    else (Except.ok fields, fields.length)

/-! ## The baseline table (`read`) -/

/-- The struct `PriceAverage` of `main.go`. -/
structure PriceAverage where
  RowCount : Int
  QuantitySum : Int
  P05Sum : Int
  P10Sum : Int
  P25Sum : Int
  P50Sum : Int
  P75Sum : Int
  P90Sum : Int
deriving DecidableEq

/-- The map `map[string]*PriceAverage`. -/
abbrev Table := GoString → Option PriceAverage

/-- The empty map of `make(map[string]*PriceAverage)`. -/
def Table.empty : Table := fun _ => none

/-- The assignment `priceAverages[key] = priceAverage`. -/
def Table.set (t : Table) (key : GoString) (pa : PriceAverage) : Table :=
  fun k => if k = key then some pa else t k

/-- The body of the loop of `read` on one row: the key and the entry stored
under it, or `none` when an index `row[0]` .. `row[10]` is out of range. -/
def readRow (row : List GoString) : Option (GoString × PriceAverage) := do
  let realmId := atoi (← row[0]?)
  let auctionHouseId := atoi (← row[1]?)
  let itemId := atoi (← row[2]?)
  let rowCount := atoi (← row[3]?)
  let quantitySum := atoi (← row[4]?)
  let p05Sum := atoi (← row[5]?)
  let p10Sum := atoi (← row[6]?)
  let p25Sum := atoi (← row[7]?)
  let p50Sum := atoi (← row[8]?)
  let p75Sum := atoi (← row[9]?)
  let p90Sum := atoi (← row[10]?)
  let priceAverage : PriceAverage :=
    { RowCount := wrapInt 64 rowCount
      QuantitySum := wrapInt 64 quantitySum
      P05Sum := wrapInt 64 p05Sum
      P10Sum := wrapInt 64 p10Sum
      P25Sum := wrapInt 64 p25Sum
      P50Sum := wrapInt 64 p50Sum
      P75Sum := wrapInt 64 p75Sum
      P90Sum := wrapInt 64 p90Sum }
  pure (compositeKey realmId auctionHouseId itemId, priceAverage)

/-- The `for` loop of `read`. -/
def readLoop (fieldsPerRecord : Nat) : Stream → Table → Outcome Table
  | [], priceAverages => Outcome.ok priceAverages
  | item :: rest, priceAverages =>
    match csvRead fieldsPerRecord item with
    | (Except.error e, _) => Outcome.error e
    | (Except.ok row, fpr) =>
      match readRow row with
      | none => Outcome.panic
      | some (key, priceAverage) => readLoop fpr rest (priceAverages.set key priceAverage)

/-- The function `read` of `main.go`. -/
def read (closer : Stream) : Outcome Table :=
  match closer with
  | [] => Outcome.error Error.EOF
  | header :: rest =>
    match csvRead 0 header with
    | (Except.error e, _) => Outcome.error e
    | (Except.ok _, fpr) => readLoop fpr rest Table.empty

/-! ## Floating point (IEEE 754 binary64 and binary32) -/

/-- A floating-point value: the finite value `(-1)^neg * m * 2^e` (zero
keeps its sign), an infinity, or a NaN. -/
inductive GoFloat where
  | fin (neg : Bool) (m : Nat) (e : Int)
  | inf (neg : Bool)
  | nan
deriving DecidableEq

/-- A binary format: the number of significand bits and the smallest and
largest exponent of the unit in the last place. A finite value of the
format is `m * 2^e` with `m < 2^prec` and `qmin ≤ e ≤ qmax`, written with
`2^(prec-1) ≤ m` unless `e = qmin`. -/
structure FloatFormat where
  prec : Nat
  qmin : Int
  qmax : Int
deriving DecidableEq

/-- The format of `float64`. -/
def binary64 : FloatFormat := { prec := 53, qmin := -1074, qmax := 971 }

/-- The format of `float32`. -/
def binary32 : FloatFormat := { prec := 24, qmin := -149, qmax := 104 }

/-- Floor of the binary logarithm of `n`, the first argument bounding the
number of halvings. -/
def ilog2Aux : Nat → Nat → Nat
  | 0, _ => 0
  | fuel + 1, n => if 2 ≤ n then ilog2Aux fuel (n / 2) + 1 else 0

/-- Floor of the binary logarithm of `n` (`0` for `n = 0`). -/
def ilog2 (n : Nat) : Nat := ilog2Aux n n

/-- Floor of the binary logarithm of the fraction `a / b`, for positive `a`
and `b`. -/
def floorLog2 (a b : Nat) : Int :=
  if b * 2 ^ ilog2 a ≤ a * 2 ^ ilog2 b then (ilog2 a : Int) - ilog2 b
  else (ilog2 a : Int) - ilog2 b - 1

/-- The integer nearest to `n / d`, a tie going to the even one. -/
def roundNearestEven (n d : Nat) : Nat :=
  if 2 * (n % d) < d then n / d
  else if d < 2 * (n % d) then n / d + 1
  else if (n / d) % 2 = 0 then n / d else n / d + 1

/-- The value `(-1)^neg * a / b` (`b` positive) rounded to the format, to
nearest and ties to even, with gradual underflow and overflow to infinity. -/
def FloatFormat.round (F : FloatFormat) (neg : Bool) (a b : Nat) : GoFloat :=
  if a = 0 then GoFloat.fin neg 0 F.qmin
  else
    let q : Int := max (floorLog2 a b - ((F.prec : Int) - 1)) F.qmin
    let m : Nat :=
      if 0 ≤ q then roundNearestEven a (b * 2 ^ q.toNat)
      else roundNearestEven (a * 2 ^ (-q).toNat) b
    let m1 : Nat := if m = 2 ^ F.prec then 2 ^ (F.prec - 1) else m
    let q1 : Int := if m = 2 ^ F.prec then q + 1 else q
    if F.qmax < q1 then GoFloat.inf neg else GoFloat.fin neg m1 q1

/-- The rational value of a finite float. -/
def GoFloat.toRat : GoFloat → Option ℚ
  | GoFloat.fin neg m e => some ((if neg then -1 else 1) * (m : ℚ) * (2 : ℚ) ^ e)
  | _ => none

/-- The conversion `float64(n)` of an integer. -/
def F64.ofInt (n : Int) : GoFloat := binary64.round (decide (n < 0)) n.natAbs 1

/-- The conversion `float32(n)` of an integer. -/
def F32.ofInt (n : Int) : GoFloat := binary32.round (decide (n < 0)) n.natAbs 1

/-- The quotient `x / y` of two `float64`. -/
def F64.div : GoFloat → GoFloat → GoFloat
  | GoFloat.nan, _ => GoFloat.nan
  | _, GoFloat.nan => GoFloat.nan
  | GoFloat.inf _, GoFloat.inf _ => GoFloat.nan
  | GoFloat.inf s, GoFloat.fin t _ _ => GoFloat.inf (xor s t)
  | GoFloat.fin s _ _, GoFloat.inf t => GoFloat.fin (xor s t) 0 binary64.qmin
  | GoFloat.fin s m e, GoFloat.fin t n f =>
    if n = 0 then (if m = 0 then GoFloat.nan else GoFloat.inf (xor s t))
    else binary64.round (xor s t) (m * 2 ^ (e - f).toNat) (n * 2 ^ (f - e).toNat)

/-- The product `x * y` of two `float64`. -/
def F64.mul : GoFloat → GoFloat → GoFloat
  | GoFloat.nan, _ => GoFloat.nan
  | _, GoFloat.nan => GoFloat.nan
  | GoFloat.inf s, GoFloat.inf t => GoFloat.inf (xor s t)
  | GoFloat.inf s, GoFloat.fin t n _ => if n = 0 then GoFloat.nan else GoFloat.inf (xor s t)
  | GoFloat.fin s m _, GoFloat.inf t => if m = 0 then GoFloat.nan else GoFloat.inf (xor s t)
  | GoFloat.fin s m e, GoFloat.fin t n f =>
    binary64.round (xor s t) (m * n * 2 ^ (e + f).toNat) (2 ^ (-(e + f)).toNat)

/-- The function `math.Round`: the nearest integer, a half rounded away from
zero; zeros, infinities and NaN are returned as they are, and the sign is
kept when the result is zero. -/
def mathRound : GoFloat → GoFloat
  | GoFloat.fin s m e =>
    if 0 ≤ e then GoFloat.fin s m e
    else binary64.round s ((2 * m + 2 ^ (-e).toNat) / (2 * 2 ^ (-e).toNat)) 1
  | x => x

/-- What the Go specification leaves to the implementation: the result of
`int32(f)` for a `float64` whose truncation does not fit (or is no number). -/
structure Platform where
  floatToInt32 : GoFloat → Int

/-- The conversion `int32(f)` of a `float64`: truncation toward zero. -/
def F64.toInt32 (P : Platform) (x : GoFloat) : Int :=
  match x with
  | GoFloat.fin s m e =>
    let t : Nat := if 0 ≤ e then m * 2 ^ e.toNat else m / 2 ^ (-e).toNat
    let v : Int := if s then -(t : Int) else t
    if -2 ^ 31 ≤ v ∧ v < 2 ^ 31 then v else wrapInt 32 (P.floatToInt32 x)
  | _ => wrapInt 32 (P.floatToInt32 x)

/-- The conversion `float32(f)` of a `float64`. -/
def F64.toFloat32 : GoFloat → GoFloat
  | GoFloat.fin s m e => binary32.round s (m * 2 ^ e.toNat) (2 ^ (-e).toNat)
  | x => x

/-! ## The enrichment (`enrichData`) -/

/-- The struct `auctions_db.PriceAverage`, with the field types the
conversions of `enrichData` give it: `int16` ids of realm and auction house,
`int32` item id, currents and averages, `float32` percents. -/
structure auctions_db.PriceAverage where
  RealmID : Int
  AuctionHouseId : Int
  ItemID : Int
  QuantityCurrent : Int
  QuantityAverage : Int
  QuantityPercent : GoFloat
  P05Current : Int
  P05Average : Int
  P05Percent : GoFloat
  P10Current : Int
  P10Average : Int
  P10Percent : GoFloat
  P25Current : Int
  P25Average : Int
  P25Percent : GoFloat
  P50Current : Int
  P50Average : Int
  P50Percent : GoFloat
  P75Current : Int
  P75Average : Int
  P75Percent : GoFloat
  P90Current : Int
  P90Average : Int
  P90Percent : GoFloat
deriving DecidableEq

/-- The expression `int32(math.Round(float64(sum) / float64(rowCount)))`. -/
def average (P : Platform) (sum rowCount : Int) : Int :=
  F64.toInt32 P (mathRound (F64.div (F64.ofInt sum) (F64.ofInt rowCount)))

/-- The expression `float32(float64(current) / float64(average) * 100)`. -/
def percent (current average : Int) : GoFloat :=
  F64.toFloat32 (F64.mul (F64.div (F64.ofInt current) (F64.ofInt average)) (F64.ofInt 100))

/-- The fields `enrichData` parses from a row. -/
structure DetailRow where
  realmId : Int
  auctionHouseId : Int
  itemId : Int
  quantity : Int
  p05 : Int
  p10 : Int
  p25 : Int
  p50 : Int
  p75 : Int
  p90 : Int
deriving DecidableEq

/-- The ten `strconv.Atoi` statements of the loop of `enrichData`, `none`
when an index `row[1]` .. `row[12]` is out of range. -/
def parseDetail (row : List GoString) : Option DetailRow := do
  let realmId := atoi (← row[1]?)
  let auctionHouseId := atoi (← row[2]?)
  let itemId := atoi (← row[3]?)
  let quantity := atoi (← row[4]?)
  let p05 := atoi (← row[7]?)
  let p10 := atoi (← row[8]?)
  let p25 := atoi (← row[9]?)
  let p50 := atoi (← row[10]?)
  let p75 := atoi (← row[11]?)
  let p90 := atoi (← row[12]?)
  pure { realmId := realmId, auctionHouseId := auctionHouseId, itemId := itemId,
         quantity := quantity, p05 := p05, p10 := p10, p25 := p25, p50 := p50,
         p75 := p75, p90 := p90 }

/-- The `else` branch of the loop of `enrichData`: the record built from the
parsed row and the table entry found for its key. -/
def enrichRecord (P : Platform) (d : DetailRow) (priceAverage : PriceAverage) :
    auctions_db.PriceAverage :=
  let quantityCurrent := wrapInt 32 d.quantity
  let quantityAverage := average P priceAverage.QuantitySum priceAverage.RowCount
  let p05Current := wrapInt 32 d.p05
  let p05Average := average P priceAverage.P05Sum priceAverage.RowCount
  let p10Current := wrapInt 32 d.p10
  let p10Average := average P priceAverage.P10Sum priceAverage.RowCount
  let p25Current := wrapInt 32 d.p25
  let p25Average := average P priceAverage.P25Sum priceAverage.RowCount
  let p50Current := wrapInt 32 d.p50
  let p50Average := average P priceAverage.P50Sum priceAverage.RowCount
  let p75Current := wrapInt 32 d.p75
  let p75Average := average P priceAverage.P75Sum priceAverage.RowCount
  let p90Current := wrapInt 32 d.p90
  let p90Average := average P priceAverage.P90Sum priceAverage.RowCount
  { RealmID := wrapInt 16 d.realmId
    AuctionHouseId := wrapInt 16 d.auctionHouseId
    ItemID := wrapInt 32 d.itemId
    QuantityCurrent := quantityCurrent
    QuantityAverage := quantityAverage
    QuantityPercent := percent quantityCurrent quantityAverage
    P05Current := p05Current
    P05Average := p05Average
    P05Percent := percent p05Current p05Average
    P10Current := p10Current
    P10Average := p10Average
    P10Percent := percent p10Current p10Average
    P25Current := p25Current
    P25Average := p25Average
    P25Percent := percent p25Current p25Average
    P50Current := p50Current
    P50Average := p50Average
    P50Percent := percent p50Current p50Average
    P75Current := p75Current
    P75Average := p75Average
    P75Percent := percent p75Current p75Average
    P90Current := p90Current
    P90Average := p90Average
    P90Percent := percent p90Current p90Average }

/-- The body of the loop of `enrichData` on one row. -/
def enrichRow (P : Platform) (priceAverages : Table) (row : List GoString) :
    Outcome auctions_db.PriceAverage :=
  match parseDetail row with
  | none => Outcome.panic
  | some d =>
    let key := compositeKey d.realmId d.auctionHouseId d.itemId
    match priceAverages key with
    | none => Outcome.error (Error.noPriceAverage key)
    | some priceAverage => Outcome.ok (enrichRecord P d priceAverage)

/-- The `for` loop of `enrichData`; `priceAveragesDb` is the slice built so
far. -/
def enrichLoop (P : Platform) (priceAverages : Table) (fieldsPerRecord : Nat) :
    Stream → List auctions_db.PriceAverage → Outcome (List auctions_db.PriceAverage)
  | [], priceAveragesDb => Outcome.ok priceAveragesDb
  | item :: rest, priceAveragesDb =>
    match csvRead fieldsPerRecord item with
    | (Except.error e, _) => Outcome.error e
    | (Except.ok row, fpr) =>
      match enrichRow P priceAverages row with
      | Outcome.ok r => enrichLoop P priceAverages fpr rest (priceAveragesDb ++ [r])
      | Outcome.error e => Outcome.error e
      | Outcome.panic => Outcome.panic

/-- The function `enrichData` of `main.go`. -/
def enrichData (P : Platform) (closer : Stream) (priceAverages : Table) :
    Outcome (List auctions_db.PriceAverage) :=
  match closer with
  | [] => Outcome.error Error.EOF
  | header :: rest =>
    match csvRead 0 header with
    | (Except.error e, _) => Outcome.error e
    | (Except.ok _, fpr) => enrichLoop P priceAverages fpr rest []

/-! ## Locating the detail file (`downloadRecent`) and the `handler` -/

/-- An element of `objects.Contents`: the key and the modification time, an
instant counted from the zero value of `time.Time`. -/
structure S3Object where
  Key : GoString
  LastModified : Int
deriving DecidableEq

/-- The function `strings.HasSuffix`. -/
def HasSuffix (s suffix : GoString) : Bool :=
  decide (suffix.length ≤ s.length ∧ s.drop (s.length - suffix.length) = suffix)

/-- The scan of `downloadRecent` over the listing, from the values of
`latestKey` and `latestTime` reached so far; `After` is a strict comparison. -/
def scanLatest : List S3Object → GoString × Int → GoString × Int
  | [], latest => latest
  | object :: rest, latest =>
    if HasSuffix object.Key (ascii ".csv") = true ∧ latest.2 < object.LastModified then
      scanLatest rest (object.Key, object.LastModified)
    else scanLatest rest latest

/-- The collaborators of `handler`: the database, the object store and the
clock, each given by what its calls return. `recentPath` is the prefix
`handler` formats from `time.Now().UTC()`. -/
structure Services where
  NewDatabase : Option Error
  QueryUnescape : GoString → Except Error GoString
  GetObject : GoString → GoString → Except Error Stream
  ListObjectsV2 : GoString → GoString → Except Error (List S3Object)
  ReplacePriceAverages : List auctions_db.PriceAverage → Option Error
  recentPath : GoString

/-- The function `downloadRecent` of `main.go`. -/
def downloadRecent (S : Services) (bucket path : GoString) : Except Error Stream :=
  match S.ListObjectsV2 bucket path with
  | Except.error e => Except.error e
  | Except.ok objects =>
    let latestKey := (scanLatest objects ([], 0)).1
    if latestKey = [] then Except.error Error.noCsvFile
    else S.GetObject bucket latestKey

/-- The part of an `events.S3EventRecord` that `handler` reads. -/
structure S3EventRecord where
  BucketName : GoString
  ObjectKey : GoString
deriving DecidableEq

/-- The `fmt.Errorf` wrappers of `handler`, by the step that failed. -/
inductive Stage where
  | connecting
  | decoding
  | downloading
  | reading
  | enriching
  | replacing
deriving DecidableEq

/-- What `handler` returns: `nil`, a wrapped error, or a run-time panic. -/
inductive HandlerResult where
  | nil
  | failed (stage : Stage) (cause : Error)
  | panic
deriving DecidableEq

/-- A run of `handler`: its result and the arguments of the calls of
`ReplacePriceAverages` it made, in order. -/
structure HandlerRun where
  result : HandlerResult
  replaced : List (List auctions_db.PriceAverage)

/-- The function `handler` of `main.go`. -/
def handler (S : Services) (P : Platform) (event : List S3EventRecord) : HandlerRun :=
  match S.NewDatabase with
  | some e => { result := HandlerResult.failed Stage.connecting e, replaced := [] }
  | none =>
    match event with
    | [] => { result := HandlerResult.panic, replaced := [] }
    | record :: _ =>
      match S.QueryUnescape record.ObjectKey with
      | Except.error e => { result := HandlerResult.failed Stage.decoding e, replaced := [] }
      | Except.ok key =>
        match S.GetObject record.BucketName key with
        | Except.error e => { result := HandlerResult.failed Stage.downloading e, replaced := [] }
        | Except.ok body =>
          match read body with
          | Outcome.error e => { result := HandlerResult.failed Stage.reading e, replaced := [] }
          | Outcome.panic => { result := HandlerResult.panic, replaced := [] }
          | Outcome.ok priceAverages =>
            match downloadRecent S (ascii "sod-auctions") S.recentPath with
            | Except.error e =>
              { result := HandlerResult.failed Stage.downloading e, replaced := [] }
            | Except.ok recent =>
              match enrichData P recent priceAverages with
              | Outcome.error e =>
                { result := HandlerResult.failed Stage.enriching e, replaced := [] }
              | Outcome.panic => { result := HandlerResult.panic, replaced := [] }
              | Outcome.ok priceAveragesDb =>
                match S.ReplacePriceAverages priceAveragesDb with
                | some e =>
                  { result := HandlerResult.failed Stage.replacing e,
                    replaced := [priceAveragesDb] }
                | none => { result := HandlerResult.nil, replaced := [priceAveragesDb] }

/-! ## Vocabulary of the statements -/

/-- The field `row[i]` of a row, the empty string when the row is shorter. -/
def field (row : List GoString) (i : Nat) : GoString := row.getD i []

/-- The values `enrichData` parses from a detail row (of at least 13 fields;
see `parseDetail_of_le`). -/
def detailFields (row : List GoString) : DetailRow :=
  { realmId := atoi (field row 1), auctionHouseId := atoi (field row 2),
    itemId := atoi (field row 3), quantity := atoi (field row 4),
    p05 := atoi (field row 7), p10 := atoi (field row 8), p25 := atoi (field row 9),
    p50 := atoi (field row 10), p75 := atoi (field row 11), p90 := atoi (field row 12) }

/-- The key `enrichData` looks a detail row up with. -/
def detailKey (row : List GoString) : GoString :=
  compositeKey (atoi (field row 1)) (atoi (field row 2)) (atoi (field row 3))

/-- The key `read` stores a historical row under. -/
def baselineKey (row : List GoString) : GoString :=
  compositeKey (atoi (field row 0)) (atoi (field row 1)) (atoi (field row 2))

/-- The entry `read` builds from a historical row (of at least 11 fields; see
`readRow_of_le`). -/
def baselineEntry (row : List GoString) : PriceAverage :=
  { RowCount := wrapInt 64 (atoi (field row 3))
    QuantitySum := wrapInt 64 (atoi (field row 4))
    P05Sum := wrapInt 64 (atoi (field row 5))
    P10Sum := wrapInt 64 (atoi (field row 6))
    P25Sum := wrapInt 64 (atoi (field row 7))
    P50Sum := wrapInt 64 (atoi (field row 8))
    P75Sum := wrapInt 64 (atoi (field row 9))
    P90Sum := wrapInt 64 (atoi (field row 10)) }

/-- The record of a detail row: built from the row's fields and the table
entry of the row's key. -/
def IsRecordOf (P : Platform) (t : Table) (row : List GoString)
    (x : auctions_db.PriceAverage) : Prop :=
  ∃ pa, t (detailKey row) = some pa ∧ x = enrichRecord P (detailFields row) pa

/-- The seven metrics of a record, in the order quantity, p05, p10, p25,
p50, p75, p90: the current value, the average and the percent of each. -/
def metrics (x : auctions_db.PriceAverage) : List (Int × Int × GoFloat) :=
  [(x.QuantityCurrent, x.QuantityAverage, x.QuantityPercent),
   (x.P05Current, x.P05Average, x.P05Percent),
   (x.P10Current, x.P10Average, x.P10Percent),
   (x.P25Current, x.P25Average, x.P25Percent),
   (x.P50Current, x.P50Average, x.P50Percent),
   (x.P75Current, x.P75Average, x.P75Percent),
   (x.P90Current, x.P90Average, x.P90Percent)]

/-- The columns behind the seven metrics, in the same order: the detail
column of the current value and the historical column of the sum. -/
def metricColumns : List (Nat × Nat) :=
  [(4, 4), (7, 5), (8, 6), (9, 7), (10, 8), (11, 9), (12, 10)]

/-- The record `x` is wired to the historical row `h` and the detail row
`d`: each current value is the `int32` of its detail column, each average the
rounded quotient of its historical sum column by the row count of column 3,
each percent the percent of these two. -/
def WiredTo (P : Platform) (h d : List GoString) (x : auctions_db.PriceAverage) : Prop :=
  metrics x = metricColumns.map (fun c =>
    (wrapInt 32 (atoi (field d c.1)),
     average P (atoi (field h c.2)) (atoi (field h 3)),
     percent (wrapInt 32 (atoi (field d c.1)))
       (average P (atoi (field h c.2)) (atoi (field h 3)))))

/-- A stream whose items are all records: a header and the data rows. -/
def csvStream (header : List GoString) (rows : List (List GoString)) : Stream :=
  RawItem.record header :: rows.map RawItem.record

/-- The three integers `read` builds the key of a historical row from. -/
def baselineTriple (row : List GoString) : Int × Int × Int :=
  (atoi (field row 0), atoi (field row 1), atoi (field row 2))

/-- The three integers `enrichData` builds the key of a detail row from. -/
def detailTriple (row : List GoString) : Int × Int × Int :=
  (atoi (field row 1), atoi (field row 2), atoi (field row 3))

/-- The key of a listed object ends in `.csv`, the test of the scan of
`downloadRecent`. -/
def isCsv (object : S3Object) : Bool := HasSuffix object.Key (ascii ".csv")

/-! ## Sample data -/

/-- The historical row of the worked example of the specification. -/
def exHistoricalRow : List GoString :=
  [ascii "1", ascii "2", ascii "3", ascii "10", ascii "100", ascii "10", ascii "20",
   ascii "30", ascii "40", ascii "50", ascii "60", ascii "70"]

/-- The detail row of the worked example of the specification. -/
def exDetailRow : List GoString :=
  [ascii "x", ascii "1", ascii "2", ascii "3", ascii "15", ascii "y", ascii "z",
   ascii "11", ascii "22", ascii "33", ascii "44", ascii "55", ascii "66"]

/-- The entry `read` builds from `exHistoricalRow`. -/
def exBaseline : PriceAverage :=
  { RowCount := 10, QuantitySum := 100, P05Sum := 10, P10Sum := 20, P25Sum := 30,
    P50Sum := 40, P75Sum := 50, P90Sum := 60 }

/-- The table holding `exBaseline` under the key `1-2-3`. -/
def exTable : Table := Table.empty.set (ascii "1-2-3") exBaseline

/-- An entry of one row whose sums are all zero. -/
def exZeroBaseline : PriceAverage :=
  { RowCount := 1, QuantitySum := 0, P05Sum := 0, P10Sum := 0, P25Sum := 0,
    P50Sum := 0, P75Sum := 0, P90Sum := 0 }

/-- The table holding `exZeroBaseline` under the key `1-2-3`. -/
def exZeroTable : Table := Table.empty.set (ascii "1-2-3") exZeroBaseline

/-- The detail row of the worked example with a quantity that does not fit
an `int32`. -/
def exBigDetailRow : List GoString :=
  [ascii "x", ascii "1", ascii "2", ascii "3", ascii "3000000000", ascii "y", ascii "z",
   ascii "11", ascii "22", ascii "33", ascii "44", ascii "55", ascii "66"]

/-- A header of `n` columns `h`. -/
def exHeader (n : Nat) : List GoString := List.replicate n (ascii "h")

/-- A platform on which an `int32` conversion that does not fit gives the
smallest `int32` (the behaviour of the amd64 conversion instruction). -/
def exPlatform : Platform := { floatToInt32 := fun _ => -2147483648 }

/-- Collaborators that never fail: the event object is the stream
`historical`, the listing has one object `a.csv` holding `detail`. -/
def exServices (historical detail : Stream) : Services :=
  { NewDatabase := none
    QueryUnescape := fun k => Except.ok k
    GetObject := fun _ k => Except.ok (if k = ascii "a.csv" then detail else historical)
    ListObjectsV2 := fun _ _ => Except.ok [{ Key := ascii "a.csv", LastModified := 1 }]
    ReplacePriceAverages := fun _ => none
    recentPath := ascii "results/aggregates/interval=1" }

/-- An event with one record. -/
def exEvent : List S3EventRecord := [{ BucketName := ascii "b", ObjectKey := ascii "k" }]

/-- A historical row with the key `1-2-3` whose row count column is `0`. -/
def exZeroCountRow : List GoString :=
  [ascii "1", ascii "2", ascii "3", ascii "0", ascii "100", ascii "10", ascii "20",
   ascii "30", ascii "40", ascii "50", ascii "60", ascii "70"]

/-- A historical row with the key `1-2-3` and smaller sums than
`exHistoricalRow`. -/
def exSmallerRow : List GoString :=
  [ascii "1", ascii "2", ascii "3", ascii "10", ascii "7", ascii "1", ascii "2",
   ascii "3", ascii "4", ascii "5", ascii "6", ascii "70"]

/-- The detail row of the worked example in the realm `40000`. -/
def exFarRealmRow : List GoString :=
  [ascii "x", ascii "40000", ascii "2", ascii "3", ascii "15", ascii "y", ascii "z",
   ascii "11", ascii "22", ascii "33", ascii "44", ascii "55", ascii "66"]

/-- Collaborators that never fail, with the listing `objects`; every object
holds the empty stream. -/
def exListing (objects : List S3Object) : Services :=
  { NewDatabase := none
    QueryUnescape := fun k => Except.ok k
    GetObject := fun _ _ => Except.ok []
    ListObjectsV2 := fun _ _ => Except.ok objects
    ReplacePriceAverages := fun _ => none
    recentPath := ascii "results/aggregates/interval=1" }

end AvgPrices

namespace AvgPrices

/-! ## Rows -/

theorem getElem?_of_lt (row : List GoString) (i : Nat) (h : i < row.length) :
    row[i]? = some (field row i) := by
  rw [field, List.getD_eq_getElem?_getD, List.getElem?_eq_getElem h]
  simp

theorem parseDetail_of_le (row : List GoString) (h : 13 ≤ row.length) :
    parseDetail row = some (detailFields row) := by
  unfold parseDetail
  rw [getElem?_of_lt row 1 (by omega), getElem?_of_lt row 2 (by omega),
    getElem?_of_lt row 3 (by omega), getElem?_of_lt row 4 (by omega),
    getElem?_of_lt row 7 (by omega), getElem?_of_lt row 8 (by omega),
    getElem?_of_lt row 9 (by omega), getElem?_of_lt row 10 (by omega),
    getElem?_of_lt row 11 (by omega), getElem?_of_lt row 12 (by omega)]
  rfl

theorem parseDetail_of_lt (row : List GoString) (h : row.length < 13) :
    parseDetail row = none := by
  have h12 : row[12]? = none := List.getElem?_eq_none (by omega)
  unfold parseDetail
  simp only [h12]
  cases row[1]? <;> cases row[2]? <;> cases row[3]? <;> cases row[4]? <;>
  cases row[7]? <;> cases row[8]? <;> cases row[9]? <;> cases row[10]? <;>
  cases row[11]? <;> rfl

theorem readRow_of_le (row : List GoString) (h : 11 ≤ row.length) :
    readRow row = some (baselineKey row, baselineEntry row) := by
  unfold readRow
  rw [getElem?_of_lt row 0 (by omega), getElem?_of_lt row 1 (by omega),
    getElem?_of_lt row 2 (by omega), getElem?_of_lt row 3 (by omega),
    getElem?_of_lt row 4 (by omega), getElem?_of_lt row 5 (by omega),
    getElem?_of_lt row 6 (by omega), getElem?_of_lt row 7 (by omega),
    getElem?_of_lt row 8 (by omega), getElem?_of_lt row 9 (by omega),
    getElem?_of_lt row 10 (by omega)]
  rfl

theorem readRow_of_lt (row : List GoString) (h : row.length < 11) :
    readRow row = none := by
  have h10 : row[10]? = none := List.getElem?_eq_none (by omega)
  unfold readRow
  simp only [h10]
  cases row[0]? <;> cases row[1]? <;> cases row[2]? <;> cases row[3]? <;>
  cases row[4]? <;> cases row[5]? <;> cases row[6]? <;> cases row[7]? <;>
  cases row[8]? <;> cases row[9]? <;> rfl

theorem enrichRow_miss (P : Platform) (t : Table) (row : List GoString)
    (h : 13 ≤ row.length) (hk : t (detailKey row) = none) :
    enrichRow P t row = Outcome.error (Error.noPriceAverage (detailKey row)) := by
  unfold enrichRow
  rw [parseDetail_of_le row h]
  show (match t (detailKey row) with
    | none => Outcome.error (Error.noPriceAverage (detailKey row))
    | some pa => Outcome.ok (enrichRecord P (detailFields row) pa)) = _
  rw [hk]

theorem enrichRow_hit (P : Platform) (t : Table) (row : List GoString) (pa : PriceAverage)
    (h : 13 ≤ row.length) (hk : t (detailKey row) = some pa) :
    enrichRow P t row = Outcome.ok (enrichRecord P (detailFields row) pa) := by
  unfold enrichRow
  rw [parseDetail_of_le row h]
  show (match t (detailKey row) with
    | none => Outcome.error (Error.noPriceAverage (detailKey row))
    | some pa => Outcome.ok (enrichRecord P (detailFields row) pa)) = _
  rw [hk]

theorem enrichRow_short (P : Platform) (t : Table) (row : List GoString)
    (h : row.length < 13) : enrichRow P t row = Outcome.panic := by
  unfold enrichRow
  rw [parseDetail_of_lt row h]

/-- What `csvRead` returns on a record. -/
theorem csvRead_record (fpr : Nat) (row : List GoString) :
    csvRead fpr (RawItem.record row) =
      if 0 < fpr ∧ row.length ≠ fpr then (Except.error Error.csvFieldCount, fpr)
      else (Except.ok row, if 0 < fpr then fpr else row.length) := by
  unfold csvRead
  by_cases h1 : 0 < fpr <;> by_cases h2 : row.length ≠ fpr <;> simp [h1, h2]

theorem enrichLoop_missing (P : Platform) (t : Table) (rows : List (List GoString))
    (h13 : ∀ r ∈ rows, 13 ≤ r.length)
    (hmiss : ∃ r ∈ rows, t (detailKey r) = none) :
    ∀ (fpr : Nat) (acc : List auctions_db.PriceAverage),
      ∃ e, enrichLoop P t fpr (rows.map RawItem.record) acc = Outcome.error e := by
  induction rows with
  | nil => obtain ⟨r, hr, _⟩ := hmiss; simp at hr
  | cons r rest ih =>
    intro fpr acc
    have hr13 : 13 ≤ r.length := h13 r (List.mem_cons_self _ _)
    simp only [List.map_cons, enrichLoop, csvRead_record]
    by_cases hf : 0 < fpr ∧ r.length ≠ fpr
    · rw [if_pos hf]; exact ⟨_, rfl⟩
    · rw [if_neg hf]
      cases hk : t (detailKey r) with
      | none => simp only [enrichRow_miss P t r hr13 hk]; exact ⟨_, rfl⟩
      | some pa =>
        simp only [enrichRow_hit P t r pa hr13 hk]
        obtain ⟨r0, hr0, hnone⟩ := hmiss
        rcases List.mem_cons.1 hr0 with heq | hmem
        · subst heq; rw [hk] at hnone; cases hnone
        · exact ih (fun x hx => h13 x (List.mem_cons_of_mem _ hx)) ⟨r0, hmem, hnone⟩ _ _

/-- C1. When a data row of the detail stream (rows of at least 13 fields) has
a key that is absent from the table, `enrichData` returns an error and no
records, and `handler`, once it has reached the enrichment with that stream
and table, returns that error wrapped and never calls
`ReplacePriceAverages`. -/
theorem enrichData_missing_baseline (P : Platform) (table : Table) (hdr : List GoString)
    (rows : List (List GoString))
    (h13 : ∀ r ∈ rows, 13 ≤ r.length)
    (hmiss : ∃ r ∈ rows, table (detailKey r) = none) :
    ∃ e, enrichData P (csvStream hdr rows) table = Outcome.error e ∧
      ∀ (S : Services) (record : S3EventRecord) (others : List S3EventRecord)
        (key : GoString) (hist : Stream),
        S.NewDatabase = none → S.QueryUnescape record.ObjectKey = Except.ok key →
        S.GetObject record.BucketName key = Except.ok hist → read hist = Outcome.ok table →
        downloadRecent S (ascii "sod-auctions") S.recentPath =
          Except.ok (csvStream hdr rows) →
        handler S P (record :: others) =
          { result := HandlerResult.failed Stage.enriching e, replaced := [] } := by
  obtain ⟨e, he⟩ : ∃ e, enrichData P (csvStream hdr rows) table = Outcome.error e := by
    simp only [enrichData, csvStream, csvRead_record]
    exact enrichLoop_missing P table rows h13 hmiss _ _
  refine ⟨e, he, ?_⟩
  intro S record others key hist h1 h2 h3 h4 h5
  simp only [handler, h1, h2, h3, h4, h5, he]

/-- Witness of C1: an empty table and one detail row of 13 empty fields. -/
theorem enrichData_missing_baseline_witness :
    ∃ e, enrichData exPlatform (csvStream (exHeader 13) [List.replicate 13 []]) Table.empty
        = Outcome.error e ∧
      handler (exServices [RawItem.record (exHeader 12)]
          (csvStream (exHeader 13) [List.replicate 13 []])) exPlatform exEvent =
        { result := HandlerResult.failed Stage.enriching e, replaced := [] } := by
  obtain ⟨e, he, hh⟩ := enrichData_missing_baseline exPlatform Table.empty (exHeader 13)
    [List.replicate 13 []] (by decide) ⟨List.replicate 13 [], by decide, rfl⟩
  exact ⟨e, he, hh (exServices [RawItem.record (exHeader 12)]
    (csvStream (exHeader 13) [List.replicate 13 []])) { BucketName := ascii "b", ObjectKey := ascii "k" } []
    (ascii "k") [RawItem.record (exHeader 12)] rfl rfl rfl rfl rfl⟩

end AvgPrices

namespace AvgPrices

/-! ## Machine integers and `strconv.Atoi` -/

theorem wrapInt64_range (n : Int) : -2 ^ 63 ≤ wrapInt 64 n ∧ wrapInt 64 n < 2 ^ 63 := by
  unfold wrapInt
  have h1 := Int.emod_nonneg (n + 2 ^ (64 - 1)) (by norm_num : (2 : Int) ^ 64 ≠ 0)
  have h2 := Int.emod_lt_of_pos (n + 2 ^ (64 - 1)) (by norm_num : (0 : Int) < 2 ^ 64)
  norm_num at h1 h2 ⊢
  omega

theorem wrapInt64_of_range (n : Int) (h1 : -2 ^ 63 ≤ n) (h2 : n < 2 ^ 63) :
    wrapInt 64 n = n := by
  unfold wrapInt
  norm_num at h1 h2 ⊢
  rw [Int.emod_eq_of_lt (by omega) (by omega)]
  omega

theorem wrapInt32_of_range (n : Int) (h1 : -2 ^ 31 ≤ n) (h2 : n < 2 ^ 31) :
    wrapInt 32 n = n := by
  unfold wrapInt
  norm_num at h1 h2 ⊢
  rw [Int.emod_eq_of_lt (by omega) (by omega)]
  omega

theorem atoiFast_bound (cs : List Nat) :
    ∀ (n r : Int), 0 ≤ n → strconv.atoiFast cs n = some r →
      0 ≤ r ∧ r < (n + 1) * 10 ^ cs.length := by
  induction cs with
  | nil =>
    intro n r hn h
    simp only [strconv.atoiFast, Option.some.injEq] at h
    subst h
    simp only [List.length_nil, pow_zero, mul_one]
    omega
  | cons c cs ih =>
    intro n r hn h
    simp only [strconv.atoiFast] at h
    split at h
    · cases h
    · rename_i hd
      have hd9 : ((c + 256 - 48) % 256 : Nat) ≤ 9 := by omega
      have hd9i : (((c + 256 - 48) % 256 : Nat) : Int) ≤ 9 := by exact_mod_cast hd9
      have hd0 : (0 : Int) ≤ (((c + 256 - 48) % 256 : Nat) : Int) := Int.natCast_nonneg _
      obtain ⟨h0, h1⟩ := ih _ r (by positivity) h
      refine ⟨h0, lt_of_lt_of_le h1 ?_⟩
      rw [List.length_cons, pow_succ]
      have hp : (0 : Int) ≤ 10 ^ cs.length := by positivity
      nlinarith

/-- The fast path of `Atoi`, on a string of 1 to 18 bytes. -/
theorem Atoi_fast (c : Nat) (rest : List Nat) (h : (c :: rest).length < 19) :
    strconv.Atoi (c :: rest) =
      if (if c = 45 ∨ c = 43 then rest else c :: rest).length < 1 then
        (0, some strconv.NumError.invalid)
      else
        match strconv.atoiFast (if c = 45 ∨ c = 43 then rest else c :: rest) 0 with
        | none => (0, some strconv.NumError.invalid)
        | some n => (if c = 45 then -n else n, none) := by
  have h0 : 0 < (c :: rest).length ∧ (c :: rest).length < 19 := ⟨by simp, h⟩
  unfold strconv.Atoi
  rw [if_pos h0]
  try rfl

/-- The slow path of `Atoi`. -/
theorem Atoi_slow (f : GoString) (h : ¬ (0 < f.length ∧ f.length < 19)) :
    strconv.Atoi f = strconv.ParseInt f := by
  unfold strconv.Atoi
  rw [if_neg h]

/-- The value `ParseInt` returns is a 64-bit integer. -/
theorem ParseInt_range (f : GoString) :
    -2 ^ 63 ≤ (strconv.ParseInt f).1 ∧ (strconv.ParseInt f).1 < 2 ^ 63 := by
  unfold strconv.ParseInt
  match f with
  | [] => norm_num
  | c :: rest =>
    simp only []
    split
    · norm_num
    · split
      · norm_num
      · split
        · norm_num
        · simp only []
          split
          · exact wrapInt64_range _
          · exact wrapInt64_range _

/-- The result of `Atoi` is a 64-bit `int`. -/
theorem atoi_range (f : GoString) : -2 ^ 63 ≤ atoi f ∧ atoi f < 2 ^ 63 := by
  unfold atoi
  by_cases hlen : 0 < f.length ∧ f.length < 19
  · match f, hlen with
    | [], h => simp at h
    | c :: rest, hlen =>
      rw [Atoi_fast c rest hlen.2]
      have hl : (if c = 45 ∨ c = 43 then rest else c :: rest).length ≤ 18 := by
        split <;> simp only [List.length_cons] at hlen ⊢ <;> omega
      generalize (if c = 45 ∨ c = 43 then rest else c :: rest) = body at hl ⊢
      split
      · norm_num
      · cases hfast : strconv.atoiFast body 0 with
        | none => norm_num
        | some n =>
          simp only []
          obtain ⟨h0, h1⟩ := atoiFast_bound _ 0 n (le_refl 0) hfast
          have hp : (10 : Int) ^ body.length ≤ 10 ^ 18 := pow_le_pow_right₀ (by norm_num) hl
          rw [zero_add, one_mul] at h1
          have h2 : n < 10 ^ 18 := lt_of_lt_of_le h1 hp
          norm_num at h2 ⊢
          split <;> constructor <;> omega
  · rw [Atoi_slow f hlen]
    exact ParseInt_range f

theorem wrapInt64_atoi (f : GoString) : wrapInt 64 (atoi f) = atoi f :=
  wrapInt64_of_range _ (atoi_range f).1 (atoi_range f).2

end AvgPrices

namespace AvgPrices

/-! ## The table built by `read` -/

/-- The table after the rows have been stored one by one. -/
theorem readLoop_ok (rows : List (List GoString)) (h11 : ∀ r ∈ rows, 11 ≤ r.length) :
    ∀ (fpr : Nat) (t t1 : Table),
      readLoop fpr (rows.map RawItem.record) t = Outcome.ok t1 →
      t1 = rows.foldl (fun acc r => acc.set (baselineKey r) (baselineEntry r)) t := by
  induction rows with
  | nil =>
    intro fpr t t1 h
    simp only [List.map_nil, readLoop, Outcome.ok.injEq] at h
    simp [h]
  | cons r rest ih =>
    intro fpr t t1 h
    have hr : 11 ≤ r.length := h11 r (List.mem_cons_self _ _)
    simp only [List.map_cons, readLoop, csvRead_record] at h
    by_cases hf : 0 < fpr ∧ r.length ≠ fpr
    · rw [if_pos hf] at h; cases h
    · rw [if_neg hf] at h
      simp only [readRow_of_le r hr] at h
      simp only [List.foldl_cons]
      exact ih (fun x hx => h11 x (List.mem_cons_of_mem _ hx)) _ _ _ h

/-- The loop of `read` succeeds on rows the reader accepts. -/
theorem readLoop_total (n : Nat) (rows : List (List GoString))
    (h11 : ∀ r ∈ rows, 11 ≤ r.length) (hn : ∀ r ∈ rows, r.length = n) :
    ∀ (fpr : Nat) (t : Table), fpr = 0 ∨ fpr = n →
      ∃ t1, readLoop fpr (rows.map RawItem.record) t = Outcome.ok t1 := by
  induction rows with
  | nil => intro fpr t _; exact ⟨t, rfl⟩
  | cons r rest ih =>
    intro fpr t hfpr
    have hr : 11 ≤ r.length := h11 r (List.mem_cons_self _ _)
    have hrn : r.length = n := hn r (List.mem_cons_self _ _)
    simp only [List.map_cons, readLoop, csvRead_record]
    have hf : ¬ (0 < fpr ∧ r.length ≠ fpr) := by
      rcases hfpr with h | h <;> omega
    rw [if_neg hf]
    simp only [readRow_of_le r hr]
    apply ih (fun x hx => h11 x (List.mem_cons_of_mem _ hx))
      (fun x hx => hn x (List.mem_cons_of_mem _ hx))
    by_cases h0 : 0 < fpr
    · rw [if_pos h0]; rcases hfpr with h | h
      · omega
      · exact Or.inr h
    · rw [if_neg h0]; exact Or.inr hrn

theorem read_csvStream (hdr : List GoString) (rows : List (List GoString)) :
    read (csvStream hdr rows) = readLoop hdr.length (rows.map RawItem.record) Table.empty := by
  simp [read, csvStream, csvRead_record]

/-- A key keeps the entry of the last row stored under it. -/
theorem foldl_set_last (post : List (List GoString)) (r : List GoString)
    (hpost : ∀ x ∈ post, baselineKey x ≠ baselineKey r) :
    ∀ (pre : List (List GoString)) (t : Table),
      (pre ++ r :: post).foldl (fun acc x => acc.set (baselineKey x) (baselineEntry x)) t
        (baselineKey r) = some (baselineEntry r) := by
  intro pre t
  rw [List.foldl_append, List.foldl_cons]
  generalize List.foldl (fun acc x => acc.set (baselineKey x) (baselineEntry x)) t pre = t0
  have key : ∀ (l : List (List GoString)) (u : Table),
      (∀ x ∈ l, baselineKey x ≠ baselineKey r) → u (baselineKey r) = some (baselineEntry r) →
      l.foldl (fun acc x => acc.set (baselineKey x) (baselineEntry x)) u (baselineKey r)
        = some (baselineEntry r) := by
    intro l
    induction l with
    | nil => intro u _ hu; exact hu
    | cons y l ih =>
      intro u hl hu
      rw [List.foldl_cons]
      apply ih _ (fun x hx => hl x (List.mem_cons_of_mem _ hx))
      have hy : baselineKey r ≠ baselineKey y := fun h => hl y (List.mem_cons_self _ _) h.symm
      simp [Table.set, hy, hu]
  exact key post _ hpost (by simp [Table.set])

/-- The table `read` returns holds, for a row that is the last of its key,
the entry built from that row. -/
theorem read_lookup_last (hdr : List GoString) (pre post : List (List GoString))
    (r : List GoString) (h11 : ∀ x ∈ pre ++ r :: post, 11 ≤ x.length)
    (hlast : ∀ x ∈ post, baselineKey x ≠ baselineKey r) (t : Table)
    (ht : read (csvStream hdr (pre ++ r :: post)) = Outcome.ok t) :
    t (baselineKey r) = some (baselineEntry r) := by
  rw [read_csvStream] at ht
  rw [readLoop_ok _ h11 _ _ _ ht]
  exact foldl_set_last post r hlast pre _

/-- C5. When several data rows of the historical stream have the same key,
the entry `read` returns for it is the one built from the last of them alone
(`baselineEntry r` reads no other row); `read` returns a table whenever the
reader accepts the rows. -/
theorem read_last_row_wins (hdr : List GoString) (pre post : List (List GoString))
    (r : List GoString)
    (h11 : ∀ x ∈ pre ++ r :: post, 11 ≤ x.length)
    (hlast : ∀ x ∈ post, baselineKey x ≠ baselineKey r) :
    ((∀ x ∈ pre ++ r :: post, x.length = hdr.length) →
        ∃ t, read (csvStream hdr (pre ++ r :: post)) = Outcome.ok t) ∧
      ∀ t, read (csvStream hdr (pre ++ r :: post)) = Outcome.ok t →
        t (baselineKey r) = some (baselineEntry r) := by
  constructor
  · intro hn
    rw [read_csvStream]
    have h0 : 0 < hdr.length := by
      have := hn r (by simp); have := h11 r (by simp); omega
    exact readLoop_total hdr.length _ h11 hn _ _ (Or.inr rfl)
  · intro t ht
    exact read_lookup_last hdr pre post r h11 hlast t ht

/-- Witness of C5: two rows with the key `1-2-3`, the second one stored. -/
theorem read_last_row_wins_witness :
    (∃ t, read (csvStream (exHeader 12)
        ([List.replicate 12 (ascii "7")] ++ exHistoricalRow :: [])) = Outcome.ok t) ∧
      ∀ t, read (csvStream (exHeader 12)
        ([(ascii "1") :: (ascii "2") :: (ascii "3") :: List.replicate 9 (ascii "7")]
          ++ exHistoricalRow :: [])) = Outcome.ok t →
        t (baselineKey exHistoricalRow) = some (baselineEntry exHistoricalRow) :=
  ⟨(read_last_row_wins (exHeader 12) [List.replicate 12 (ascii "7")] [] exHistoricalRow
      (by decide) (by decide)).1 (by decide),
   (read_last_row_wins (exHeader 12)
      [(ascii "1") :: (ascii "2") :: (ascii "3") :: List.replicate 9 (ascii "7")] []
      exHistoricalRow (by decide) (by decide)).2⟩

/-- C4. When the data rows of the historical stream have pairwise distinct
keys and at least 11 fields, the table `read` returns maps the key of every
row to an entry whose `RowCount` is the parsed column 3 and whose seven sums
are the parsed columns 4 to 10; `read` returns a table whenever the reader
accepts the rows. -/
theorem read_entry_of_row (hdr : List GoString) (rows : List (List GoString))
    (h11 : ∀ r ∈ rows, 11 ≤ r.length)
    (hdistinct : rows.Pairwise (fun a b => baselineKey a ≠ baselineKey b)) :
    ((∀ r ∈ rows, r.length = hdr.length) →
        ∃ t, read (csvStream hdr rows) = Outcome.ok t) ∧
      ∀ t, read (csvStream hdr rows) = Outcome.ok t →
        ∀ r ∈ rows, ∃ e, t (baselineKey r) = some e ∧
          e.RowCount = atoi (field r 3) ∧ e.QuantitySum = atoi (field r 4) ∧
          e.P05Sum = atoi (field r 5) ∧ e.P10Sum = atoi (field r 6) ∧
          e.P25Sum = atoi (field r 7) ∧ e.P50Sum = atoi (field r 8) ∧
          e.P75Sum = atoi (field r 9) ∧ e.P90Sum = atoi (field r 10) := by
  constructor
  · intro hn
    rw [read_csvStream]
    cases rows with
    | nil => exact ⟨_, rfl⟩
    | cons r rest =>
      have h0 : 0 < hdr.length := by
        have := hn r (by simp); have := h11 r (by simp); omega
      exact readLoop_total hdr.length _ h11 hn _ _ (Or.inr rfl)
  · intro t ht r hr
    obtain ⟨pre, post, hsplit⟩ := List.append_of_mem hr
    subst hsplit
    have hpost : ∀ x ∈ post, baselineKey x ≠ baselineKey r := by
      intro x hx
      have h2 := (List.pairwise_append.1 hdistinct).2.1
      exact fun h => (List.rel_of_pairwise_cons h2 hx) h.symm
    refine ⟨baselineEntry r, read_lookup_last hdr pre post r h11 hpost t ht, ?_⟩
    simp [baselineEntry, wrapInt64_atoi]

/-- Witness of C4: the historical row of the worked example. -/
theorem read_entry_of_row_witness :
    (∃ t, read (csvStream (exHeader 12) [exHistoricalRow]) = Outcome.ok t) ∧
      ∀ t, read (csvStream (exHeader 12) [exHistoricalRow]) = Outcome.ok t →
        ∀ r ∈ [exHistoricalRow], ∃ e, t (baselineKey r) = some e ∧
          e.RowCount = atoi (field r 3) ∧ e.QuantitySum = atoi (field r 4) ∧
          e.P05Sum = atoi (field r 5) ∧ e.P10Sum = atoi (field r 6) ∧
          e.P25Sum = atoi (field r 7) ∧ e.P50Sum = atoi (field r 8) ∧
          e.P75Sum = atoi (field r 9) ∧ e.P90Sum = atoi (field r 10) :=
  ⟨(read_entry_of_row (exHeader 12) [exHistoricalRow] (by decide)
      (List.pairwise_singleton _ _)).1 (by decide),
   (read_entry_of_row (exHeader 12) [exHistoricalRow] (by decide)
      (List.pairwise_singleton _ _)).2⟩

end AvgPrices

namespace AvgPrices

/-! ## The records of `enrichData` -/

/-- A row for which the loop body of `enrichData` yields a record. -/
theorem enrichRow_ok (P : Platform) (t : Table) (row : List GoString)
    (x : auctions_db.PriceAverage) (h : enrichRow P t row = Outcome.ok x) :
    13 ≤ row.length ∧ ∃ pa, t (detailKey row) = some pa ∧
      x = enrichRecord P (detailFields row) pa := by
  by_cases hl : 13 ≤ row.length
  · refine ⟨hl, ?_⟩
    cases hk : t (detailKey row) with
    | none => rw [enrichRow_miss P t row hl hk] at h; cases h
    | some pa =>
      rw [enrichRow_hit P t row pa hl hk] at h
      exact ⟨pa, rfl, (Outcome.ok.inj h).symm⟩
  · rw [enrichRow_short P t row (by omega)] at h; cases h

theorem enrichLoop_ok (P : Platform) (t : Table) (items : Stream) :
    ∀ (fpr : Nat) (acc recs : List auctions_db.PriceAverage),
      enrichLoop P t fpr items acc = Outcome.ok recs →
      ∃ rows news, items = rows.map RawItem.record ∧ recs = acc ++ news ∧
        List.Forall₂ (IsRecordOf P t) rows news := by
  induction items with
  | nil =>
    intro fpr acc recs h
    simp only [enrichLoop, Outcome.ok.injEq] at h
    exact ⟨[], [], rfl, by simp [h], List.Forall₂.nil⟩
  | cons item rest ih =>
    intro fpr acc recs h
    cases item with
    | malformed => simp [enrichLoop, csvRead] at h
    | record r =>
      simp only [enrichLoop, csvRead_record] at h
      by_cases hf : 0 < fpr ∧ r.length ≠ fpr
      · rw [if_pos hf] at h; cases h
      · rw [if_neg hf] at h
        simp only [] at h
        cases hrow : enrichRow P t r with
        | error e => rw [hrow] at h; cases h
        | panic => rw [hrow] at h; cases h
        | ok x =>
          rw [hrow] at h
          obtain ⟨rows, news, h1, h2, h3⟩ := ih _ _ _ h
          refine ⟨r :: rows, x :: news, by simp [h1], by simp [h2], ?_⟩
          exact List.Forall₂.cons (enrichRow_ok P t r x hrow).2 h3

/-- C6. When `enrichData` succeeds the stream is a header followed by data
rows, the result has exactly one record per data row (repeated keys
included), and the i-th record is the one built from the i-th data row and
the table entry of its key. -/
theorem enrichData_one_record_per_row (P : Platform) (t : Table) (s : Stream)
    (recs : List auctions_db.PriceAverage) (h : enrichData P s t = Outcome.ok recs) :
    ∃ hdr rows, s = csvStream hdr rows ∧ recs.length = rows.length ∧
      ∀ i (hi : i < rows.length), ∃ pa, t (detailKey (rows.get ⟨i, hi⟩)) = some pa ∧
        recs[i]? = some (enrichRecord P (detailFields (rows.get ⟨i, hi⟩)) pa) := by
  cases s with
  | nil => simp [enrichData] at h
  | cons item rest =>
    cases item with
    | malformed => simp [enrichData, csvRead] at h
    | record hdr =>
      simp only [enrichData, csvRead_record] at h
      rw [if_neg (by simp)] at h
      obtain ⟨rows, news, h1, h2, h3⟩ := enrichLoop_ok P t rest _ _ _ h
      rw [List.nil_append] at h2
      subst h2
      refine ⟨hdr, rows, by rw [h1, csvStream], h3.length_eq.symm, ?_⟩
      intro i hi
      have hi2 : i < recs.length := by rw [← h3.length_eq]; exact hi
      have h4 := List.Forall₂.get h3 hi hi2
      obtain ⟨pa, hk, hx⟩ := h4
      refine ⟨pa, hk, ?_⟩
      rw [List.getElem?_eq_getElem hi2, ← hx]
      rfl

set_option maxRecDepth 100000 in
/-- Witness of C6: the detail row of the worked example, twice. -/
theorem enrichData_one_record_per_row_witness :
    ∃ hdr rows, csvStream (exHeader 13) [exDetailRow, exDetailRow] = csvStream hdr rows ∧
      [enrichRecord exPlatform (detailFields exDetailRow) exBaseline,
        enrichRecord exPlatform (detailFields exDetailRow) exBaseline].length = rows.length ∧
      ∀ i (hi : i < rows.length), ∃ pa, exTable (detailKey (rows.get ⟨i, hi⟩)) = some pa ∧
        [enrichRecord exPlatform (detailFields exDetailRow) exBaseline,
          enrichRecord exPlatform (detailFields exDetailRow) exBaseline][i]? =
          some (enrichRecord exPlatform (detailFields (rows.get ⟨i, hi⟩)) pa) :=
  enrichData_one_record_per_row exPlatform exTable
    (csvStream (exHeader 13) [exDetailRow, exDetailRow]) _ (by decide)

end AvgPrices

namespace AvgPrices

/-! ## The composite key -/

/-- The loop of `fmtUintAux` writes the decimal digits of `u`. -/
theorem fmtUintAux_eq (fuel : Nat) :
    ∀ (u : Nat) (acc : GoString), u ≤ fuel → 0 < u →
      fmtUintAux fuel u acc = ((Nat.digits 10 u).reverse.map (fun d => 48 + d)) ++ acc := by
  induction fuel with
  | zero => intro u acc h1 h2; omega
  | succ fuel ih =>
    intro u acc h1 h2
    unfold fmtUintAux
    by_cases h10 : 10 ≤ u
    · rw [if_pos h10, ih (u / 10) _ (by omega) (by omega),
        Nat.digits_def' (by norm_num) h2]
      simp
    · rw [if_neg h10, Nat.digits_of_lt 10 u (by omega) (by omega)]
      simp

theorem fmtUint_zero : fmtUint 0 = [48] := rfl

theorem fmtUint_pos (u : Nat) (h : 0 < u) :
    fmtUint u = (Nat.digits 10 u).reverse.map (fun d => 48 + d) := by
  unfold fmtUint
  rw [fmtUintAux_eq u u [] (le_refl u) h, List.append_nil]

/-- The digits are bytes `0` .. `9`, so none of them is the minus sign. -/
theorem fmtUint_digit (u : Nat) : ∀ c ∈ fmtUint u, 48 ≤ c ∧ c ≤ 57 := by
  intro c hc
  rcases Nat.eq_zero_or_pos u with h | h
  · subst h; rw [fmtUint_zero] at hc; simp at hc; omega
  · rw [fmtUint_pos u h] at hc
    simp only [List.mem_map, List.mem_reverse] at hc
    obtain ⟨d, hd, rfl⟩ := hc
    have := Nat.digits_lt_base (by norm_num : 1 < 10) hd
    omega

theorem fmtUint_ne_nil (u : Nat) : fmtUint u ≠ [] := by
  rcases Nat.eq_zero_or_pos u with h | h
  · subst h; rw [fmtUint_zero]; simp
  · rw [fmtUint_pos u h]
    have : Nat.digits 10 u ≠ [] := Nat.digits_ne_nil_iff_ne_zero.2 (by omega)
    simpa using this

theorem map_add_injective : Function.Injective (fun d : Nat => 48 + d) :=
  fun a b h => by simp only at h; omega

/-- A positive value is not written with a leading zero. -/
theorem fmtUint_pos_ne (u : Nat) (h : 0 < u) : fmtUint u ≠ [48] := by
  rw [fmtUint_pos u h]
  intro hc
  have h1 : (Nat.digits 10 u).reverse.map (fun d => 48 + d) = [0].map (fun d => 48 + d) := by
    rw [hc]; rfl
  have h2 := List.map_injective_iff.2 map_add_injective h1
  have h3 : Nat.digits 10 u = [0] := by
    have := congrArg List.reverse h2
    simpa using this
  have h4 := Nat.getLast_digit_ne_zero 10 (m := u) (by omega)
  simp [h3] at h4

theorem fmtUint_injective (a b : Nat) (h : fmtUint a = fmtUint b) : a = b := by
  rcases Nat.eq_zero_or_pos a with ha | ha <;> rcases Nat.eq_zero_or_pos b with hb | hb
  · omega
  · subst ha; rw [fmtUint_zero] at h; exact absurd h.symm (fmtUint_pos_ne b hb)
  · subst hb; rw [fmtUint_zero] at h; exact absurd h (fmtUint_pos_ne a ha)
  · rw [fmtUint_pos a ha, fmtUint_pos b hb] at h
    have h2 := List.map_injective_iff.2 map_add_injective h
    have h3 : Nat.digits 10 a = Nat.digits 10 b := by
      have := congrArg List.reverse h2
      simpa using this
    exact Nat.digits_inj_iff.1 h3

/-- Two texts that agree up to a separator absent from their first parts
have the same first part and the same rest. -/
theorem append_sep_inj (sep : Nat) :
    ∀ (l1 l2 r1 r2 : List Nat), sep ∉ l1 → sep ∉ l2 →
      l1 ++ sep :: r1 = l2 ++ sep :: r2 → l1 = l2 ∧ r1 = r2 := by
  intro l1
  induction l1 with
  | nil =>
    intro l2 r1 r2 _ h2 h
    cases l2 with
    | nil => simpa using h
    | cons b l2 =>
      simp only [List.nil_append, List.cons_append, List.cons.injEq] at h
      exact absurd (h.1 ▸ List.mem_cons_self _ _) h2
  | cons a l1 ih =>
    intro l2 r1 r2 h1 h2 h
    cases l2 with
    | nil =>
      simp only [List.nil_append, List.cons_append, List.cons.injEq] at h
      exact absurd (h.1 ▸ List.mem_cons_self _ _) h1
    | cons b l2 =>
      simp only [List.cons_append, List.cons.injEq] at h
      obtain ⟨e1, e2⟩ := ih l2 r1 r2 (fun hm => h1 (List.mem_cons_of_mem _ hm))
        (fun hm => h2 (List.mem_cons_of_mem _ hm)) h.2
      exact ⟨by rw [h.1, e1], e2⟩

theorem sep_not_mem_fmtUint (u : Nat) : 45 ∉ fmtUint u := by
  intro h
  have := fmtUint_digit u 45 h
  omega

/-- A formatted integer followed by the separator determines the integer
and what follows. -/
theorem fmtInt_sep_inj (a b : Int) (x y : List Nat)
    (h : fmtInt a ++ 45 :: x = fmtInt b ++ 45 :: y) : a = b ∧ x = y := by
  unfold fmtInt at h
  by_cases ha : a < 0 <;> by_cases hb : b < 0
  · rw [if_pos ha, if_pos hb] at h
    simp only [List.cons_append, List.cons.injEq, true_and] at h
    obtain ⟨e1, e2⟩ := append_sep_inj 45 _ _ _ _ (sep_not_mem_fmtUint _)
      (sep_not_mem_fmtUint _) h
    have := fmtUint_injective _ _ e1
    exact ⟨by omega, e2⟩
  · rw [if_pos ha, if_neg hb] at h
    exfalso
    cases hf : fmtUint b.natAbs with
    | nil => exact fmtUint_ne_nil _ hf
    | cons c cs =>
      rw [hf] at h
      simp only [List.cons_append, List.cons.injEq] at h
      have := fmtUint_digit b.natAbs c (by rw [hf]; exact List.mem_cons_self _ _)
      omega
  · rw [if_neg ha, if_pos hb] at h
    exfalso
    cases hf : fmtUint a.natAbs with
    | nil => exact fmtUint_ne_nil _ hf
    | cons c cs =>
      rw [hf] at h
      simp only [List.cons_append, List.cons.injEq] at h
      have := fmtUint_digit a.natAbs c (by rw [hf]; exact List.mem_cons_self _ _)
      omega
  · rw [if_neg ha, if_neg hb] at h
    obtain ⟨e1, e2⟩ := append_sep_inj 45 _ _ _ _ (sep_not_mem_fmtUint _)
      (sep_not_mem_fmtUint _) h
    have := fmtUint_injective _ _ e1
    exact ⟨by omega, e2⟩

theorem fmtInt_injective (a b : Int) (h : fmtInt a = fmtInt b) : a = b :=
  (fmtInt_sep_inj a b [] [] (by rw [h])).1

/-- C7. The key `fmt.Sprintf("%d-%d-%d", r, a, i)`, the one both `read`
(`baselineKey`) and `enrichData` (`detailKey`) build, is injective on integer
triples, negative components included: two keys are equal exactly when the
three components are. -/
theorem compositeKey_injective (r1 a1 i1 r2 a2 i2 : Int) :
    (compositeKey r1 a1 i1 = compositeKey r2 a2 i2 ↔ r1 = r2 ∧ a1 = a2 ∧ i1 = i2) ∧
    (∀ row, baselineKey row =
        compositeKey (atoi (field row 0)) (atoi (field row 1)) (atoi (field row 2))) ∧
    (∀ row, detailKey row =
        compositeKey (atoi (field row 1)) (atoi (field row 2)) (atoi (field row 3))) := by
  refine ⟨⟨?_, ?_⟩, fun _ => rfl, fun _ => rfl⟩
  · intro h
    unfold compositeKey at h
    obtain ⟨e1, h2⟩ := fmtInt_sep_inj _ _ _ _ h
    obtain ⟨e2, h3⟩ := fmtInt_sep_inj _ _ _ _ h2
    exact ⟨e1, e2, fmtInt_injective _ _ h3⟩
  · rintro ⟨rfl, rfl, rfl⟩
    rfl

end AvgPrices

namespace AvgPrices

/-! ## Fields that do not parse -/

/-- The range check of `ParseInt` on the value `un` that `ParseUint` read. -/
theorem ParseInt_of_ParseUint (c : Nat) (rest : List Nat) (un : Nat)
    (e : Option strconv.NumError) (he : e ≠ some strconv.NumError.invalid)
    (h : strconv.ParseUint (if c = 43 ∨ c = 45 then rest else c :: rest) = (un, e)) :
    strconv.ParseInt (c :: rest) =
      if ¬ c = 45 ∧ 2 ^ 63 ≤ un then ((2 ^ 63 : Int) - 1, some strconv.NumError.range)
      else if c = 45 ∧ 2 ^ 63 < un then (-(2 ^ 63 : Int), some strconv.NumError.range)
      else (if c = 45 then wrapInt 64 (-wrapInt 64 un) else wrapInt 64 un, none) := by
  unfold strconv.ParseInt
  simp only [h]
  cases e with
  | none => simp
  | some k =>
    cases k with
    | invalid => exact absurd rfl he
    | range => simp

theorem ParseInt_of_invalid (c : Nat) (rest : List Nat) (un : Nat)
    (h : strconv.ParseUint (if c = 43 ∨ c = 45 then rest else c :: rest)
      = (un, some strconv.NumError.invalid)) :
    strconv.ParseInt (c :: rest) = (0, some strconv.NumError.invalid) := by
  unfold strconv.ParseInt
  simp only [h]

/-- The pair `ParseInt` returns with an error: `0` with a syntax error, the
largest magnitude of the sign with a range error. -/
theorem ParseInt_error (f : GoString) (h : (strconv.ParseInt f).2 ≠ none) :
    ((strconv.ParseInt f).2 = some strconv.NumError.invalid ∧ (strconv.ParseInt f).1 = 0) ∨
    ((strconv.ParseInt f).2 = some strconv.NumError.range ∧
      ((strconv.ParseInt f).1 = 2 ^ 63 - 1 ∨ (strconv.ParseInt f).1 = -2 ^ 63)) := by
  match f with
  | [] => exact Or.inl ⟨rfl, rfl⟩
  | c :: rest =>
    cases hp : strconv.ParseUint (if c = 43 ∨ c = 45 then rest else c :: rest) with
    | mk un e =>
      by_cases he : e = some strconv.NumError.invalid
      · subst he
        rw [ParseInt_of_invalid c rest un hp]
        exact Or.inl ⟨rfl, rfl⟩
      · rw [ParseInt_of_ParseUint c rest un e he hp] at h ⊢
        by_cases h1 : ¬ c = 45 ∧ 2 ^ 63 ≤ un
        · rw [if_pos h1]; exact Or.inr ⟨rfl, Or.inl rfl⟩
        · rw [if_neg h1] at h ⊢
          by_cases h2 : c = 45 ∧ 2 ^ 63 < un
          · rw [if_pos h2]; exact Or.inr ⟨rfl, Or.inr rfl⟩
          · rw [if_neg h2] at h
            exact absurd rfl h

/-- The pair `Atoi` returns with an error. -/
theorem Atoi_error (f : GoString) (h : (strconv.Atoi f).2 ≠ none) :
    ((strconv.Atoi f).2 = some strconv.NumError.invalid ∧ atoi f = 0) ∨
    ((strconv.Atoi f).2 = some strconv.NumError.range ∧
      (atoi f = 2 ^ 63 - 1 ∨ atoi f = -2 ^ 63)) := by
  unfold atoi
  by_cases hlen : 0 < f.length ∧ f.length < 19
  · match f, hlen with
    | [], hl => simp at hl
    | c :: rest, hlen =>
      rw [Atoi_fast c rest hlen.2] at h ⊢
      generalize (if c = 45 ∨ c = 43 then rest else c :: rest) = body at h ⊢
      by_cases hb : body.length < 1
      · rw [if_pos hb]; exact Or.inl ⟨rfl, rfl⟩
      · rw [if_neg hb] at h ⊢
        cases hfast : strconv.atoiFast body 0 with
        | none => exact Or.inl ⟨rfl, rfl⟩
        | some n => rw [hfast] at h; exact absurd rfl h
  · rw [Atoi_slow f hlen] at h ⊢
    exact ParseInt_error f h

/-- The empty field is a syntax error. -/
theorem Atoi_empty : strconv.Atoi [] = (0, some strconv.NumError.invalid) := rfl

/-- Counterexample to C10: the field `99999999999999999999` is rejected by
`Atoi` (a range error), yet the value used is `9223372036854775807`, not `0`;
`read` stores it as the row count of the entry. -/
theorem rejected_field_not_zero :
    (strconv.Atoi (ascii "99999999999999999999")).2 = some strconv.NumError.range ∧
    atoi (ascii "99999999999999999999") = 9223372036854775807 ∧
    atoi (ascii "99999999999999999999") ≠ 0 ∧
    (∃ t, read (csvStream (exHeader 11)
        [[ascii "1", ascii "2", ascii "3", ascii "99999999999999999999", ascii "5", ascii "5",
          ascii "5", ascii "5", ascii "5", ascii "5", ascii "5"]]) = Outcome.ok t ∧
      (t (ascii "1-2-3")).map PriceAverage.RowCount = some 9223372036854775807) := by
  refine ⟨by decide, by decide, by decide, ?_⟩
  refine ⟨_, rfl, ?_⟩
  decide

end AvgPrices

namespace AvgPrices

/-! ## Rounding to a binary format -/

theorem ilog2Aux_spec (fuel : Nat) :
    ∀ n, 0 < n → n ≤ fuel → 2 ^ ilog2Aux fuel n ≤ n ∧ n < 2 ^ (ilog2Aux fuel n + 1) := by
  induction fuel with
  | zero => intro n h1 h2; omega
  | succ fuel ih =>
    intro n h1 h2
    unfold ilog2Aux
    by_cases h : 2 ≤ n
    · rw [if_pos h]
      obtain ⟨i1, i2⟩ := ih (n / 2) (by omega) (by omega)
      constructor
      · rw [pow_succ]; omega
      · rw [pow_succ] at i2 ⊢; omega
    · rw [if_neg h]
      simp only [pow_zero, zero_add, pow_one]
      omega

theorem ilog2_spec (n : Nat) (h : 0 < n) : 2 ^ ilog2 n ≤ n ∧ n < 2 ^ (ilog2 n + 1) :=
  ilog2Aux_spec n n h (le_refl n)

/-- The value of `ilog2` is fixed by the two bounds. -/
theorem ilog2_eq (n k : Nat) (h1 : 2 ^ k ≤ n) (h2 : n < 2 ^ (k + 1)) : ilog2 n = k := by
  have hn : 0 < n := lt_of_lt_of_le (by positivity) h1
  obtain ⟨i1, i2⟩ := ilog2_spec n hn
  have a1 : 2 ^ k < 2 ^ (ilog2 n + 1) := lt_of_le_of_lt h1 i2
  have a2 : 2 ^ ilog2 n < 2 ^ (k + 1) := lt_of_le_of_lt i1 h2
  have b1 := (Nat.pow_lt_pow_iff_right (by norm_num : 1 < 2)).1 a1
  have b2 := (Nat.pow_lt_pow_iff_right (by norm_num : 1 < 2)).1 a2
  omega

/-- The exponent `floorLog2 a b` brackets the fraction `a / b`. -/
theorem floorLog2_spec (a b : Nat) (ha : 0 < a) (hb : 0 < b) :
    (2 : ℚ) ^ (floorLog2 a b) ≤ (a : ℚ) / b ∧ (a : ℚ) / b < (2 : ℚ) ^ (floorLog2 a b + 1) := by
  obtain ⟨a1, a2⟩ := ilog2_spec a ha
  obtain ⟨b1, b2⟩ := ilog2_spec b hb
  have hbq : (0 : ℚ) < b := by exact_mod_cast hb
  have a1q : (2 : ℚ) ^ ilog2 a ≤ a := by exact_mod_cast a1
  have a2q : (a : ℚ) < 2 * 2 ^ ilog2 a := by
    have : (a : ℚ) < 2 ^ (ilog2 a + 1) := by exact_mod_cast a2
    rw [pow_succ] at this; linarith
  have b1q : (2 : ℚ) ^ ilog2 b ≤ b := by exact_mod_cast b1
  have b2q : (b : ℚ) < 2 * 2 ^ ilog2 b := by
    have : (b : ℚ) < 2 ^ (ilog2 b + 1) := by exact_mod_cast b2
    rw [pow_succ] at this; linarith
  have pa : (0 : ℚ) < 2 ^ ilog2 a := by positivity
  have pb : (0 : ℚ) < 2 ^ ilog2 b := by positivity
  have e0 : (2 : ℚ) ^ ((ilog2 a : ℤ) - ilog2 b) = 2 ^ ilog2 a / 2 ^ ilog2 b := by
    rw [zpow_sub₀ (by norm_num), zpow_natCast, zpow_natCast]
  have e1 : (2 : ℚ) ^ ((ilog2 a : ℤ) - ilog2 b + 1) = 2 * 2 ^ ilog2 a / 2 ^ ilog2 b := by
    rw [zpow_add_one₀ (by norm_num), e0]; ring
  have em : (2 : ℚ) ^ ((ilog2 a : ℤ) - ilog2 b - 1) = 2 ^ ilog2 a / (2 * 2 ^ ilog2 b) := by
    rw [zpow_sub_one₀ (by norm_num), e0]; field_simp; ring
  unfold floorLog2
  by_cases hc : b * 2 ^ ilog2 a ≤ a * 2 ^ ilog2 b
  · rw [if_pos hc]
    have hcq : (b : ℚ) * 2 ^ ilog2 a ≤ a * 2 ^ ilog2 b := by exact_mod_cast hc
    rw [e0, e1]
    constructor
    · rw [div_le_div_iff₀ pb hbq]; linarith
    · rw [div_lt_div_iff₀ hbq pb]; nlinarith
  · rw [if_neg hc]
    have hcq : (a : ℚ) * 2 ^ ilog2 b < b * 2 ^ ilog2 a := by
      have := Nat.lt_of_not_le hc; exact_mod_cast this
    rw [em, sub_add_cancel, e0]
    constructor
    · rw [div_le_div_iff₀ (by positivity) hbq]; nlinarith
    · rw [div_lt_div_iff₀ hbq pb]; linarith

/-- The integer `roundNearestEven n d` is within one half of `n / d`. -/
theorem roundNearestEven_spec (n d : Nat) (hd : 0 < d) :
    |((roundNearestEven n d : ℕ) : ℚ) - (n : ℚ) / d| ≤ 1 / 2 := by
  have hdq : (0 : ℚ) < d := by exact_mod_cast hd
  have hdiv : (n : ℚ) = d * (n / d : ℕ) + (n % d : ℕ) := by exact_mod_cast (Nat.div_add_mod n d).symm
  have hmod : n % d < d := Nat.mod_lt n hd
  have hmodq : ((n % d : ℕ) : ℚ) < d := by exact_mod_cast hmod
  have hmod0 : (0 : ℚ) ≤ ((n % d : ℕ) : ℚ) := by positivity
  have key : ∀ r : ℕ, -(d : ℚ) ≤ 2 * ((d : ℚ) * r - n) → 2 * ((d : ℚ) * r - n) ≤ d →
      |(r : ℚ) - (n : ℚ) / d| ≤ 1 / 2 := by
    intro r hr1 hr2
    have : (r : ℚ) - (n : ℚ) / d = ((d : ℚ) * r - n) / d := by field_simp; ring
    rw [this, abs_le]
    constructor
    · rw [le_div_iff₀ hdq]; linarith
    · rw [div_le_iff₀ hdq]; linarith
  unfold roundNearestEven
  by_cases h1 : 2 * (n % d) < d
  · rw [if_pos h1]
    have h1q : 2 * ((n % d : ℕ) : ℚ) < d := by exact_mod_cast h1
    apply key <;> linarith
  · rw [if_neg h1]
    by_cases h2 : d < 2 * (n % d)
    · rw [if_pos h2]
      have h2q : (d : ℚ) < 2 * ((n % d : ℕ) : ℚ) := by exact_mod_cast h2
      apply key <;> push_cast <;> linarith
    · rw [if_neg h2]
      have h3 : 2 * (n % d) = d := by omega
      have h3q : 2 * ((n % d : ℕ) : ℚ) = d := by exact_mod_cast h3
      split
      · apply key <;> linarith
      · apply key <;> push_cast <;> linarith

/-- An exact quotient is returned as it is. -/
theorem roundNearestEven_exact (d k : Nat) (hd : 0 < d) : roundNearestEven (d * k) d = k := by
  unfold roundNearestEven
  have h1 : d * k % d = 0 := Nat.mul_mod_right d k
  have h2 : d * k / d = k := Nat.mul_div_cancel_left k hd
  rw [h1, h2, if_pos (by omega)]

theorem two_zpow_toNat (k : ℤ) (hk : 0 ≤ k) : ((2 ^ k.toNat : ℕ) : ℚ) = (2 : ℚ) ^ k := by
  conv_rhs => rw [← Int.toNat_of_nonneg hk]
  rw [zpow_natCast]
  push_cast
  rfl

/-- The two branches of `FloatFormat.round` round the same scaled fraction. -/
theorem scaled_ratio (a b : Nat) (hb : 0 < b) (q : ℤ) :
    ∃ n d : ℕ, 0 < d ∧
      (if 0 ≤ q then roundNearestEven a (b * 2 ^ q.toNat)
        else roundNearestEven (a * 2 ^ (-q).toNat) b) = roundNearestEven n d ∧
      (n : ℚ) / d = (a : ℚ) / b * (2 : ℚ) ^ (-q) := by
  have hbq : (0 : ℚ) < b := by exact_mod_cast hb
  by_cases hq : 0 ≤ q
  · refine ⟨a, b * 2 ^ q.toNat, by positivity, by rw [if_pos hq], ?_⟩
    have h2 : (0 : ℚ) < (2 : ℚ) ^ q := by positivity
    push_cast
    have := two_zpow_toNat q hq
    push_cast at this
    rw [this, zpow_neg]
    field_simp
  · refine ⟨a * 2 ^ (-q).toNat, b, hb, by rw [if_neg hq], ?_⟩
    push_cast
    have := two_zpow_toNat (-q) (by omega)
    push_cast at this
    rw [this]
    ring

/-- What `binary64.round` returns in the normal range: a finite value within
half a unit in the last place of the fraction, and the fraction itself when
it has the form `K * 2^(e - 52)`. -/
theorem round64_spec (s : Bool) (a b : Nat) (ha : 0 < a) (hb : 0 < b)
    (he1 : -1022 ≤ floorLog2 a b) (he2 : floorLog2 a b ≤ 1022) :
    ∃ m q, binary64.round s a b = GoFloat.fin s m q ∧ 0 < m ∧
      |(m : ℚ) * (2 : ℚ) ^ q - (a : ℚ) / b| ≤ (2 : ℚ) ^ (floorLog2 a b - 53) ∧
      (∀ K : ℕ, (a : ℚ) / b = K * (2 : ℚ) ^ (floorLog2 a b - 52) →
        m = K ∧ q = floorLog2 a b - 52) := by
  obtain ⟨l1, l2⟩ := floorLog2_spec a b ha hb
  generalize he : floorLog2 a b = e at he1 he2 l1 l2
  obtain ⟨n, d, hd, hnd, hy⟩ := scaled_ratio a b hb (e - 52)
  have hdq : (0 : ℚ) < d := by exact_mod_cast hd
  have hM := roundNearestEven_spec n d hd
  rw [hy] at hM
  have hunf : binary64.round s a b =
      if roundNearestEven n d = 2 ^ 53 then GoFloat.fin s (2 ^ 52) (e - 52 + 1)
      else GoFloat.fin s (roundNearestEven n d) (e - 52) := by
    unfold FloatFormat.round binary64
    simp only [he]
    rw [if_neg (by omega)]
    have hmax : max (e - (((53 : ℕ) : ℤ) - 1)) (-1074) = e - 52 := by
      rw [max_eq_left (by omega)]; norm_num
    simp only [hmax, hnd]
    by_cases hm : roundNearestEven n d = 2 ^ 53
    · simp only [hm, if_true]
      rw [if_neg (by omega)]
    · simp only [hm, if_false]
      rw [if_neg (by omega)]
  have p52 : (0 : ℚ) < (2 : ℚ) ^ (e - 52) := by positivity
  have esplit : (2 : ℚ) ^ e = 2 ^ (52 : ℕ) * (2 : ℚ) ^ (e - 52) := by
    rw [← zpow_natCast, ← zpow_add₀ (by norm_num)]; congr 1; omega
  have esplit1 : (2 : ℚ) ^ (e + 1) = 2 ^ (53 : ℕ) * (2 : ℚ) ^ (e - 52) := by
    rw [← zpow_natCast, ← zpow_add₀ (by norm_num)]; congr 1; omega
  have e53 : (2 : ℚ) ^ (e - 53) = (2 : ℚ) ^ (e - 52) / 2 := by
    have : e - 53 = e - 52 - 1 := by omega
    rw [this, zpow_sub_one₀ (by norm_num)]; ring
  have hneg : (2 : ℚ) ^ (-(e - 52)) = ((2 : ℚ) ^ (e - 52))⁻¹ := zpow_neg _ _
  -- the scaled fraction lies in [2^52, 2^53)
  have hy1 : (2 : ℚ) ^ (52 : ℕ) ≤ (a : ℚ) / b * (2 : ℚ) ^ (-(e - 52)) := by
    rw [hneg, ← div_eq_mul_inv, le_div_iff₀ p52]; linarith
  have hy2 : (a : ℚ) / b * (2 : ℚ) ^ (-(e - 52)) < 2 ^ (53 : ℕ) := by
    rw [hneg, ← div_eq_mul_inv, div_lt_iff₀ p52]; linarith
  have hMpos : 0 < roundNearestEven n d := by
    by_contra h0
    have h0' : roundNearestEven n d = 0 := by omega
    rw [h0'] at hM
    have := (abs_le.1 hM).1
    norm_num at this hy1
    linarith
  -- the value is the rounded significand times the unit
  have hval : |((roundNearestEven n d : ℕ) : ℚ) * (2 : ℚ) ^ (e - 52) - (a : ℚ) / b|
      ≤ (2 : ℚ) ^ (e - 53) := by
    have h1 : ((roundNearestEven n d : ℕ) : ℚ) * (2 : ℚ) ^ (e - 52) - (a : ℚ) / b
        = (((roundNearestEven n d : ℕ) : ℚ) - (a : ℚ) / b * (2 : ℚ) ^ (-(e - 52)))
          * (2 : ℚ) ^ (e - 52) := by
      rw [hneg]; field_simp; ring
    rw [h1, abs_mul, abs_of_pos p52, e53]
    have := mul_le_mul_of_nonneg_right hM (le_of_lt p52)
    linarith
  have hexact : ∀ K : ℕ, (a : ℚ) / b = K * (2 : ℚ) ^ (e - 52) →
      roundNearestEven n d = K ∧ K < 2 ^ 53 := by
    intro K hK
    have hyK : (n : ℚ) / d = K := by
      rw [hy, hK, hneg]; field_simp
    have hnK : n = d * K := by
      have : (n : ℚ) = d * K := by
        rw [div_eq_iff (ne_of_gt hdq)] at hyK; linarith
      exact_mod_cast this
    refine ⟨by rw [hnK]; exact roundNearestEven_exact d K hd, ?_⟩
    have : (K : ℚ) < 2 ^ (53 : ℕ) := by
      have h3 : (K : ℚ) * (2 : ℚ) ^ (e - 52) < 2 ^ (53 : ℕ) * (2 : ℚ) ^ (e - 52) := by
        rw [← hK, ← esplit1]; exact l2
      exact lt_of_mul_lt_mul_right h3 (le_of_lt p52)
    exact_mod_cast this
  by_cases hm : roundNearestEven n d = 2 ^ 53
  · rw [if_pos hm] at hunf
    refine ⟨2 ^ 52, e - 52 + 1, hunf, by positivity, ?_, ?_⟩
    · have : ((2 ^ 52 : ℕ) : ℚ) * (2 : ℚ) ^ (e - 52 + 1)
          = ((roundNearestEven n d : ℕ) : ℚ) * (2 : ℚ) ^ (e - 52) := by
        rw [hm, zpow_add_one₀ (by norm_num)]; push_cast; ring
      rw [this]; exact hval
    · intro K hK
      obtain ⟨h1, h2⟩ := hexact K hK
      omega
  · rw [if_neg hm] at hunf
    refine ⟨roundNearestEven n d, e - 52, hunf, hMpos, hval, ?_⟩
    intro K hK
    exact ⟨(hexact K hK).1, rfl⟩

end AvgPrices

namespace AvgPrices

/-! ## Conversions between integers and `float64` -/

/-- An upper bound of the fraction bounds its exponent. -/
theorem floorLog2_lt (a b : Nat) (ha : 0 < a) (hb : 0 < b) (k : ℤ)
    (h : (a : ℚ) / b < (2 : ℚ) ^ k) : floorLog2 a b < k := by
  have h1 := (floorLog2_spec a b ha hb).1
  exact (zpow_lt_zpow_iff_right₀ (by norm_num : (1 : ℚ) < 2)).1 (lt_of_le_of_lt h1 h)

/-- A lower bound of the fraction bounds its exponent. -/
theorem le_floorLog2 (a b : Nat) (ha : 0 < a) (hb : 0 < b) (k : ℤ)
    (h : (2 : ℚ) ^ k ≤ (a : ℚ) / b) : k ≤ floorLog2 a b := by
  have h2 := (floorLog2_spec a b ha hb).2
  have := (zpow_lt_zpow_iff_right₀ (by norm_num : (1 : ℚ) < 2)).1 (lt_of_le_of_lt h h2)
  omega

/-- An integer below `2^53` is converted exactly. -/
theorem round64_nat_exact (s : Bool) (a : Nat) (ha : 0 < a) (h53 : a < 2 ^ 53) :
    ∃ m q, binary64.round s a 1 = GoFloat.fin s m q ∧ 0 < m ∧
      (m : ℚ) * (2 : ℚ) ^ q = a := by
  have hx : ((a : ℚ)) / ((1 : ℕ) : ℚ) = a := by simp
  have e0 : 0 ≤ floorLog2 a 1 := by
    apply le_floorLog2 a 1 ha (by norm_num)
    rw [hx, zpow_zero]; exact_mod_cast ha
  have e1 : floorLog2 a 1 < 53 := by
    apply floorLog2_lt a 1 ha (by norm_num)
    rw [hx]
    have : (a : ℚ) < 2 ^ (53 : ℕ) := by exact_mod_cast h53
    exact_mod_cast this
  obtain ⟨m, q, hr, hm, _, hex⟩ := round64_spec s a 1 ha (by norm_num) (by omega) (by omega)
  refine ⟨m, q, hr, hm, ?_⟩
  have hK := hex (a * 2 ^ (52 - floorLog2 a 1).toNat) (by
    rw [hx]
    push_cast
    have := two_zpow_toNat (52 - floorLog2 a 1) (by omega)
    push_cast at this
    rw [this, mul_assoc, ← zpow_add₀ (by norm_num)]
    have : 52 - floorLog2 a 1 + (floorLog2 a 1 - 52) = 0 := by omega
    rw [this, zpow_zero, mul_one])
  obtain ⟨hm1, hq1⟩ := hK
  rw [hm1, hq1]
  push_cast
  have := two_zpow_toNat (52 - floorLog2 a 1) (by omega)
  push_cast at this
  rw [this, mul_assoc, ← zpow_add₀ (by norm_num)]
  have : 52 - floorLog2 a 1 + (floorLog2 a 1 - 52) = 0 := by omega
  rw [this, zpow_zero, mul_one]

/-- A positive 64-bit integer is converted with a relative error of at most
`2^-53`. -/
theorem round64_nat_near (s : Bool) (c : Nat) (hc : 0 < c) (h64 : c < 2 ^ 64) :
    ∃ m q, binary64.round s c 1 = GoFloat.fin s m q ∧ 0 < m ∧
      |(m : ℚ) * (2 : ℚ) ^ q - c| ≤ (c : ℚ) / 2 ^ (53 : ℕ) := by
  have hx : ((c : ℚ)) / ((1 : ℕ) : ℚ) = c := by simp
  have e0 : 0 ≤ floorLog2 c 1 := by
    apply le_floorLog2 c 1 hc (by norm_num)
    rw [hx, zpow_zero]; exact_mod_cast hc
  have e1 : floorLog2 c 1 < 64 := by
    apply floorLog2_lt c 1 hc (by norm_num)
    rw [hx]
    have : (c : ℚ) < 2 ^ (64 : ℕ) := by exact_mod_cast h64
    exact_mod_cast this
  obtain ⟨m, q, hr, hm, hv, _⟩ := round64_spec s c 1 hc (by norm_num) (by omega) (by omega)
  refine ⟨m, q, hr, hm, ?_⟩
  rw [hx] at hv
  refine le_trans hv ?_
  have l1 := (floorLog2_spec c 1 hc (by norm_num)).1
  rw [hx] at l1
  have : (2 : ℚ) ^ (floorLog2 c 1 - 53) = (2 : ℚ) ^ (floorLog2 c 1) / 2 ^ (53 : ℕ) := by
    rw [zpow_sub₀ (by norm_num)]; norm_cast
  rw [this]
  exact div_le_div_of_nonneg_right l1 (by positivity)

/-- The fraction `F64.div` rounds is the quotient of the two values. -/
theorem div_ratio (m n : Nat) (e f : ℤ) (hn : 0 < n) :
    ((m * 2 ^ (e - f).toNat : ℕ) : ℚ) / ((n * 2 ^ (f - e).toNat : ℕ) : ℚ)
      = ((m : ℚ) * (2 : ℚ) ^ e) / ((n : ℚ) * (2 : ℚ) ^ f) := by
  have hnq : (0 : ℚ) < n := by exact_mod_cast hn
  have pe : (0 : ℚ) < (2 : ℚ) ^ e := by positivity
  have pf : (0 : ℚ) < (2 : ℚ) ^ f := by positivity
  by_cases h : 0 ≤ e - f
  · have h1 := two_zpow_toNat (e - f) h
    have h2 : (f - e).toNat = 0 := by omega
    rw [h2]
    push_cast at h1 ⊢
    rw [h1, zpow_sub₀ (by norm_num)]
    field_simp
    left
    ring
  · have h1 := two_zpow_toNat (f - e) (by omega)
    have h2 : (e - f).toNat = 0 := by omega
    rw [h2]
    push_cast at h1 ⊢
    rw [h1, zpow_sub₀ (by norm_num)]
    field_simp

/-- The quotient of two finite values with non-zero significands. -/
theorem F64_div_fin (s t : Bool) (m n : Nat) (e f : ℤ) (hn : 0 < n) :
    F64.div (GoFloat.fin s m e) (GoFloat.fin t n f) =
      binary64.round (xor s t) (m * 2 ^ (e - f).toNat) (n * 2 ^ (f - e).toNat) := by
  unfold F64.div
  simp only []
  rw [if_neg (by omega)]

end AvgPrices

namespace AvgPrices

/-! ## `math.Round` and the conversion to `int32` -/

/-- The conversion `int32(f)` of a float whose value is the integer `R`. -/
theorem toInt32_int_value (P : Platform) (sg : Bool) (m : Nat) (q : ℤ) (R : Nat)
    (hv : (m : ℚ) * (2 : ℚ) ^ q = R)
    (hr : -2 ^ 31 ≤ (if sg = true then -(R : ℤ) else R) ∧
      (if sg = true then -(R : ℤ) else R) < 2 ^ 31) :
    F64.toInt32 P (GoFloat.fin sg m q) = if sg = true then -(R : ℤ) else R := by
  have ht : (if 0 ≤ q then m * 2 ^ q.toNat else m / 2 ^ (-q).toNat) = R := by
    by_cases hq : 0 ≤ q
    · rw [if_pos hq]
      have h1 := two_zpow_toNat q hq
      rw [← h1] at hv
      exact_mod_cast hv
    · rw [if_neg hq]
      have h1 := two_zpow_toNat (-q) (by omega)
      have h2 : (m : ℚ) = R * (2 : ℚ) ^ (-q) := by
        rw [← hv, mul_assoc, ← zpow_add₀ (by norm_num)]
        simp
      rw [← h1] at h2
      have h3 : m = R * 2 ^ (-q).toNat := by exact_mod_cast h2
      rw [h3]
      exact Nat.mul_div_cancel _ (by positivity)
  unfold F64.toInt32
  simp only [ht]
  rw [if_pos hr]

/-- The rounding of a zero keeps the zero. -/
theorem round64_zero (s : Bool) (b : Nat) :
    binary64.round s 0 b = GoFloat.fin s 0 (-1074) := by
  unfold FloatFormat.round binary64
  simp

/-- The expression `int32(math.Round(f))` for a finite `f` with
`R - 1/2 ≤ |f| < R + 1/2`. -/
theorem mathRound_toInt32 (P : Platform) (sg : Bool) (m : Nat) (q : ℤ) (R : Nat)
    (h1 : (R : ℚ) - 1 / 2 ≤ (m : ℚ) * (2 : ℚ) ^ q)
    (h2 : (m : ℚ) * (2 : ℚ) ^ q < R + 1 / 2)
    (hr : -2 ^ 31 ≤ (if sg = true then -(R : ℤ) else R) ∧
      (if sg = true then -(R : ℤ) else R) < 2 ^ 31) :
    F64.toInt32 P (mathRound (GoFloat.fin sg m q)) = if sg = true then -(R : ℤ) else R := by
  by_cases hq : 0 ≤ q
  · have hm : mathRound (GoFloat.fin sg m q) = GoFloat.fin sg m q := by
      unfold mathRound; simp only []; rw [if_pos hq]
    rw [hm]
    apply toInt32_int_value P sg m q R _ hr
    have e1 := two_zpow_toNat q hq
    rw [← e1] at h1 h2 ⊢
    have a1 : 2 * R ≤ 2 * (m * 2 ^ q.toNat) + 1 := by
      have : (2 : ℚ) * R ≤ 2 * ((m : ℚ) * ((2 ^ q.toNat : ℕ) : ℚ)) + 1 := by linarith
      exact_mod_cast this
    have a2 : 2 * (m * 2 ^ q.toNat) < 2 * R + 1 := by
      have : 2 * ((m : ℚ) * ((2 ^ q.toNat : ℕ) : ℚ)) < 2 * R + 1 := by linarith
      exact_mod_cast this
    have : m * 2 ^ q.toNat = R := by omega
    exact_mod_cast this
  · have hD := two_zpow_toNat (-q) (by omega)
    have hDpos : 0 < 2 ^ (-q).toNat := by positivity
    have hDq : (0 : ℚ) < ((2 ^ (-q).toNat : ℕ) : ℚ) := by exact_mod_cast hDpos
    have hv : (m : ℚ) * (2 : ℚ) ^ q = (m : ℚ) / ((2 ^ (-q).toNat : ℕ) : ℚ) := by
      rw [hD, zpow_neg, div_eq_mul_inv, inv_inv]
    rw [hv] at h1 h2
    rw [le_div_iff₀ hDq] at h1
    rw [div_lt_iff₀ hDq] at h2
    have a1 : R * (2 * 2 ^ (-q).toNat) ≤ 2 * m + 2 ^ (-q).toNat := by
      have : (R : ℚ) * (2 * ((2 ^ (-q).toNat : ℕ) : ℚ)) ≤ 2 * m + ((2 ^ (-q).toNat : ℕ) : ℚ) := by
        linarith
      exact_mod_cast this
    have a2 : 2 * m + 2 ^ (-q).toNat < (R + 1) * (2 * 2 ^ (-q).toNat) := by
      have : 2 * (m : ℚ) + ((2 ^ (-q).toNat : ℕ) : ℚ)
          < ((R : ℚ) + 1) * (2 * ((2 ^ (-q).toNat : ℕ) : ℚ)) := by linarith
      exact_mod_cast this
    have hR : (2 * m + 2 ^ (-q).toNat) / (2 * 2 ^ (-q).toNat) = R :=
      Nat.div_eq_of_lt_le a1 a2
    have hm : mathRound (GoFloat.fin sg m q) = binary64.round sg R 1 := by
      unfold mathRound; simp only []; rw [if_neg hq, hR]
    rw [hm]
    rcases Nat.eq_zero_or_pos R with h0 | hpos
    · subst h0
      rw [round64_zero]
      exact toInt32_int_value P sg 0 (-1074) 0 (by simp) hr
    · have h53 : R < 2 ^ 53 := by
        have b1 := hr.1
        have b2 := hr.2
        norm_num at b1 b2 ⊢
        split at b1 <;> split at b2 <;> omega
      obtain ⟨m1, q1, e1, _, e3⟩ := round64_nat_exact sg R hpos h53
      rw [e1]
      exact toInt32_int_value P sg m1 q1 R e3 hr

end AvgPrices

namespace AvgPrices

/-! ## The average: no double rounding below `2^52` -/

/-- The quotient computed in `float64` stays on the same side of every half
integer as the exact quotient `a / c`, when the divisor is converted exactly
and `a < 2^52`. -/
theorem quotient_bracket_exact (sg : Bool) (A B a c : Nat) (hA : 0 < A) (hB : 0 < B)
    (ha0 : 0 < a) (ha : a < 2 ^ 52) (hc : 0 < c) (hc64 : c < 2 ^ 64)
    (hx : (A : ℚ) / B = (a : ℚ) / c) :
    ∃ m q, binary64.round sg A B = GoFloat.fin sg m q ∧
      (((2 * a + c) / (2 * c) : ℕ) : ℚ) - 1 / 2 ≤ (m : ℚ) * (2 : ℚ) ^ q ∧
      (m : ℚ) * (2 : ℚ) ^ q < (((2 * a + c) / (2 * c) : ℕ) : ℚ) + 1 / 2 := by
  have hcq : (0 : ℚ) < c := by exact_mod_cast hc
  have hc1 : (1 : ℚ) ≤ c := by exact_mod_cast hc
  have hc64q : (c : ℚ) < 2 ^ (64 : ℕ) := by exact_mod_cast hc64
  have ha0q : (1 : ℚ) ≤ a := by exact_mod_cast ha0
  have haq : (a : ℚ) + 1 ≤ 2 ^ (52 : ℕ) := by exact_mod_cast ha
  have hxpos : (0 : ℚ) < (a : ℚ) / c := by positivity
  have hxle : (a : ℚ) / c ≤ a := div_le_self (by positivity) hc1
  -- the exponent is in the normal range
  have e2 : floorLog2 A B < 52 := by
    apply floorLog2_lt A B hA hB
    rw [hx]
    calc (a : ℚ) / c ≤ a := hxle
      _ < 2 ^ (52 : ℕ) := by linarith
      _ = (2 : ℚ) ^ (52 : ℤ) := by norm_cast
  have e1 : -64 ≤ floorLog2 A B := by
    apply le_floorLog2 A B hA hB
    rw [hx, le_div_iff₀ hcq]
    have : (2 : ℚ) ^ (-64 : ℤ) = 1 / 2 ^ (64 : ℕ) := by
      rw [zpow_neg, one_div]; norm_cast
    rw [this, div_mul_eq_mul_div, div_le_iff₀ (by positivity)]
    linarith
  obtain ⟨l1, l2⟩ := floorLog2_spec A B hA hB
  obtain ⟨m, q, hr, _, hv, hex⟩ := round64_spec sg A B hA hB (by omega) (by omega)
  rw [hx] at l1 l2 hv hex
  generalize floorLog2 A B = e at e1 e2 l1 l2 hv hex
  refine ⟨m, q, hr, ?_⟩
  -- the error is at most x / 2^53
  have herr : (2 : ℚ) ^ (e - 53) ≤ (a : ℚ) / c / 2 ^ (53 : ℕ) := by
    have : (2 : ℚ) ^ (e - 53) = (2 : ℚ) ^ e / 2 ^ (53 : ℕ) := by
      rw [zpow_sub₀ (by norm_num)]; norm_cast
    rw [this]
    exact div_le_div_of_nonneg_right l1 (by positivity)
  have hv2 := le_trans hv herr
  obtain ⟨v1, v2⟩ := abs_le.1 hv2
  -- the rows of the division table
  generalize hR : (2 * a + c) / (2 * c) = R
  have hlo : 2 * c * R ≤ 2 * a + c := by
    rw [← hR]; exact Nat.mul_div_le (2 * a + c) (2 * c)
  have hhi : 2 * a + c < 2 * c * (R + 1) := by
    rw [← hR]; exact Nat.lt_mul_div_succ (2 * a + c) (by omega : 0 < 2 * c)
  have hloq : 2 * (c : ℚ) * R ≤ 2 * a + c := by exact_mod_cast hlo
  have hhiq : 2 * (a : ℚ) + c + 1 ≤ 2 * c * (R + 1) := by
    have : 2 * a + c + 1 ≤ 2 * c * (R + 1) := hhi
    exact_mod_cast this
  -- x and x / 2^53 in terms of a and c
  have hxc : (a : ℚ) / c * c = a := div_mul_cancel₀ _ (ne_of_gt hcq)
  have hsmall : (a : ℚ) / c / 2 ^ (53 : ℕ) * (2 * c) < 1 := by
    have : (a : ℚ) / c / 2 ^ (53 : ℕ) * (2 * c) = 2 * a / 2 ^ (53 : ℕ) := by
      field_simp
      ring
    rw [this, div_lt_iff₀ (by positivity)]
    norm_num at haq ⊢
    linarith
  constructor
  · -- lower side
    by_cases htie : 2 * c * R = 2 * a + c
    · -- an exact half: the quotient is representable
      have hR1 : 1 ≤ R := by
        rcases Nat.eq_zero_or_pos R with h0 | h0
        · subst h0; omega
        · exact h0
      have htieq : 2 * (c : ℚ) * R = 2 * a + c := by exact_mod_cast htie
      have hxval : (a : ℚ) / c = (R : ℚ) - 1 / 2 := by
        rw [div_eq_iff (ne_of_gt hcq)]; linarith
      have hK := hex ((2 * R - 1) * 2 ^ (51 - e).toNat) (by
        rw [hxval]
        have h2 := two_zpow_toNat (51 - e) (by omega)
        have hcast : (((2 * R - 1 : ℕ)) : ℚ) = 2 * (R : ℚ) - 1 := by
          rw [Nat.cast_sub (by omega)]; push_cast; ring
        rw [Nat.cast_mul, h2, hcast, mul_assoc, ← zpow_add₀ (by norm_num)]
        have : 51 - e + (e - 52) = -1 := by omega
        rw [this]
        norm_num
        ring)
      obtain ⟨hm, hq⟩ := hK
      have hcast : (((2 * R - 1 : ℕ)) : ℚ) = 2 * (R : ℚ) - 1 := by
        rw [Nat.cast_sub (by omega)]; push_cast; ring
      have h2 := two_zpow_toNat (51 - e) (by omega)
      rw [hm, hq, Nat.cast_mul, h2, hcast, mul_assoc, ← zpow_add₀ (by norm_num)]
      have : 51 - e + (e - 52) = -1 := by omega
      rw [this]
      norm_num
      linarith
    · have hgap : 2 * c * R + 1 ≤ 2 * a + c := by omega
      have hgapq : 2 * (c : ℚ) * R + 1 ≤ 2 * a + c := by exact_mod_cast hgap
      -- (x - (R - 1/2)) * 2c ≥ 1 > (x / 2^53) * 2c
      have h3 : ((R : ℚ) - 1 / 2) * (2 * c) ≤ ((m : ℚ) * (2 : ℚ) ^ q) * (2 * c) := by
        have hx2 : (a : ℚ) / c * (2 * c) = 2 * a := by linarith
        have hm := mul_le_mul_of_nonneg_right v1 (by positivity : (0 : ℚ) ≤ 2 * c)
        generalize (a : ℚ) / c = X at hx2 hsmall hm
        generalize (m : ℚ) * (2 : ℚ) ^ q = V at hm ⊢
        generalize X / 2 ^ (53 : ℕ) = E at hsmall hm
        linarith
      exact le_of_mul_le_mul_right h3 (by positivity)
  · -- upper side
    have h3 : ((m : ℚ) * (2 : ℚ) ^ q) * (2 * c) < ((R : ℚ) + 1 / 2) * (2 * c) := by
      have hx2 : (a : ℚ) / c * (2 * c) = 2 * a := by linarith
      have hm := mul_le_mul_of_nonneg_right v2 (by positivity : (0 : ℚ) ≤ 2 * c)
      generalize (a : ℚ) / c = X at hx2 hsmall hm
      generalize (m : ℚ) * (2 : ℚ) ^ q = V at hm ⊢
      generalize X / 2 ^ (53 : ℕ) = E at hsmall hm
      linarith
    exact lt_of_mul_lt_mul_right h3 (by positivity)

end AvgPrices

namespace AvgPrices

/-- With a divisor of at least `2^53 - 1` and `a < 2^52` the quotient computed
in `float64` is below one half. -/
theorem quotient_small (sg : Bool) (A B a : Nat) (vc : ℚ) (hA : 0 < A) (hB : 0 < B)
    (ha0 : 0 < a) (ha : a < 2 ^ 52) (hv1 : 2 ^ (53 : ℕ) - 1 ≤ vc) (hv2 : vc < 2 ^ (64 : ℕ))
    (hx : (A : ℚ) / B = (a : ℚ) / vc) :
    ∃ m q, binary64.round sg A B = GoFloat.fin sg m q ∧ (m : ℚ) * (2 : ℚ) ^ q < 1 / 2 := by
  have hvpos : (0 : ℚ) < vc := by norm_num at hv1; linarith
  have ha0q : (1 : ℚ) ≤ a := by exact_mod_cast ha0
  have haq : (a : ℚ) + 1 ≤ 2 ^ (52 : ℕ) := by exact_mod_cast ha
  have e2 : floorLog2 A B < 0 := by
    apply floorLog2_lt A B hA hB
    rw [hx, zpow_zero, div_lt_one hvpos]
    norm_num at hv1 haq ⊢
    linarith
  have e1 : -64 ≤ floorLog2 A B := by
    apply le_floorLog2 A B hA hB
    rw [hx, le_div_iff₀ hvpos]
    have : (2 : ℚ) ^ (-64 : ℤ) = 1 / 2 ^ (64 : ℕ) := by
      rw [zpow_neg, one_div]; norm_cast
    rw [this, div_mul_eq_mul_div, div_le_iff₀ (by positivity)]
    linarith
  obtain ⟨l1, _⟩ := floorLog2_spec A B hA hB
  obtain ⟨m, q, hr, _, hv, _⟩ := round64_spec sg A B hA hB (by omega) (by omega)
  rw [hx] at l1 hv
  generalize floorLog2 A B = e at e1 e2 l1 hv
  refine ⟨m, q, hr, ?_⟩
  have herr : (2 : ℚ) ^ (e - 53) ≤ (a : ℚ) / vc / 2 ^ (53 : ℕ) := by
    have : (2 : ℚ) ^ (e - 53) = (2 : ℚ) ^ e / 2 ^ (53 : ℕ) := by
      rw [zpow_sub₀ (by norm_num)]; norm_cast
    rw [this]
    exact div_le_div_of_nonneg_right l1 (by positivity)
  have v2 := (abs_le.1 (le_trans hv herr)).2
  have hxv : (a : ℚ) / vc * vc = a := div_mul_cancel₀ _ (ne_of_gt hvpos)
  have hE : (a : ℚ) / vc / 2 ^ (53 : ℕ) * vc = a / 2 ^ (53 : ℕ) := by
    field_simp
    ring
  have h3 : ((m : ℚ) * (2 : ℚ) ^ q) * vc < 1 / 2 * vc := by
    have hm := mul_le_mul_of_nonneg_right v2 (le_of_lt hvpos)
    have hsm : (a : ℚ) / 2 ^ (53 : ℕ) < 1 / 2 := by
      rw [div_lt_iff₀ (by positivity)]; norm_num at haq ⊢; linarith
    generalize (a : ℚ) / vc = X at hxv hE hm
    generalize (m : ℚ) * (2 : ℚ) ^ q = V at hm ⊢
    generalize X / 2 ^ (53 : ℕ) = E at hE hm
    norm_num at hv1 haq
    linarith
  exact lt_of_mul_lt_mul_right h3 (le_of_lt hvpos)

/-- The average of a non-negative sum `a < 2^52` over `c` rows, with the sign
`sg` of the sum: the exact quotient rounded half away from zero. -/
theorem average_nat (P : Platform) (sg : Bool) (a c : Nat) (ha : a < 2 ^ 52) (hc : 0 < c)
    (hc63 : c < 2 ^ 63)
    (hr : -2 ^ 31 ≤ (if sg = true then -(((2 * a + c) / (2 * c) : ℕ) : ℤ)
        else (((2 * a + c) / (2 * c) : ℕ) : ℤ)) ∧
      (if sg = true then -(((2 * a + c) / (2 * c) : ℕ) : ℤ)
        else (((2 * a + c) / (2 * c) : ℕ) : ℤ)) < 2 ^ 31) :
    F64.toInt32 P (mathRound (F64.div (binary64.round sg a 1) (binary64.round false c 1))) =
      if sg = true then -(((2 * a + c) / (2 * c) : ℕ) : ℤ)
      else (((2 * a + c) / (2 * c) : ℕ) : ℤ) := by
  have hc64 : c < 2 ^ 64 := lt_trans hc63 (by norm_num)
  have hcq : (0 : ℚ) < c := by exact_mod_cast hc
  rcases Nat.eq_zero_or_pos a with ha0 | ha0
  · -- a zero sum
    subst ha0
    obtain ⟨mc, qc, hcr, hmc, _⟩ := round64_nat_near false c hc hc64
    rw [round64_zero, hcr, F64_div_fin sg false 0 mc (-1074) qc hmc]
    simp only [zero_mul, round64_zero, Bool.xor_false]
    have hR : (2 * 0 + c) / (2 * c) = 0 := Nat.div_eq_of_lt (by omega)
    rw [hR] at hr ⊢
    exact mathRound_toInt32 P sg 0 (-1074) 0 (by norm_num) (by norm_num) hr
  · obtain ⟨ma, qa, har, hma, hav⟩ := round64_nat_exact sg a ha0 (lt_trans ha (by norm_num))
    by_cases h53 : c < 2 ^ 53
    · obtain ⟨mc, qc, hcr, hmc, hcv⟩ := round64_nat_exact false c hc h53
      rw [har, hcr, F64_div_fin sg false ma mc qa qc hmc, Bool.xor_false]
      have hratio := div_ratio ma mc qa qc hmc
      rw [hav, hcv] at hratio
      obtain ⟨m, q, hq, b1, b2⟩ := quotient_bracket_exact sg _ _ a c (by positivity)
        (by positivity) ha0 ha hc hc64 hratio
      rw [hq]
      exact mathRound_toInt32 P sg m q _ b1 b2 hr
    · obtain ⟨mc, qc, hcr, hmc, hcv⟩ := round64_nat_near false c hc hc64
      rw [har, hcr, F64_div_fin sg false ma mc qa qc hmc, Bool.xor_false]
      have hratio := div_ratio ma mc qa qc hmc
      rw [hav] at hratio
      have hc53q : (2 : ℚ) ^ (53 : ℕ) ≤ c := by
        have : 2 ^ 53 ≤ c := Nat.le_of_not_lt h53
        exact_mod_cast this
      have hc63q : (c : ℚ) < 2 ^ (63 : ℕ) := by exact_mod_cast hc63
      obtain ⟨w1, w2⟩ := abs_le.1 hcv
      have hcd : (c : ℚ) / 2 ^ (53 : ℕ) * 2 ^ (53 : ℕ) = c := div_mul_cancel₀ _ (by positivity)
      have n53 : (2 : ℚ) ^ (53 : ℕ) = 9007199254740992 := by norm_num
      have n63 : (2 : ℚ) ^ (63 : ℕ) = 9223372036854775808 := by norm_num
      have n64 : (2 : ℚ) ^ (64 : ℕ) = 18446744073709551616 := by norm_num
      have hv1 : (2 : ℚ) ^ (53 : ℕ) - 1 ≤ (mc : ℚ) * (2 : ℚ) ^ qc := by
        generalize (c : ℚ) / 2 ^ (53 : ℕ) = E at hcd w1 w2
        rw [n53] at hc53q hcd ⊢
        linarith
      have hv2 : (mc : ℚ) * (2 : ℚ) ^ qc < 2 ^ (64 : ℕ) := by
        generalize (c : ℚ) / 2 ^ (53 : ℕ) = E at hcd w1 w2
        rw [n53] at hcd
        rw [n63] at hc63q
        rw [n64]
        linarith
      obtain ⟨m, q, hq, b2⟩ := quotient_small sg _ _ a _ (by positivity) (by positivity)
        ha0 ha hv1 hv2 hratio
      rw [hq]
      have hR : (2 * a + c) / (2 * c) = 0 := by
        apply Nat.div_eq_of_lt
        have : 2 ^ 53 ≤ c := Nat.le_of_not_lt h53
        omega
      rw [hR] at hr ⊢
      refine mathRound_toInt32 P sg m q 0 ?_ (by simpa using b2) hr
      have : (0 : ℚ) ≤ (m : ℚ) * (2 : ℚ) ^ q := by positivity
      norm_num
      linarith

end AvgPrices

namespace AvgPrices

/-- The average `int32(math.Round(float64(s) / float64(c)))` is the exact
quotient rounded half away from zero, for `1 ≤ c`, `|s| < 2^52` and a result
that fits an `int32`. -/
theorem average_exact (P : Platform) (s c : Int) (hc1 : 1 ≤ c) (hc63 : c < 2 ^ 63)
    (hs : |s| < 2 ^ 52)
    (hr : -2 ^ 31 ≤ s.sign * ((2 * |s| + c) / (2 * c)) ∧
      s.sign * ((2 * |s| + c) / (2 * c)) < 2 ^ 31) :
    average P s c = s.sign * ((2 * |s| + c) / (2 * c)) ∧
    2 * |average P s c * c - s| ≤ c ∧
    ∀ k : ℤ, 2 * s = (2 * k + 1) * c → average P s c = if 0 ≤ s then k + 1 else k := by
  have hcn : (c.natAbs : ℤ) = c := Int.natAbs_of_nonneg (by omega)
  have han : (s.natAbs : ℤ) = |s| := Int.natCast_natAbs s
  have hRcast : (((2 * s.natAbs + c.natAbs) / (2 * c.natAbs) : ℕ) : ℤ)
      = (2 * |s| + c) / (2 * c) := by
    push_cast
    rw [abs_of_pos (by omega : 0 < c)]
  have ha : s.natAbs < 2 ^ 52 := by
    have h := hs
    rw [← han] at h
    exact_mod_cast h
  have hcpos : 0 < c.natAbs := by omega
  have hcn63 : c.natAbs < 2 ^ 63 := by
    have : (c.natAbs : ℤ) < 2 ^ 63 := by rw [hcn]; exact hc63
    exact_mod_cast this
  have hsel : (if decide (s < 0) = true
        then -(((2 * s.natAbs + c.natAbs) / (2 * c.natAbs) : ℕ) : ℤ)
        else (((2 * s.natAbs + c.natAbs) / (2 * c.natAbs) : ℕ) : ℤ))
      = s.sign * ((2 * |s| + c) / (2 * c)) := by
    rw [hRcast]
    rcases lt_trichotomy s 0 with h | h | h
    · rw [Int.sign_eq_neg_one_of_neg h]
      simp [h]
    · subst h
      have h0 : c / (2 * c) = 0 := Int.ediv_eq_zero_of_lt (by omega) (by omega)
      simp [h0]
    · rw [Int.sign_eq_one_of_pos h]
      have : ¬ s < 0 := by omega
      simp [this]
  have hmain : average P s c = s.sign * ((2 * |s| + c) / (2 * c)) := by
    unfold average F64.ofInt
    have hcneg : decide (c < 0) = false := by simp; omega
    rw [hcneg, ← hsel]
    exact average_nat P (decide (s < 0)) s.natAbs c.natAbs ha hcpos hcn63 (by rw [hsel]; exact hr)
  -- the rounded quotient as an integer division
  generalize hRdef : (2 * |s| + c) / (2 * c) = R at hmain hr
  have h2c : (0 : ℤ) < 2 * c := by omega
  have hlo : 2 * c * R ≤ 2 * |s| + c := by
    rw [← hRdef]; exact Int.mul_ediv_self_le (by omega)
  have hhi : 2 * |s| + c < 2 * c * R + 2 * c := by
    rw [← hRdef]
    have := Int.lt_mul_ediv_self_add (x := 2 * |s| + c) h2c
    linarith
  refine ⟨hmain, ?_, ?_⟩
  · rw [hmain]
    rcases lt_trichotomy s 0 with h | h | h
    · rw [Int.sign_eq_neg_one_of_neg h]
      rw [abs_of_neg h] at hlo hhi
      have e : 2 * |-1 * R * c - s| = |2 * (-1 * R * c - s)| := by rw [abs_mul]; norm_num
      rw [e, abs_le]
      constructor <;> nlinarith
    · subst h
      simp only [Int.sign_zero, zero_mul, sub_zero, abs_zero, mul_zero]
      omega
    · rw [Int.sign_eq_one_of_pos h]
      rw [abs_of_pos h] at hlo hhi
      have e : 2 * |1 * R * c - s| = |2 * (1 * R * c - s)| := by rw [abs_mul]; norm_num
      rw [e, abs_le]
      constructor <;> nlinarith
  · intro k hk
    rw [hmain]
    by_cases h0 : 0 ≤ s
    · rw [if_pos h0]
      have hspos : 0 < s := by
        rcases lt_or_eq_of_le h0 with h | h
        · exact h
        · exfalso
          rw [← h] at hk
          have : (2 * k + 1) * c = 0 := by linarith
          rcases mul_eq_zero.1 this with h1 | h1 <;> omega
      rw [Int.sign_eq_one_of_pos hspos, one_mul, ← hRdef, abs_of_pos hspos]
      have : 2 * s + c = (k + 1) * (2 * c) := by linarith
      rw [this]
      exact Int.mul_ediv_cancel _ (by omega)
    · rw [if_neg h0]
      have hsneg : s < 0 := by omega
      rw [Int.sign_eq_neg_one_of_neg hsneg, ← hRdef, abs_of_neg hsneg]
      have : 2 * -s + c = (-k) * (2 * c) := by linarith
      rw [this, Int.mul_ediv_cancel _ (by omega)]
      ring

/-- C3. For a row count `1 ≤ c` (an `int64`) and a sum with `|s| < 2^52`
whose exact quotient, rounded half away from zero, fits an `int32`, the
average `int32(math.Round(float64(s) / float64(c)))` is that rounded
quotient: it is within one half of `s / c`, and when `s / c` is an exact half
`k + 1/2` it is the neighbour of larger magnitude. -/
theorem average_round_half_away (P : Platform) (s c : Int) (hc1 : 1 ≤ c) (hc63 : c < 2 ^ 63)
    (hs : |s| < 2 ^ 52)
    (hr : -2 ^ 31 ≤ s.sign * ((2 * |s| + c) / (2 * c)) ∧
      s.sign * ((2 * |s| + c) / (2 * c)) < 2 ^ 31) :
    average P s c = s.sign * ((2 * |s| + c) / (2 * c)) ∧
    2 * |average P s c * c - s| ≤ c ∧
    ∀ k : ℤ, 2 * s = (2 * k + 1) * c → average P s c = if 0 ≤ s then k + 1 else k :=
  average_exact P s c hc1 hc63 hs hr

set_option maxRecDepth 100000 in
/-- Witness of C3: the sums `5` and `-5` over two rows give `3` and `-3`. -/
theorem average_round_half_away_witness :
    (average exPlatform 5 2 = if (0 : ℤ) ≤ 5 then 2 + 1 else 2) ∧
    (average exPlatform (-5) 2 = if (0 : ℤ) ≤ -5 then -3 + 1 else -3) ∧
    average exPlatform 5 2 = 3 ∧ average exPlatform (-5) 2 = -3 :=
  ⟨(average_round_half_away exPlatform 5 2 (by norm_num) (by norm_num) (by norm_num)
      (by decide)).2.2 2 (by norm_num),
   (average_round_half_away exPlatform (-5) 2 (by norm_num) (by norm_num) (by norm_num)
      (by decide)).2.2 (-3) (by norm_num),
   by decide, by decide⟩

end AvgPrices

namespace AvgPrices

/-! ## The percent -/

theorem wrapInt32_range (n : Int) : -2 ^ 31 ≤ wrapInt 32 n ∧ wrapInt 32 n < 2 ^ 31 := by
  unfold wrapInt
  have h1 := Int.emod_nonneg (n + 2 ^ (32 - 1)) (by norm_num : (2 : Int) ^ 32 ≠ 0)
  have h2 := Int.emod_lt_of_pos (n + 2 ^ (32 - 1)) (by norm_num : (0 : Int) < 2 ^ 32)
  norm_num at h1 h2 ⊢
  omega

theorem F64_ofInt_zero : F64.ofInt 0 = GoFloat.fin false 0 (-1074) := by decide

set_option maxRecDepth 100000 in
theorem F64_ofInt_hundred : F64.ofInt 100 = GoFloat.fin false 7036874417766400 (-46) := by
  decide

/-- The percent over a zero average: the division by zero in `float64`. -/
theorem percent_zero (cur : Int) (h1 : -2 ^ 31 ≤ cur) (h2 : cur < 2 ^ 31) :
    percent cur 0 = if cur = 0 then GoFloat.nan else GoFloat.inf (decide (cur < 0)) := by
  by_cases h0 : cur = 0
  · subst h0; decide
  · rw [if_neg h0]
    have hpos : 0 < cur.natAbs := Int.natAbs_pos.2 h0
    have h53 : cur.natAbs < 2 ^ 53 := by
      norm_num at h1 h2 ⊢
      omega
    obtain ⟨m, q, hr, hm, _⟩ := round64_nat_exact (decide (cur < 0)) cur.natAbs hpos h53
    have hcur : F64.ofInt cur = GoFloat.fin (decide (cur < 0)) m q := hr
    unfold percent
    rw [hcur, F64_ofInt_zero, F64_ofInt_hundred]
    have hm0 : m ≠ 0 := by omega
    simp [F64.div, F64.mul, F64.toFloat32, hm0]

/-- A zero sum over at least one row has the average zero. -/
theorem average_zero_sum (P : Platform) (c : Int) (hc1 : 1 ≤ c) (hc63 : c < 2 ^ 63) :
    average P 0 c = 0 := by
  have h := (average_exact P 0 c hc1 hc63 (by norm_num) (by norm_num)).1
  simpa using h

/-- The metrics of the record built from a row and an entry. -/
theorem metrics_enrichRecord (P : Platform) (d : DetailRow) (pa : PriceAverage) :
    metrics (enrichRecord P d pa) =
      [(wrapInt 32 d.quantity, average P pa.QuantitySum pa.RowCount,
          percent (wrapInt 32 d.quantity) (average P pa.QuantitySum pa.RowCount)),
       (wrapInt 32 d.p05, average P pa.P05Sum pa.RowCount,
          percent (wrapInt 32 d.p05) (average P pa.P05Sum pa.RowCount)),
       (wrapInt 32 d.p10, average P pa.P10Sum pa.RowCount,
          percent (wrapInt 32 d.p10) (average P pa.P10Sum pa.RowCount)),
       (wrapInt 32 d.p25, average P pa.P25Sum pa.RowCount,
          percent (wrapInt 32 d.p25) (average P pa.P25Sum pa.RowCount)),
       (wrapInt 32 d.p50, average P pa.P50Sum pa.RowCount,
          percent (wrapInt 32 d.p50) (average P pa.P50Sum pa.RowCount)),
       (wrapInt 32 d.p75, average P pa.P75Sum pa.RowCount,
          percent (wrapInt 32 d.p75) (average P pa.P75Sum pa.RowCount)),
       (wrapInt 32 d.p90, average P pa.P90Sum pa.RowCount,
          percent (wrapInt 32 d.p90) (average P pa.P90Sum pa.RowCount))] := rfl

/-- Every metric of a record has an `int32` current value and the percent of
its own current value and average. -/
theorem metrics_percent (P : Platform) (d : DetailRow) (pa : PriceAverage) :
    ∀ m ∈ metrics (enrichRecord P d pa),
      (-2 ^ 31 ≤ m.1 ∧ m.1 < 2 ^ 31) ∧ m.2.2 = percent m.1 m.2.1 := by
  intro m hm
  rw [metrics_enrichRecord] at hm
  simp only [List.mem_cons, List.mem_singleton, List.not_mem_nil, or_false] at hm
  rcases hm with rfl | rfl | rfl | rfl | rfl | rfl | rfl <;>
    exact ⟨wrapInt32_range _, rfl⟩

theorem enrichData_csvStream (P : Platform) (t : Table) (hdr : List GoString)
    (rows : List (List GoString)) :
    enrichData P (csvStream hdr rows) t
      = enrichLoop P t hdr.length (rows.map RawItem.record) [] := by
  simp [enrichData, csvStream, csvRead_record]

/-- The loop of `enrichData` on a single row with a table entry. -/
theorem enrichData_single (P : Platform) (t : Table) (hdr row : List GoString)
    (pa : PriceAverage) (h13 : 13 ≤ row.length) (hl : row.length = hdr.length)
    (hk : t (detailKey row) = some pa) :
    enrichData P (csvStream hdr [row]) t = Outcome.ok [enrichRecord P (detailFields row) pa] := by
  have hf : ¬ (0 < hdr.length ∧ row.length ≠ hdr.length) := by omega
  rw [enrichData_csvStream]
  simp only [List.map_cons, List.map_nil, csvRead_record, enrichLoop, if_neg hf,
    enrichRow_hit P t row pa h13 hk, List.nil_append]

/-- C8. A detail row whose key is in the table is not skipped and does not
make `enrichData` fail when the rounded average of a metric is zero (as it is
for a zero sum over at least one row): the record is emitted, and the percent
of that metric is the result of the division by zero, an infinity with the
sign of the current value, or NaN when the current value is zero too. -/
theorem zero_average_percent (P : Platform) (t : Table) (hdr row : List GoString)
    (pa : PriceAverage) (h13 : 13 ≤ row.length) (hl : row.length = hdr.length)
    (hk : t (detailKey row) = some pa) :
    enrichData P (csvStream hdr [row]) t
      = Outcome.ok [enrichRecord P (detailFields row) pa] ∧
    (∀ m ∈ metrics (enrichRecord P (detailFields row) pa), m.2.1 = 0 →
      m.2.2 = if m.1 = 0 then GoFloat.nan else GoFloat.inf (decide (m.1 < 0))) ∧
    (∀ c : Int, 1 ≤ c → c < 2 ^ 63 → average P 0 c = 0) := by
  refine ⟨enrichData_single P t hdr row pa h13 hl hk, ?_, average_zero_sum P⟩
  intro m hm h0
  obtain ⟨hrange, hp⟩ := metrics_percent P (detailFields row) pa m hm
  rw [hp, h0]
  exact percent_zero m.1 hrange.1 hrange.2

set_option maxRecDepth 8000 in
set_option exponentiation.threshold 4096 in
/-- Witness of C8: the detail row of the worked example against an entry of
zero sums; every percent is the positive infinity. -/
theorem zero_average_percent_witness :
    enrichData exPlatform (csvStream (exHeader 13) [exDetailRow]) exZeroTable
      = Outcome.ok [enrichRecord exPlatform (detailFields exDetailRow) exZeroBaseline] ∧
    (∀ m ∈ metrics (enrichRecord exPlatform (detailFields exDetailRow) exZeroBaseline),
      m.2.1 = 0 → m.2.2 = if m.1 = 0 then GoFloat.nan else GoFloat.inf (decide (m.1 < 0))) ∧
    (∀ c : Int, 1 ≤ c → c < 2 ^ 63 → average exPlatform 0 c = 0) ∧
    (enrichRecord exPlatform (detailFields exDetailRow) exZeroBaseline).QuantityAverage = 0 ∧
    (enrichRecord exPlatform (detailFields exDetailRow) exZeroBaseline).QuantityPercent
      = GoFloat.inf false :=
  ⟨(zero_average_percent exPlatform exZeroTable (exHeader 13) exDetailRow exZeroBaseline
      (by decide) (by decide) (by decide)).1,
   (zero_average_percent exPlatform exZeroTable (exHeader 13) exDetailRow exZeroBaseline
      (by decide) (by decide) (by decide)).2.1,
   (zero_average_percent exPlatform exZeroTable (exHeader 13) exDetailRow exZeroBaseline
      (by decide) (by decide) (by decide)).2.2,
   by decide, by decide⟩

end AvgPrices

namespace AvgPrices

set_option maxRecDepth 8000 in
set_option exponentiation.threshold 4096 in
/-- The percents of the two examples and of a rounded average. -/
theorem percent_examples :
    percent 50 100 = F32.ofInt 50 ∧ (F32.ofInt 50).toRat = some 50 ∧
    percent 150 100 = F32.ofInt 150 ∧ (F32.ofInt 150).toRat = some 150 ∧
    percent 3 3 = F32.ofInt 100 ∧ (F32.ofInt 100).toRat = some 100 := by
  have h50 : F32.ofInt 50 = GoFloat.fin false 13107200 (-18) := by decide
  have h150 : F32.ofInt 150 = GoFloat.fin false 9830400 (-16) := by decide
  have h100 : F32.ofInt 100 = GoFloat.fin false 13107200 (-17) := by decide
  refine ⟨by decide, ?_, by decide, ?_, by decide, ?_⟩
  · rw [h50]; norm_num [GoFloat.toRat]
  · rw [h150]; norm_num [GoFloat.toRat]
  · rw [h100]; norm_num [GoFloat.toRat]

/-- The averages of a record are the rounded integers of the table entry. -/
theorem metrics_average (P : Platform) (d : DetailRow) (pa : PriceAverage) :
    (metrics (enrichRecord P d pa)).map (fun m => m.2.1) =
      [average P pa.QuantitySum pa.RowCount, average P pa.P05Sum pa.RowCount,
       average P pa.P10Sum pa.RowCount, average P pa.P25Sum pa.RowCount,
       average P pa.P50Sum pa.RowCount, average P pa.P75Sum pa.RowCount,
       average P pa.P90Sum pa.RowCount] := rfl

/-- The sum `5` over two rows has the average `3`, on every platform. -/
theorem average_five_two (P : Platform) : average P 5 2 = 3 := by
  have h := (average_exact P 5 2 (by norm_num) (by norm_num) (by norm_num) (by decide)).1
  rw [h]
  decide

end AvgPrices

namespace AvgPrices

/-! ## The join of the two streams -/

/-- A key some stored row has is in the table. -/
theorem foldl_set_some (rows : List (List GoString)) (k : GoString) :
    ∀ t : Table, (t k ≠ none ∨ ∃ r ∈ rows, baselineKey r = k) →
      rows.foldl (fun acc r => acc.set (baselineKey r) (baselineEntry r)) t k ≠ none := by
  induction rows with
  | nil =>
    intro t h
    rcases h with h | ⟨r, hr, _⟩
    · exact h
    · simp at hr
  | cons r rest ih =>
    intro t h
    rw [List.foldl_cons]
    apply ih
    by_cases hk : baselineKey r = k
    · left; simp [Table.set, hk]
    · rcases h with h | ⟨r0, hr0, hk0⟩
      · left
        have : k ≠ baselineKey r := fun e => hk e.symm
        simp [Table.set, this, h]
      · rcases List.mem_cons.1 hr0 with e | e
        · subst e; exact absurd hk0 hk
        · right; exact ⟨r0, e, hk0⟩

/-- The loop of `enrichData` succeeds when the reader accepts the rows and
every key is in the table. -/
theorem enrichLoop_total (P : Platform) (t : Table) (n : Nat) (rows : List (List GoString))
    (h13 : ∀ r ∈ rows, 13 ≤ r.length) (hn : ∀ r ∈ rows, r.length = n)
    (hhit : ∀ r ∈ rows, t (detailKey r) ≠ none) :
    ∀ (fpr : Nat) (acc : List auctions_db.PriceAverage), fpr = 0 ∨ fpr = n →
      ∃ recs, enrichLoop P t fpr (rows.map RawItem.record) acc = Outcome.ok recs := by
  induction rows with
  | nil => intro fpr acc _; exact ⟨acc, rfl⟩
  | cons r rest ih =>
    intro fpr acc hfpr
    have hr : 13 ≤ r.length := h13 r (List.mem_cons_self _ _)
    have hrn : r.length = n := hn r (List.mem_cons_self _ _)
    have hf : ¬ (0 < fpr ∧ r.length ≠ fpr) := by
      rcases hfpr with h | h <;> omega
    obtain ⟨pa, hpa⟩ := Option.ne_none_iff_exists'.1 (hhit r (List.mem_cons_self _ _))
    simp only [List.map_cons, enrichLoop, csvRead_record, if_neg hf,
      enrichRow_hit P t r pa hr hpa]
    apply ih (fun x hx => h13 x (List.mem_cons_of_mem _ hx))
      (fun x hx => hn x (List.mem_cons_of_mem _ hx))
      (fun x hx => hhit x (List.mem_cons_of_mem _ hx))
    by_cases h0 : 0 < fpr
    · rw [if_pos h0]; rcases hfpr with h | h
      · omega
      · exact Or.inr h
    · rw [if_neg h0]; exact Or.inr hrn

/-- The records of a successful `enrichData`, row by row. -/
theorem enrichData_forall₂ (P : Platform) (t : Table) (hdr : List GoString)
    (rows : List (List GoString)) (recs : List auctions_db.PriceAverage)
    (h : enrichData P (csvStream hdr rows) t = Outcome.ok recs) :
    List.Forall₂ (IsRecordOf P t) rows recs := by
  rw [enrichData_csvStream] at h
  obtain ⟨rows1, news, h1, h2, h3⟩ := enrichLoop_ok P t _ _ _ _ h
  have hinj : Function.Injective RawItem.record := fun a b e => by cases e; rfl
  have : rows = rows1 := List.map_injective_iff.2 hinj h1
  subst this
  rw [List.nil_append] at h2
  subst h2
  exact h3

/-- The metrics of the record built from a detail row and the entry of a
historical row. -/
theorem wiredTo_enrichRecord (P : Platform) (h d : List GoString) :
    WiredTo P h d (enrichRecord P (detailFields d) (baselineEntry h)) := by
  unfold WiredTo
  rw [metrics_enrichRecord]
  simp only [baselineEntry, detailFields, wrapInt64_atoi, metricColumns, List.map_cons,
    List.map_nil]

/-- C2, as amended. When the two streams are read without a reader error and
every detail row has its key in the historical stream, `read` returns a table
and `enrichData` a record for every detail row, in order; the record of a
detail row `d` is wired to the historical row `h` that is the last one with
the key of `d`: the current value of quantity, p05, .., p90 is detail column
4, 7, .., 12 narrowed to `int32` (the column itself when it fits in 32 bits),
the average is `int32(math.Round(float64(column k) / float64(column 3)))` on
historical column k = 4, .., 10 (the exact quotient rounded half away from
zero when the count is at least 1, the sum below `2^52` in magnitude and the
result fits an `int32`), and the percent is computed from these two. -/
theorem enriched_record_wiring (P : Platform) (hh dh : List GoString)
    (hrows drows : List (List GoString))
    (h11 : ∀ r ∈ hrows, 11 ≤ r.length) (hhl : ∀ r ∈ hrows, r.length = hh.length)
    (h13 : ∀ d ∈ drows, 13 ≤ d.length) (hdl : ∀ d ∈ drows, d.length = dh.length)
    (hjoin : ∀ d ∈ drows, ∃ r ∈ hrows, baselineKey r = detailKey d) :
    ∃ t recs, read (csvStream hh hrows) = Outcome.ok t ∧
      enrichData P (csvStream dh drows) t = Outcome.ok recs ∧
      List.Forall₂ (fun d x =>
        ∀ h pre post, hrows = pre ++ h :: post →
          (∀ y ∈ post, baselineKey y ≠ baselineKey h) → baselineKey h = detailKey d →
          WiredTo P h d x ∧
          ∀ c ∈ metricColumns,
            (-2 ^ 31 ≤ atoi (field d c.1) → atoi (field d c.1) < 2 ^ 31 →
              wrapInt 32 (atoi (field d c.1)) = atoi (field d c.1)) ∧
            (1 ≤ atoi (field h 3) → |atoi (field h c.2)| < 2 ^ 52 →
              (-2 ^ 31 ≤ (atoi (field h c.2)).sign *
                  ((2 * |atoi (field h c.2)| + atoi (field h 3)) / (2 * atoi (field h 3))) ∧
                (atoi (field h c.2)).sign *
                  ((2 * |atoi (field h c.2)| + atoi (field h 3)) / (2 * atoi (field h 3)))
                  < 2 ^ 31) →
              average P (atoi (field h c.2)) (atoi (field h 3)) =
                (atoi (field h c.2)).sign *
                  ((2 * |atoi (field h c.2)| + atoi (field h 3)) / (2 * atoi (field h 3)))))
        drows recs := by
  obtain ⟨t, ht⟩ : ∃ t, read (csvStream hh hrows) = Outcome.ok t := by
    rw [read_csvStream]
    exact readLoop_total hh.length _ h11 hhl _ _ (Or.inr rfl)
  have htab : t = hrows.foldl (fun acc r => acc.set (baselineKey r) (baselineEntry r))
      Table.empty := by
    rw [read_csvStream] at ht
    exact readLoop_ok _ h11 _ _ _ ht
  obtain ⟨recs, hrecs⟩ : ∃ recs, enrichData P (csvStream dh drows) t = Outcome.ok recs := by
    rw [enrichData_csvStream]
    refine enrichLoop_total P t dh.length drows h13 hdl ?_ _ _ (Or.inr rfl)
    intro d hd
    obtain ⟨r, hr, hk⟩ := hjoin d hd
    rw [htab]
    exact foldl_set_some hrows (detailKey d) Table.empty (Or.inr ⟨r, hr, hk⟩)
  refine ⟨t, recs, ht, hrecs, ?_⟩
  refine List.Forall₂.imp ?_ (enrichData_forall₂ P t dh drows recs hrecs)
  intro d x hx h pre post hsplit hlast hkey
  obtain ⟨pa, hpa, hxe⟩ := hx
  have hlook : t (baselineKey h) = some (baselineEntry h) := by
    rw [htab, hsplit]
    exact foldl_set_last post h hlast pre _
  rw [← hkey, hlook] at hpa
  cases hpa
  subst hxe
  refine ⟨wiredTo_enrichRecord P h d, ?_⟩
  intro c _
  refine ⟨fun a b => wrapInt32_of_range _ a b, fun a b r => ?_⟩
  exact (average_exact P _ _ a (atoi_range _).2 b r).1

set_option maxRecDepth 8000 in
set_option exponentiation.threshold 4096 in
/-- Witness of C2 as amended: the worked example. The single record has
`QuantityCurrent` 15, `QuantityAverage` 10, `QuantityPercent` 150, averages
1 to 6 and current values 11 to 66 for p05 to p90. -/
theorem enriched_record_wiring_witness :
    ∃ t x, read (csvStream (exHeader 12) [exHistoricalRow]) = Outcome.ok t ∧
      enrichData exPlatform (csvStream (exHeader 13) [exDetailRow]) t = Outcome.ok [x] ∧
      WiredTo exPlatform exHistoricalRow exDetailRow x ∧
      metrics x = [(15, 10, F32.ofInt 150), (11, 1, F32.ofInt 1100), (22, 2, F32.ofInt 1100),
        (33, 3, F32.ofInt 1100), (44, 4, F32.ofInt 1100), (55, 5, F32.ofInt 1100),
        (66, 6, F32.ofInt 1100)] := by
  obtain ⟨t, recs, ht, hrecs, hall⟩ := enriched_record_wiring exPlatform (exHeader 12)
    (exHeader 13) [exHistoricalRow] [exDetailRow] (by decide) (by decide) (by decide)
    (by decide) (by decide)
  cases hall with
  | cons hx hrest =>
    cases hrest
    obtain ⟨hw, _⟩ := hx exHistoricalRow [] [] rfl (by decide) (by decide)
    refine ⟨t, _, ht, hrecs, hw, ?_⟩
    rw [hw]
    decide

/-- Counterexample to C2: the detail row of the worked example with the
quantity `3000000000`. Column 4 parses to 3000000000, the record is emitted,
and its `QuantityCurrent` is `-1294967296`. -/
theorem current_value_not_column :
    ∃ t x, read (csvStream (exHeader 12) [exHistoricalRow]) = Outcome.ok t ∧
      enrichData exPlatform (csvStream (exHeader 13) [exBigDetailRow]) t = Outcome.ok [x] ∧
      baselineKey exHistoricalRow = detailKey exBigDetailRow ∧
      atoi (field exBigDetailRow 4) = 3000000000 ∧
      x.QuantityCurrent = -1294967296 ∧
      x.QuantityCurrent ≠ atoi (field exBigDetailRow 4) := by
  refine ⟨_, _, rfl, rfl, ?_⟩
  decide

end AvgPrices

namespace AvgPrices

/-! ## The scan of `downloadRecent` -/

/-- A key that ends in `.csv` is not the empty string. -/
theorem isCsv_key_ne_nil (o : S3Object) (h : isCsv o = true) : o.Key ≠ [] := by
  intro e
  unfold isCsv at h
  rw [e] at h
  exact absurd h (by decide)

/-- One step of the scan. -/
theorem scanLatest_cons (o : S3Object) (rest : List S3Object) (latest : GoString × Int) :
    scanLatest (o :: rest) latest =
      if isCsv o = true ∧ latest.2 < o.LastModified then
        scanLatest rest (o.Key, o.LastModified)
      else scanLatest rest latest := rfl

/-- The scan keeps what it holds when no `.csv` object is more recent. -/
theorem scanLatest_keep (objects : List S3Object) :
    ∀ latest : GoString × Int,
      (∀ x ∈ objects, isCsv x = true → x.LastModified ≤ latest.2) →
      scanLatest objects latest = latest := by
  induction objects with
  | nil => intro latest _; rfl
  | cons p rest ih =>
    intro latest h
    have hp : ¬ (isCsv p = true ∧ latest.2 < p.LastModified) := by
      rintro ⟨h1, h2⟩
      have := h p (List.mem_cons_self _ _) h1
      omega
    rw [scanLatest_cons, if_neg hp]
    exact ih latest (fun x hx => h x (List.mem_cons_of_mem _ hx))

/-- The scan ends on the first of the `.csv` objects with the largest time. -/
theorem scanLatest_first (pre post : List S3Object) (o : S3Object) (hcsv : isCsv o = true)
    (hpre : ∀ x ∈ pre, isCsv x = true → x.LastModified < o.LastModified)
    (hpost : ∀ x ∈ post, isCsv x = true → x.LastModified ≤ o.LastModified) :
    ∀ latest : GoString × Int, latest.2 < o.LastModified →
      scanLatest (pre ++ o :: post) latest = (o.Key, o.LastModified) := by
  induction pre with
  | nil =>
    intro latest hl
    rw [List.nil_append, scanLatest_cons, if_pos ⟨hcsv, hl⟩]
    exact scanLatest_keep post _ hpost
  | cons p pre ih =>
    intro latest hl
    have ih1 := ih (fun x hx => hpre x (List.mem_cons_of_mem _ hx))
    rw [List.cons_append, scanLatest_cons]
    by_cases hp : isCsv p = true ∧ latest.2 < p.LastModified
    · rw [if_pos hp]
      exact ih1 _ (hpre p (List.mem_cons_self _ _) hp.1)
    · rw [if_neg hp]
      exact ih1 _ hl

/-- What the scan returns: the values it started from, when no `.csv` object
is more recent, and otherwise the first `.csv` object with the largest time. -/
theorem scanLatest_spec (objects : List S3Object) :
    ∀ latest : GoString × Int,
      (scanLatest objects latest = latest ∧
        ∀ x ∈ objects, isCsv x = true → x.LastModified ≤ latest.2) ∨
      ∃ pre o post, objects = pre ++ o :: post ∧ isCsv o = true ∧
        latest.2 < o.LastModified ∧ scanLatest objects latest = (o.Key, o.LastModified) ∧
        (∀ x ∈ pre, isCsv x = true → x.LastModified < o.LastModified) ∧
        (∀ x ∈ post, isCsv x = true → x.LastModified ≤ o.LastModified) := by
  induction objects with
  | nil => intro latest; exact Or.inl ⟨rfl, by simp⟩
  | cons p rest ih =>
    intro latest
    rw [scanLatest_cons]
    by_cases hp : isCsv p = true ∧ latest.2 < p.LastModified
    · rw [if_pos hp]
      right
      rcases ih (p.Key, p.LastModified) with ⟨h1, h2⟩ | ⟨pre, o, post, e, c, l, r, a, b⟩
      · exact ⟨[], p, rest, rfl, hp.1, hp.2, h1, by simp, h2⟩
      · refine ⟨p :: pre, o, post, by rw [e]; rfl, c, ?_, r, ?_, b⟩
        · have : p.LastModified < o.LastModified := l
          omega
        · intro x hx hc
          rcases List.mem_cons.1 hx with rfl | hx
          · exact l
          · exact a x hx hc
    · rw [if_neg hp]
      have hple : isCsv p = true → p.LastModified ≤ latest.2 := by
        intro hc
        by_contra hlt
        exact hp ⟨hc, by omega⟩
      rcases ih latest with ⟨h1, h2⟩ | ⟨pre, o, post, e, c, l, r, a, b⟩
      · left
        refine ⟨h1, ?_⟩
        intro x hx hc
        rcases List.mem_cons.1 hx with rfl | hx
        · exact hple hc
        · exact h2 x hx hc
      · right
        refine ⟨p :: pre, o, post, by rw [e]; rfl, c, l, r, ?_, b⟩
        intro x hx hc
        rcases List.mem_cons.1 hx with rfl | hx
        · have := hple hc
          omega
        · exact a x hx hc

/-- Objects whose key does not end in `.csv` do not take part in the scan. -/
theorem scanLatest_filter (objects : List S3Object) :
    ∀ latest : GoString × Int,
      scanLatest objects latest = scanLatest (objects.filter isCsv) latest := by
  induction objects with
  | nil => intro latest; rfl
  | cons p rest ih =>
    intro latest
    rw [scanLatest_cons]
    by_cases hc : isCsv p = true
    · rw [List.filter_cons_of_pos hc, scanLatest_cons, ih, ih]
    · rw [List.filter_cons_of_neg hc, if_neg (fun h => hc h.1), ih]

/-- The scan of `downloadRecent` where the listing is dated after the zero
time. Whenever some listed `.csv` object has a modification time after the
zero time, the scan selects a key that ends in `.csv` and whose modification
time is the maximum over all listed `.csv` objects; objects with another
suffix do not take part, and the keys only through the suffix test. The scan
selects nothing, and `downloadRecent` returns the `no .csv file found` error,
if and only if no listed `.csv` object has a modification time after the zero
time; otherwise `downloadRecent` fetches the selected key. -/
theorem scanLatest_selects_latest (objects : List S3Object) :
    ((∃ o ∈ objects, isCsv o = true ∧ 0 < o.LastModified) →
      ∃ o ∈ objects, isCsv o = true ∧
        scanLatest objects ([], 0) = (o.Key, o.LastModified) ∧
        ∀ x ∈ objects, isCsv x = true → x.LastModified ≤ o.LastModified) ∧
    ((scanLatest objects ([], 0)).1 = [] ↔
      ¬ ∃ o ∈ objects, isCsv o = true ∧ 0 < o.LastModified) ∧
    scanLatest objects ([], 0) = scanLatest (objects.filter isCsv) ([], 0) ∧
    ∀ (S : Services) (bucket path : GoString),
      S.ListObjectsV2 bucket path = Except.ok objects →
      ((¬ ∃ o ∈ objects, isCsv o = true ∧ 0 < o.LastModified) →
        downloadRecent S bucket path = Except.error Error.noCsvFile) ∧
      ((∃ o ∈ objects, isCsv o = true ∧ 0 < o.LastModified) →
        downloadRecent S bucket path
          = S.GetObject bucket (scanLatest objects ([], 0)).1) := by
  have hsel : (∃ o ∈ objects, isCsv o = true ∧ 0 < o.LastModified) →
      ∃ o ∈ objects, isCsv o = true ∧
        scanLatest objects ([], 0) = (o.Key, o.LastModified) ∧
        ∀ x ∈ objects, isCsv x = true → x.LastModified ≤ o.LastModified := by
    rintro ⟨c, hc, hcsv, hpos⟩
    rcases scanLatest_spec objects ([], 0) with ⟨_, h2⟩ | ⟨pre, o, post, e, c1, _, r, a, b⟩
    · have := h2 c hc hcsv
      simp only at this
      omega
    · refine ⟨o, by rw [e]; simp, c1, r, ?_⟩
      intro x hx hxc
      rw [e] at hx
      rcases List.mem_append.1 hx with h | h
      · exact le_of_lt (a x h hxc)
      · rcases List.mem_cons.1 h with rfl | h
        · exact le_refl _
        · exact b x h hxc
  have hiff : (scanLatest objects ([], 0)).1 = [] ↔
      ¬ ∃ o ∈ objects, isCsv o = true ∧ 0 < o.LastModified := by
    constructor
    · intro hnil hex
      obtain ⟨o, _, hcsv, r, _⟩ := hsel hex
      rw [r] at hnil
      exact isCsv_key_ne_nil o hcsv hnil
    · intro hno
      rw [scanLatest_keep objects ([], 0)]
      intro x hx hxc
      by_contra hlt
      exact hno ⟨x, hx, hxc, by simp only at hlt; omega⟩
  refine ⟨hsel, hiff, scanLatest_filter objects _, ?_⟩
  intro S bucket path hlist
  constructor
  · intro hno
    unfold downloadRecent
    rw [hlist]
    simp only []
    rw [if_pos (hiff.2 hno)]
  · intro hex
    unfold downloadRecent
    rw [hlist]
    simp only []
    rw [if_neg (fun h => (hiff.1 h) hex)]

/-- An instance of the scan: `a.csv` at time 3, `b.txt` at time 9 and `c.csv`
at time 7; the object `c.csv` is selected. -/
theorem scanLatest_selects_latest_example :
    (∃ o ∈ [({ Key := ascii "a.csv", LastModified := 3 } : S3Object),
        { Key := ascii "b.txt", LastModified := 9 },
        { Key := ascii "c.csv", LastModified := 7 }], isCsv o = true ∧
        scanLatest [{ Key := ascii "a.csv", LastModified := 3 },
          { Key := ascii "b.txt", LastModified := 9 },
          { Key := ascii "c.csv", LastModified := 7 }] ([], 0) = (o.Key, o.LastModified) ∧
        ∀ x ∈ [({ Key := ascii "a.csv", LastModified := 3 } : S3Object),
          { Key := ascii "b.txt", LastModified := 9 },
          { Key := ascii "c.csv", LastModified := 7 }],
          isCsv x = true → x.LastModified ≤ o.LastModified) ∧
    scanLatest [{ Key := ascii "a.csv", LastModified := 3 },
      { Key := ascii "b.txt", LastModified := 9 },
      { Key := ascii "c.csv", LastModified := 7 }] ([], 0) = (ascii "c.csv", 7) :=
  ⟨(scanLatest_selects_latest _).1
      ⟨{ Key := ascii "a.csv", LastModified := 3 }, by simp, by decide, by decide⟩,
   by decide⟩

/-- C16. The scan of `downloadRecent` at the failing input: the listing holds
one object, `a.csv`, whose modification time is the zero value of
`time.Time`. A listed key ends in `.csv`, yet no key is selected and
`downloadRecent` returns the `no .csv file found` error: the comparison
`After` is strict and `latestTime` starts at the zero time. -/
theorem zero_time_csv_not_selected :
    (∃ o ∈ [({ Key := ascii "a.csv", LastModified := 0 } : S3Object)], isCsv o = true) ∧
    (scanLatest [{ Key := ascii "a.csv", LastModified := 0 }] ([], 0)).1 = [] ∧
    downloadRecent (exListing [{ Key := ascii "a.csv", LastModified := 0 }])
      (ascii "sod-auctions") (ascii "results") = Except.error Error.noCsvFile :=
  ⟨⟨_, List.mem_singleton.2 rfl, by decide⟩, by decide, rfl⟩

/-- C17, as amended. When several listed `.csv` objects share the maximal
modification time (after the zero time), the scan of `downloadRecent` selects
the one that appears first in the listing: the comparison `After` is strict,
so a later object with the same time does not replace it. -/
theorem scanLatest_first_seen_wins (pre post : List S3Object) (o : S3Object)
    (hcsv : isCsv o = true) (hpos : 0 < o.LastModified)
    (hpre : ∀ x ∈ pre, isCsv x = true → x.LastModified < o.LastModified)
    (hpost : ∀ x ∈ post, isCsv x = true → x.LastModified ≤ o.LastModified) :
    scanLatest (pre ++ o :: post) ([], 0) = (o.Key, o.LastModified) ∧
    ∀ (S : Services) (bucket path : GoString),
      S.ListObjectsV2 bucket path = Except.ok (pre ++ o :: post) →
      downloadRecent S bucket path = S.GetObject bucket o.Key := by
  have h := scanLatest_first pre post o hcsv hpre hpost ([], 0) hpos
  refine ⟨h, ?_⟩
  intro S bucket path hlist
  unfold downloadRecent
  rw [hlist]
  simp only []
  rw [h, if_neg (isCsv_key_ne_nil o hcsv)]

/-- Witness of C17 as amended: `a.csv` and `b.csv` both at time 5, after
`z.csv` at time 2; `a.csv` is selected. -/
theorem scanLatest_first_seen_wins_witness :
    scanLatest ([{ Key := ascii "z.csv", LastModified := 2 }] ++
        { Key := ascii "a.csv", LastModified := 5 } ::
          [{ Key := ascii "b.csv", LastModified := 5 }]) ([], 0) = (ascii "a.csv", 5) :=
  (scanLatest_first_seen_wins [{ Key := ascii "z.csv", LastModified := 2 }]
    [{ Key := ascii "b.csv", LastModified := 5 }]
    { Key := ascii "a.csv", LastModified := 5 } (by decide) (by decide) (by decide)
    (by decide)).1

/-- Counterexample to C17: `a.csv` and `b.csv` share the maximal time 5 and
`b.csv` is the last in the listing; the scan selects `a.csv`. -/
theorem last_of_ties_not_selected :
    isCsv { Key := ascii "a.csv", LastModified := 5 } = true ∧
    isCsv { Key := ascii "b.csv", LastModified := 5 } = true ∧
    scanLatest [{ Key := ascii "a.csv", LastModified := 5 },
      { Key := ascii "b.csv", LastModified := 5 }] ([], 0) = (ascii "a.csv", 5) ∧
    (scanLatest [{ Key := ascii "a.csv", LastModified := 5 },
      { Key := ascii "b.csv", LastModified := 5 }] ([], 0)).1 ≠ ascii "b.csv" := by
  decide

end AvgPrices

namespace AvgPrices

/-! ## What a successful `read` tells about the stream and the table -/

/-- The loop of `read` succeeds only on records of at least 11 fields, and
then stores them one by one. -/
theorem readLoop_ok_inv (items : Stream) :
    ∀ (fpr : Nat) (t t1 : Table), readLoop fpr items t = Outcome.ok t1 →
      ∃ rows : List (List GoString), items = rows.map RawItem.record ∧
        (∀ r ∈ rows, 11 ≤ r.length) ∧
        t1 = rows.foldl (fun acc r => acc.set (baselineKey r) (baselineEntry r)) t := by
  induction items with
  | nil =>
    intro fpr t t1 h
    simp only [readLoop, Outcome.ok.injEq] at h
    exact ⟨[], rfl, by simp, by simp [h]⟩
  | cons item rest ih =>
    intro fpr t t1 h
    cases item with
    | malformed => simp [readLoop, csvRead] at h
    | record r =>
      simp only [readLoop, csvRead_record] at h
      by_cases hf : 0 < fpr ∧ r.length ≠ fpr
      · rw [if_pos hf] at h; cases h
      · rw [if_neg hf] at h
        by_cases hr : 11 ≤ r.length
        · simp only [readRow_of_le r hr] at h
          obtain ⟨rows, h1, h2, h3⟩ := ih _ _ _ h
          refine ⟨r :: rows, by simp [h1], ?_, by simp [h3]⟩
          intro x hx
          rcases List.mem_cons.1 hx with rfl | hx
          · exact hr
          · exact h2 x hx
        · simp only [readRow_of_lt r (by omega)] at h
          cases h

/-- A successful `read` has read a header and data rows of at least 11
fields, and returns the table in which each row was stored under its key, in
order. -/
theorem read_ok_inv (s : Stream) (t : Table) (h : read s = Outcome.ok t) :
    ∃ hdr rows, s = csvStream hdr rows ∧ (∀ r ∈ rows, 11 ≤ r.length) ∧
      t = rows.foldl (fun acc r => acc.set (baselineKey r) (baselineEntry r)) Table.empty := by
  cases s with
  | nil => simp [read] at h
  | cons item rest =>
    cases item with
    | malformed => simp [read, csvRead] at h
    | record hdr =>
      simp only [read, csvRead_record] at h
      have hf : ¬ (0 < 0 ∧ hdr.length ≠ 0) := by omega
      rw [if_neg hf] at h
      obtain ⟨rows, h1, h2, h3⟩ := readLoop_ok_inv _ _ _ _ h
      exact ⟨hdr, rows, by rw [h1]; rfl, h2, h3⟩

/-- The records of a stream determine its rows. -/
theorem map_record_injective (a b : List (List GoString))
    (h : a.map RawItem.record = b.map RawItem.record) : a = b :=
  List.map_injective_iff.2 (fun x y e => by cases e; rfl) h

/-- Storing rows of other keys leaves a key as it was. -/
theorem foldl_set_other (rows : List (List GoString)) (k : GoString)
    (h : ∀ r ∈ rows, baselineKey r ≠ k) :
    ∀ t : Table,
      rows.foldl (fun acc r => acc.set (baselineKey r) (baselineEntry r)) t k = t k := by
  induction rows with
  | nil => intro t; rfl
  | cons r rest ih =>
    intro t
    rw [List.foldl_cons, ih (fun x hx => h x (List.mem_cons_of_mem _ hx))]
    have : k ≠ baselineKey r := fun e => h r (List.mem_cons_self _ _) e.symm
    simp [Table.set, this]

/-- A key some row has is the key of a last row. -/
theorem last_with_key (k : GoString) (rows : List (List GoString)) :
    (∃ r ∈ rows, baselineKey r = k) →
      ∃ pre r post, rows = pre ++ r :: post ∧ baselineKey r = k ∧
        ∀ x ∈ post, baselineKey x ≠ k := by
  induction rows with
  | nil => rintro ⟨r, hr, _⟩; simp at hr
  | cons a rest ih =>
    intro hex
    by_cases hrest : ∃ r ∈ rest, baselineKey r = k
    · obtain ⟨pre, r, post, e1, e2, e3⟩ := ih hrest
      exact ⟨a :: pre, r, post, by rw [e1]; rfl, e2, e3⟩
    · obtain ⟨r, hr, hk⟩ := hex
      rcases List.mem_cons.1 hr with rfl | hr
      · exact ⟨[], r, rest, rfl, hk, fun x hx e => hrest ⟨x, hx, e⟩⟩
      · exact absurd ⟨r, hr, hk⟩ hrest

/-- An entry of the table built from the rows is the entry of the last row
with its key. -/
theorem foldl_set_lookup (rows : List (List GoString)) (k : GoString) (e : PriceAverage)
    (h : rows.foldl (fun acc r => acc.set (baselineKey r) (baselineEntry r)) Table.empty k
      = some e) :
    ∃ pre r post, rows = pre ++ r :: post ∧ baselineKey r = k ∧
      (∀ x ∈ post, baselineKey x ≠ k) ∧ e = baselineEntry r := by
  by_cases hex : ∃ r ∈ rows, baselineKey r = k
  · obtain ⟨pre, r, post, e1, e2, e3⟩ := last_with_key k rows hex
    refine ⟨pre, r, post, e1, e2, e3, ?_⟩
    subst e2
    rw [e1, foldl_set_last post r e3 pre Table.empty] at h
    cases h
    rfl
  · have hno : ∀ r ∈ rows, baselineKey r ≠ k := fun r hr e => hex ⟨r, hr, e⟩
    rw [foldl_set_other rows k hno] at h
    cases h

/-- Two keys are equal exactly when their three components are. -/
theorem compositeKey_eq_iff (r1 a1 i1 r2 a2 i2 : Int) :
    compositeKey r1 a1 i1 = compositeKey r2 a2 i2 ↔ (r1, a1, i1) = (r2, a2, i2) := by
  constructor
  · intro h
    unfold compositeKey at h
    obtain ⟨e1, h2⟩ := fmtInt_sep_inj _ _ _ _ h
    obtain ⟨e2, h3⟩ := fmtInt_sep_inj _ _ _ _ h2
    rw [e1, e2, fmtInt_injective _ _ h3]
  · intro h
    cases h
    rfl

/-- A historical row and a detail row have the same key exactly when they
have the same parsed triple. -/
theorem key_eq_iff_triple (r d : List GoString) :
    baselineKey r = detailKey d ↔ baselineTriple r = detailTriple d :=
  compositeKey_eq_iff _ _ _ _ _ _

end AvgPrices

namespace AvgPrices

/-! ## The header, the entries and the build loop of `read` -/

/-- C12. The function `read` returns an error on a stream without a first
record (the empty stream, or one whose first record the reader rejects), and
treats exhaustion after the header as success: a header alone gives the empty
table. The header is discarded: two streams that differ in the content of the
header's fields only give the same result, and whenever `read` succeeds under
two headers the tables are the same. -/
theorem read_header_discarded :
    read [] = Outcome.error Error.EOF ∧
    (∀ rest, read (RawItem.malformed :: rest) = Outcome.error Error.csvParse) ∧
    (∀ hdr, read [RawItem.record hdr] = Outcome.ok Table.empty) ∧
    (∀ hdr rows t, read (csvStream hdr rows) = Outcome.ok t →
      ∀ k, t k ≠ none → ∃ r ∈ rows, baselineKey r = k) ∧
    (∀ h1 h2 rest, h1.length = h2.length →
      read (RawItem.record h1 :: rest) = read (RawItem.record h2 :: rest)) ∧
    (∀ h1 h2 rest t1 t2, read (RawItem.record h1 :: rest) = Outcome.ok t1 →
      read (RawItem.record h2 :: rest) = Outcome.ok t2 → t1 = t2) := by
  refine ⟨rfl, fun _ => rfl, ?_, ?_, ?_, ?_⟩
  · intro hdr
    simp [read, csvRead_record, readLoop]
  · intro hdr rows t h k hk
    obtain ⟨hdr1, rows1, e, _, ht⟩ := read_ok_inv _ _ h
    have hrows : rows = rows1 := by
      unfold csvStream at e
      exact map_record_injective _ _ (List.cons.inj e).2
    subst hrows
    by_contra hno
    apply hk
    rw [ht, foldl_set_other rows k (fun r hr e => hno ⟨r, hr, e⟩)]
    rfl
  · intro h1 h2 rest hl
    have hf : ∀ n : Nat, ¬ (0 < 0 ∧ n ≠ 0) := fun n => by omega
    simp only [read, csvRead_record, if_neg (hf _), hl]
  · intro h1 h2 rest t1 t2 e1 e2
    obtain ⟨a1, rows1, s1, _, r1⟩ := read_ok_inv _ _ e1
    obtain ⟨a2, rows2, s2, _, r2⟩ := read_ok_inv _ _ e2
    unfold csvStream at s1 s2
    have hrows : rows1 = rows2 :=
      map_record_injective _ _ ((List.cons.inj s1).2.symm.trans (List.cons.inj s2).2)
    rw [r1, r2, hrows]

/-- Witness of C12: the row of the worked example under two headers of 12
fields. -/
theorem read_header_discarded_witness :
    read (RawItem.record (exHeader 12) :: [RawItem.record exHistoricalRow]) =
      read (RawItem.record (List.replicate 12 (ascii "realm")) ::
        [RawItem.record exHistoricalRow]) :=
  read_header_discarded.2.2.2.2.1 (exHeader 12) (List.replicate 12 (ascii "realm"))
    [RawItem.record exHistoricalRow] (by decide)

/-- C13, as amended. For every historical stream on which `read` succeeds,
every entry of the table has as `RowCount` the number parsed from column 3 of
the last data row with the entry's key; it is at least 1 exactly when that
number is (the rows are not counted). -/
theorem read_rowCount_of_column (s : Stream) (t : Table) (h : read s = Outcome.ok t) :
    ∃ hdr rows, s = csvStream hdr rows ∧
      ∀ k e, t k = some e →
        ∃ pre r post, rows = pre ++ r :: post ∧ baselineKey r = k ∧
          (∀ x ∈ post, baselineKey x ≠ k) ∧
          e.RowCount = atoi (field r 3) ∧ (1 ≤ e.RowCount ↔ 1 ≤ atoi (field r 3)) := by
  obtain ⟨hdr, rows, hs, _, ht⟩ := read_ok_inv s t h
  refine ⟨hdr, rows, hs, ?_⟩
  intro k e hk
  rw [ht] at hk
  obtain ⟨pre, r, post, e1, e2, e3, e4⟩ := foldl_set_lookup rows k e hk
  have hrc : e.RowCount = atoi (field r 3) := by
    rw [e4]
    simp [baselineEntry, wrapInt64_atoi]
  exact ⟨pre, r, post, e1, e2, e3, hrc, by rw [hrc]⟩

/-- Witness of C13 as amended: the historical row of the worked example. -/
theorem read_rowCount_of_column_witness :
    ∃ hdr rows, csvStream (exHeader 12) [exHistoricalRow] = csvStream hdr rows ∧
      ∀ k e, exTable k = some e →
        ∃ pre r post, rows = pre ++ r :: post ∧ baselineKey r = k ∧
          (∀ x ∈ post, baselineKey x ≠ k) ∧
          e.RowCount = atoi (field r 3) ∧ (1 ≤ e.RowCount ↔ 1 ≤ atoi (field r 3)) :=
  read_rowCount_of_column (csvStream (exHeader 12) [exHistoricalRow]) exTable rfl

/-- Counterexample to C13: a historical row whose column 3 is `0`. The
function `read` succeeds and the entry of the key `1-2-3` has `RowCount` 0. -/
theorem zero_row_count_entry :
    ∃ t e, read (csvStream (exHeader 12) [exZeroCountRow]) = Outcome.ok t ∧
      t (ascii "1-2-3") = some e ∧ e.RowCount = 0 ∧ ¬ (1 ≤ e.RowCount) := by
  refine ⟨_, _, rfl, rfl, ?_⟩
  decide

/-- C14, as amended. In the build loop of `read` a data row replaces the
entry of its key and leaves every other key as it was: the table after the
rows `pre` and one more row `r` is the table after `pre` with the entry of
`r` stored under the key of `r`. So the seven sums of a key already present
are unchanged by a row of another key, and are the row's own columns 4 to 10
after a row of that key, larger or smaller than before. -/
theorem read_row_replaces_entry (hdr : List GoString) (pre : List (List GoString))
    (r : List GoString) (t t1 : Table)
    (h0 : read (csvStream hdr pre) = Outcome.ok t)
    (h1 : read (csvStream hdr (pre ++ [r])) = Outcome.ok t1) :
    t1 = t.set (baselineKey r) (baselineEntry r) ∧
    (∀ k, k ≠ baselineKey r → t1 k = t k) ∧
    ∃ e, t1 (baselineKey r) = some e ∧
      e.QuantitySum = atoi (field r 4) ∧ e.P05Sum = atoi (field r 5) ∧
      e.P10Sum = atoi (field r 6) ∧ e.P25Sum = atoi (field r 7) ∧
      e.P50Sum = atoi (field r 8) ∧ e.P75Sum = atoi (field r 9) ∧
      e.P90Sum = atoi (field r 10) := by
  rw [read_csvStream] at h0 h1
  obtain ⟨rows0, a0, _, c0⟩ := readLoop_ok_inv _ _ _ _ h0
  obtain ⟨rows1, a1, _, c1⟩ := readLoop_ok_inv _ _ _ _ h1
  have e0 := map_record_injective _ _ a0
  have e1 := map_record_injective _ _ a1
  subst e0 e1
  have ht : t1 = t.set (baselineKey r) (baselineEntry r) := by
    rw [c1, c0, List.foldl_append]
    rfl
  refine ⟨ht, ?_, baselineEntry r, ?_, ?_⟩
  · intro k hk
    rw [ht]
    simp [Table.set, hk]
  · rw [ht]
    simp [Table.set]
  · simp [baselineEntry, wrapInt64_atoi]

/-- Witness of C14 as amended: the row of the worked example stored after a
row of another key. -/
theorem read_row_replaces_entry_witness :
    ∃ t t1, read (csvStream (exHeader 12) [List.replicate 12 (ascii "7")]) = Outcome.ok t ∧
      read (csvStream (exHeader 12) ([List.replicate 12 (ascii "7")] ++ [exHistoricalRow]))
        = Outcome.ok t1 ∧
      t1 = t.set (baselineKey exHistoricalRow) (baselineEntry exHistoricalRow) ∧
      t1 (ascii "7-7-7") = t (ascii "7-7-7") :=
  ⟨_, _, rfl, rfl,
    (read_row_replaces_entry (exHeader 12) [List.replicate 12 (ascii "7")] exHistoricalRow
      _ _ rfl rfl).1,
    (read_row_replaces_entry (exHeader 12) [List.replicate 12 (ascii "7")] exHistoricalRow
      _ _ rfl rfl).2.1 (ascii "7-7-7") (by decide)⟩

/-- Counterexample to C14: the key `1-2-3` holds the quantity sum 100 after
the first row; after a further row with the same key and the quantity sum 7
it holds 7. -/
theorem later_row_lowers_sum :
    ∃ t t1 e0 e1, read (csvStream (exHeader 12) [exHistoricalRow]) = Outcome.ok t ∧
      read (csvStream (exHeader 12) ([exHistoricalRow] ++ [exSmallerRow])) = Outcome.ok t1 ∧
      t (ascii "1-2-3") = some e0 ∧ t1 (ascii "1-2-3") = some e1 ∧
      e0.QuantitySum = 100 ∧ e1.QuantitySum = 7 ∧ e1.QuantitySum < e0.QuantitySum := by
  refine ⟨_, _, _, _, rfl, rfl, rfl, rfl, ?_⟩
  decide

end AvgPrices

namespace AvgPrices

/-! ## Short rows, the identifiers of a record, and the join -/

/-- The loop of `enrichData` never succeeds on a stream with a record of
fewer than 13 fields. -/
theorem enrichLoop_short_not_ok (P : Platform) (t : Table) (row : List GoString)
    (hshort : row.length < 13) (items : Stream) :
    RawItem.record row ∈ items →
      ∀ (fpr : Nat) (acc recs : List auctions_db.PriceAverage),
        enrichLoop P t fpr items acc ≠ Outcome.ok recs := by
  induction items with
  | nil => intro h; simp at h
  | cons item rest ih =>
    intro hmem fpr acc recs h
    cases item with
    | malformed => simp [enrichLoop, csvRead] at h
    | record r =>
      simp only [enrichLoop, csvRead_record] at h
      by_cases hf : 0 < fpr ∧ r.length ≠ fpr
      · rw [if_pos hf] at h; cases h
      · rw [if_neg hf] at h
        simp only [] at h
        cases hrow : enrichRow P t r with
        | error e => rw [hrow] at h; cases h
        | panic => rw [hrow] at h; cases h
        | ok x =>
          rw [hrow] at h
          have h13 := (enrichRow_ok P t r x hrow).1
          rcases List.mem_cons.1 hmem with e | hm
          · cases e; omega
          · exact ih hm _ _ _ h

/-- The loop of `enrichData` does not fault when the reader expects at least
13 fields. -/
theorem enrichLoop_no_panic (P : Platform) (t : Table) (fpr : Nat) (h13 : 13 ≤ fpr)
    (items : Stream) :
    ∀ acc : List auctions_db.PriceAverage, enrichLoop P t fpr items acc ≠ Outcome.panic := by
  induction items with
  | nil => intro acc h; simp [enrichLoop] at h
  | cons item rest ih =>
    intro acc h
    cases item with
    | malformed => simp [enrichLoop, csvRead] at h
    | record r =>
      simp only [enrichLoop, csvRead_record] at h
      by_cases hf : 0 < fpr ∧ r.length ≠ fpr
      · rw [if_pos hf] at h; cases h
      · rw [if_neg hf] at h
        simp only [] at h
        have hr : 13 ≤ r.length := by
          by_contra hlt
          exact hf ⟨by omega, by omega⟩
        rw [if_pos (by omega : 0 < fpr)] at h
        cases hk : t (detailKey r) with
        | none => rw [enrichRow_miss P t r hr hk] at h; cases h
        | some pa =>
          rw [enrichRow_hit P t r pa hr hk] at h
          exact ih _ h

/-- The loop of `enrichData` passes the rows it accepts and finds in the
table. -/
theorem enrichLoop_prefix (P : Platform) (t : Table) (n : Nat) (hn : 0 < n) (tail : Stream)
    (pre : List (List GoString))
    (hpre : ∀ d ∈ pre, d.length = n ∧ 13 ≤ d.length ∧ t (detailKey d) ≠ none) :
    ∀ acc : List auctions_db.PriceAverage,
      ∃ acc1, enrichLoop P t n (pre.map RawItem.record ++ tail) acc
        = enrichLoop P t n tail acc1 := by
  induction pre with
  | nil => intro acc; exact ⟨acc, rfl⟩
  | cons r rest ih =>
    intro acc
    obtain ⟨h1, h2, h3⟩ := hpre r (List.mem_cons_self _ _)
    obtain ⟨pa, hpa⟩ := Option.ne_none_iff_exists'.1 h3
    have hf : ¬ (0 < n ∧ r.length ≠ n) := by omega
    simp only [List.map_cons, List.cons_append, enrichLoop, csvRead_record, if_neg hf,
      enrichRow_hit P t r pa h2 hpa, if_pos hn]
    exact ih (fun d hd => hpre d (List.mem_cons_of_mem _ hd)) _

/-- The function `enrichData` on a stream with a header. -/
theorem enrichData_header (P : Platform) (t : Table) (hdr : List GoString) (items : Stream) :
    enrichData P (RawItem.record hdr :: items) t = enrichLoop P t hdr.length items [] := by
  simp [enrichData, csvRead_record]

/-- Related lists pair every element of the first with one of the second. -/
theorem forall₂_mem_left {α β : Type} (R : α → β → Prop) (l1 : List α) (l2 : List β)
    (h : List.Forall₂ R l1 l2) : ∀ a ∈ l1, ∃ b ∈ l2, R a b := by
  induction h with
  | nil => intro a ha; simp at ha
  | cons hab _ ih =>
    intro a ha
    rcases List.mem_cons.1 ha with rfl | ha
    · exact ⟨_, List.mem_cons_self _ _, hab⟩
    · obtain ⟨b, hb, hr⟩ := ih a ha
      exact ⟨b, List.mem_cons_of_mem _ hb, hr⟩

/-- Narrowing to 16 bits keeps a value of the 16-bit signed range. -/
theorem wrapInt16_of_range (n : Int) (h1 : -2 ^ 15 ≤ n) (h2 : n < 2 ^ 15) :
    wrapInt 16 n = n := by
  unfold wrapInt
  norm_num at h1 h2 ⊢
  rw [Int.emod_eq_of_lt (by omega) (by omega)]
  omega

end AvgPrices

namespace AvgPrices

/-- C11, as amended. For a detail stream whose header is readable and that
contains a data row with fewer than 13 fields, `enrichData` never returns a
record sequence, for every table. It returns an error, and never faults, when
the header has at least 13 fields; the error is the reader's field-count
error when the short row differs in length from the header and the rows
before it are accepted and found in the table. It faults on the out-of-range
column index when the short row has as many fields as the header and is the
first data row. -/
theorem enrichData_short_row (P : Platform) (t : Table) (hdr : List GoString)
    (items : Stream) (row : List GoString)
    (hmem : RawItem.record row ∈ items) (hshort : row.length < 13) :
    (∀ recs, enrichData P (RawItem.record hdr :: items) t ≠ Outcome.ok recs) ∧
    (13 ≤ hdr.length → ∃ e, enrichData P (RawItem.record hdr :: items) t = Outcome.error e) ∧
    (∀ (pre : List (List GoString)) (rest : Stream),
      items = pre.map RawItem.record ++ RawItem.record row :: rest →
      0 < hdr.length → row.length ≠ hdr.length →
      (∀ d ∈ pre, d.length = hdr.length ∧ 13 ≤ d.length ∧ t (detailKey d) ≠ none) →
      enrichData P (RawItem.record hdr :: items) t = Outcome.error Error.csvFieldCount) ∧
    (∀ rest, items = RawItem.record row :: rest → row.length = hdr.length →
      enrichData P (RawItem.record hdr :: items) t = Outcome.panic) := by
  rw [enrichData_header]
  refine ⟨?_, ?_, ?_, ?_⟩
  · intro recs
    exact enrichLoop_short_not_ok P t row hshort items hmem _ _ recs
  · intro h13
    cases hres : enrichLoop P t hdr.length items [] with
    | ok recs => exact absurd hres (enrichLoop_short_not_ok P t row hshort items hmem _ _ recs)
    | error e => exact ⟨e, rfl⟩
    | panic => exact absurd hres (enrichLoop_no_panic P t hdr.length h13 items [])
  · intro pre rest hitems hpos hne hpre
    obtain ⟨acc1, hacc⟩ := enrichLoop_prefix P t hdr.length hpos (RawItem.record row :: rest)
      pre hpre []
    rw [hitems, hacc]
    simp only [enrichLoop, csvRead_record]
    rw [if_pos ⟨hpos, hne⟩]
  · intro rest hitems hlen
    rw [hitems]
    have hf : ¬ (0 < hdr.length ∧ row.length ≠ hdr.length) := by omega
    simp only [enrichLoop, csvRead_record, if_neg hf, enrichRow_short P t row hshort]

/-- Witness of C11 as amended: a row of 12 fields under a header of 13
fields is refused with the field-count error. -/
theorem enrichData_short_row_witness :
    enrichData exPlatform
      (RawItem.record (exHeader 13) :: [RawItem.record (List.replicate 12 (ascii "1"))])
      exTable = Outcome.error Error.csvFieldCount :=
  (enrichData_short_row exPlatform exTable (exHeader 13)
    [RawItem.record (List.replicate 12 (ascii "1"))] (List.replicate 12 (ascii "1"))
    (List.mem_singleton.2 rfl) (by decide)).2.2.1 [] [] rfl (by decide) (by decide)
    (by simp)

/-- Counterexample to C11: a header of 12 fields and a data row of 12
fields. The header is readable and the row has fewer than 13 fields, yet
`enrichData` does not return an error: it faults on the column index. -/
theorem short_row_faults :
    (List.replicate 12 (ascii "1")).length < 13 ∧
    enrichData exPlatform (csvStream (exHeader 12) [List.replicate 12 (ascii "1")]) exTable
      = Outcome.panic ∧
    ∀ e, enrichData exPlatform (csvStream (exHeader 12) [List.replicate 12 (ascii "1")])
      exTable ≠ Outcome.error e := by
  have h : enrichData exPlatform (csvStream (exHeader 12) [List.replicate 12 (ascii "1")])
      exTable = Outcome.panic := rfl
  refine ⟨by decide, h, ?_⟩
  intro e he
  rw [h] at he
  cases he

/-- C15, as amended. For every detail row with a table entry the emitted
record carries the three ids the lookup key was built from, narrowed to the
types of its fields: `RealmID` and `AuctionHouseId` are the parsed ids as
`int16`, equal to them when they lie in the 16-bit signed range, and `ItemID`
is the parsed id as `int32`, equal to it in the 32-bit signed range. Each
metric's current value is the parsed column as `int32`, equal to it in the
32-bit signed range. -/
theorem record_ids_narrowed (P : Platform) (t : Table) (hdr : List GoString)
    (rows : List (List GoString)) :
    ((∀ d ∈ rows, 13 ≤ d.length) → (∀ d ∈ rows, d.length = hdr.length) →
      (∀ d ∈ rows, t (detailKey d) ≠ none) →
      ∃ recs, enrichData P (csvStream hdr rows) t = Outcome.ok recs) ∧
    ∀ recs, enrichData P (csvStream hdr rows) t = Outcome.ok recs →
      List.Forall₂ (fun d x =>
        detailKey d = compositeKey (detailTriple d).1 (detailTriple d).2.1 (detailTriple d).2.2 ∧
        x.RealmID = wrapInt 16 (detailTriple d).1 ∧
        x.AuctionHouseId = wrapInt 16 (detailTriple d).2.1 ∧
        x.ItemID = wrapInt 32 (detailTriple d).2.2 ∧
        (-2 ^ 15 ≤ (detailTriple d).1 → (detailTriple d).1 < 2 ^ 15 →
          x.RealmID = (detailTriple d).1) ∧
        (-2 ^ 15 ≤ (detailTriple d).2.1 → (detailTriple d).2.1 < 2 ^ 15 →
          x.AuctionHouseId = (detailTriple d).2.1) ∧
        (-2 ^ 31 ≤ (detailTriple d).2.2 → (detailTriple d).2.2 < 2 ^ 31 →
          x.ItemID = (detailTriple d).2.2) ∧
        (metrics x).map (fun m => m.1)
          = metricColumns.map (fun c => wrapInt 32 (atoi (field d c.1))) ∧
        ∀ c ∈ metricColumns, -2 ^ 31 ≤ atoi (field d c.1) → atoi (field d c.1) < 2 ^ 31 →
          wrapInt 32 (atoi (field d c.1)) = atoi (field d c.1)) rows recs := by
  constructor
  · intro h13 hl hhit
    rw [enrichData_csvStream]
    exact enrichLoop_total P t hdr.length rows h13 hl hhit _ _ (Or.inr rfl)
  · intro recs h
    refine List.Forall₂.imp ?_ (enrichData_forall₂ P t hdr rows recs h)
    intro d x hx
    obtain ⟨pa, _, hxe⟩ := hx
    subst hxe
    refine ⟨rfl, rfl, rfl, rfl, ?_, ?_, ?_, ?_, ?_⟩
    · intro a b
      exact wrapInt16_of_range _ a b
    · intro a b
      exact wrapInt16_of_range _ a b
    · intro a b
      exact wrapInt32_of_range _ a b
    · rw [metrics_enrichRecord]
      rfl
    · intro c _ a b
      exact wrapInt32_of_range _ a b

set_option maxRecDepth 8000 in
set_option exponentiation.threshold 4096 in
/-- Witness of C15 as amended: the detail row of the worked example gives a
record with the ids 1, 2, 3 and the current values 15, 11, 22, 33, 44, 55,
66. -/
theorem record_ids_narrowed_witness :
    ∃ x, enrichData exPlatform (csvStream (exHeader 13) [exDetailRow]) exTable
        = Outcome.ok [x] ∧
      x.RealmID = 1 ∧ x.AuctionHouseId = 2 ∧ x.ItemID = 3 ∧
      (metrics x).map (fun m => m.1) = [15, 11, 22, 33, 44, 55, 66] := by
  obtain ⟨recs, hrecs⟩ := (record_ids_narrowed exPlatform exTable (exHeader 13)
    [exDetailRow]).1 (by decide) (by decide) (by decide)
  have hall := (record_ids_narrowed exPlatform exTable (exHeader 13) [exDetailRow]).2
    recs hrecs
  cases hall with
  | cons hx hrest =>
    cases hrest
    obtain ⟨_, _, _, _, h1, h2, h3, h4, _⟩ := hx
    refine ⟨_, hrecs, ?_, ?_, ?_, ?_⟩
    · rw [h1 (by decide) (by decide)]; decide
    · rw [h2 (by decide) (by decide)]; decide
    · rw [h3 (by decide) (by decide)]; decide
    · rw [h4]; decide

set_option maxRecDepth 8000 in
set_option exponentiation.threshold 4096 in
/-- Counterexample to C15: the detail row of the worked example in the realm
`40000`, with a table entry for its key. The three ids lie in the 32-bit
signed range, and the record has `RealmID` `-25536`, not `40000`. -/
theorem realm_id_wraps :
    ∃ x, enrichData exPlatform (csvStream (exHeader 13) [exFarRealmRow])
        (Table.empty.set (ascii "40000-2-3") exBaseline) = Outcome.ok [x] ∧
      detailTriple exFarRealmRow = (40000, 2, 3) ∧
      x.RealmID = -25536 ∧ x.RealmID ≠ (detailTriple exFarRealmRow).1 := by
  refine ⟨_, rfl, ?_⟩
  decide

/-- C18, as amended. For every historical stream on which `read` succeeds, a
key is in the table exactly when some historical data row has its triple; and
for every detail stream whose header is readable and whose data rows have at
least 13 fields and the field count of the header, `enrichData` on that table
succeeds if and only if every detail row's parsed (realm, auction-house,
item) triple is the parsed triple of some historical data row. -/
theorem enrichData_succeeds_iff_joined (s : Stream) (t : Table)
    (h : read s = Outcome.ok t) :
    ∃ hh hrows, s = csvStream hh hrows ∧
      (∀ a b c : Int, t (compositeKey a b c) ≠ none ↔
        ∃ r ∈ hrows, baselineTriple r = (a, b, c)) ∧
      ∀ (P : Platform) (dh : List GoString) (drows : List (List GoString)),
        (∀ d ∈ drows, 13 ≤ d.length) → (∀ d ∈ drows, d.length = dh.length) →
        ((∃ recs, enrichData P (csvStream dh drows) t = Outcome.ok recs) ↔
          ∀ d ∈ drows, ∃ r ∈ hrows, baselineTriple r = detailTriple d) := by
  obtain ⟨hh, hrows, hs, _, ht⟩ := read_ok_inv s t h
  have hkey : ∀ k : GoString, t k ≠ none ↔ ∃ r ∈ hrows, baselineKey r = k := by
    intro k
    constructor
    · intro hk
      by_contra hno
      apply hk
      rw [ht, foldl_set_other hrows k (fun r hr e => hno ⟨r, hr, e⟩)]
      rfl
    · intro hex
      rw [ht]
      exact foldl_set_some hrows k Table.empty (Or.inr hex)
  refine ⟨hh, hrows, hs, ?_, ?_⟩
  · intro a b c
    rw [hkey]
    constructor
    · rintro ⟨r, hr, e⟩
      exact ⟨r, hr, (compositeKey_eq_iff _ _ _ _ _ _).1 e⟩
    · rintro ⟨r, hr, e⟩
      exact ⟨r, hr, (compositeKey_eq_iff _ _ _ _ _ _).2 e⟩
  · intro P dh drows h13 hl
    constructor
    · rintro ⟨recs, hrecs⟩ d hd
      obtain ⟨x, _, pa, hpa, _⟩ :=
        forall₂_mem_left _ _ _ (enrichData_forall₂ P t dh drows recs hrecs) d hd
      have hne : t (detailKey d) ≠ none := by rw [hpa]; simp
      obtain ⟨r, hr, e⟩ := (hkey _).1 hne
      exact ⟨r, hr, (key_eq_iff_triple r d).1 e⟩
    · intro hall
      rw [enrichData_csvStream]
      refine enrichLoop_total P t dh.length drows h13 hl ?_ _ _ (Or.inr rfl)
      intro d hd
      obtain ⟨r, hr, e⟩ := hall d hd
      exact (hkey _).2 ⟨r, hr, (key_eq_iff_triple r d).2 e⟩

/-- Witness of C18 as amended: the worked example. The table built from the historical
row holds the key `1-2-3`, and `enrichData` succeeds on the detail row. -/
theorem enrichData_succeeds_iff_joined_witness :
    ∃ hh hrows, csvStream (exHeader 12) [exHistoricalRow] = csvStream hh hrows ∧
      (∀ a b c : Int, exTable (compositeKey a b c) ≠ none ↔
        ∃ r ∈ hrows, baselineTriple r = (a, b, c)) ∧
      ∀ (P : Platform) (dh : List GoString) (drows : List (List GoString)),
        (∀ d ∈ drows, 13 ≤ d.length) → (∀ d ∈ drows, d.length = dh.length) →
        ((∃ recs, enrichData P (csvStream dh drows) exTable = Outcome.ok recs) ↔
          ∀ d ∈ drows, ∃ r ∈ hrows, baselineTriple r = detailTriple d) :=
  enrichData_succeeds_iff_joined (csvStream (exHeader 12) [exHistoricalRow]) exTable rfl

/-- Counterexample to C18: the historical row of the worked example, and a
detail stream with a header of 13 fields and one data row of 14 fields, the
detail row of the worked example with one more field. The row has at least 13
fields and its triple is the one of the historical row, yet `enrichData`
fails, with the field-count error of the reader. -/
theorem joined_ragged_row_fails :
    ∃ t, read (csvStream (exHeader 12) [exHistoricalRow]) = Outcome.ok t ∧
      13 ≤ (exDetailRow ++ [ascii "w"]).length ∧
      baselineTriple exHistoricalRow = detailTriple (exDetailRow ++ [ascii "w"]) ∧
      enrichData exPlatform (csvStream (exHeader 13) [exDetailRow ++ [ascii "w"]]) t
        = Outcome.error Error.csvFieldCount := by
  refine ⟨_, rfl, by decide, by decide, rfl⟩

end AvgPrices

namespace AvgPrices

/-! ## Rejected fields in `read` and `enrichData` -/

/-- The only error of the loop of `enrichData` on rows the reader accepts is
the missing key of a row. -/
theorem enrichLoop_error_inv (P : Platform) (t : Table) (n : Nat) (rows : List (List GoString))
    (h13 : ∀ r ∈ rows, 13 ≤ r.length) (hn : ∀ r ∈ rows, r.length = n) :
    ∀ (fpr : Nat) (acc : List auctions_db.PriceAverage) (e : Error), fpr = 0 ∨ fpr = n →
      enrichLoop P t fpr (rows.map RawItem.record) acc = Outcome.error e →
      ∃ d ∈ rows, t (detailKey d) = none ∧ e = Error.noPriceAverage (detailKey d) := by
  induction rows with
  | nil => intro fpr acc e _ h; simp [enrichLoop] at h
  | cons r rest ih =>
    intro fpr acc e hfpr h
    have hr : 13 ≤ r.length := h13 r (List.mem_cons_self _ _)
    have hrn : r.length = n := hn r (List.mem_cons_self _ _)
    have hf : ¬ (0 < fpr ∧ r.length ≠ fpr) := by
      rcases hfpr with h0 | h0 <;> omega
    simp only [List.map_cons, enrichLoop, csvRead_record, if_neg hf] at h
    cases hk : t (detailKey r) with
    | none =>
      rw [enrichRow_miss P t r hr hk] at h
      exact ⟨r, List.mem_cons_self _ _, hk, (Outcome.error.inj h).symm⟩
    | some pa =>
      rw [enrichRow_hit P t r pa hr hk] at h
      have hnext : (if 0 < fpr then fpr else r.length) = 0 ∨
          (if 0 < fpr then fpr else r.length) = n := by
        by_cases h0 : 0 < fpr
        · rw [if_pos h0]; rcases hfpr with h1 | h1
          · omega
          · exact Or.inr h1
        · rw [if_neg h0]; exact Or.inr hrn
      obtain ⟨d, hd, h1, h2⟩ := ih (fun x hx => h13 x (List.mem_cons_of_mem _ hx))
        (fun x hx => hn x (List.mem_cons_of_mem _ hx)) _ _ _ hnext h
      exact ⟨d, List.mem_cons_of_mem _ hd, h1, h2⟩

/-- C10, as amended. A numeric field that `Atoi` rejects is never reported:
the value used for it is the one `Atoi` returns beside the dropped error, `0`
for a syntax error (an empty or non-numeric field) and the largest or
smallest 64-bit integer for a range error (digits too large for the type),
and the row is processed with that value. So `read` succeeds on every stream
of rows the reader accepts, whatever the fields hold, and stores the row's
entry under the key built from the values used. And `enrichData`, on rows the
reader accepts, looks the row up under the key built from the values used: it
succeeds when every such key is in the table and otherwise returns the
missing-key error for such a key, so that a rejected id column fails the run
exactly when the key it is read as is absent. -/
theorem rejected_field_value (row : List GoString) (i : Nat)
    (h : (strconv.Atoi (field row i)).2 ≠ none) :
    (((strconv.Atoi (field row i)).2 = some strconv.NumError.invalid ∧ atoi (field row i) = 0) ∨
      ((strconv.Atoi (field row i)).2 = some strconv.NumError.range ∧
        (atoi (field row i) = 2 ^ 63 - 1 ∨ atoi (field row i) = -2 ^ 63))) ∧
    (∀ (hdr : List GoString) (pre post : List (List GoString)),
      (∀ r ∈ pre ++ row :: post, 11 ≤ r.length) →
      (∀ r ∈ pre ++ row :: post, r.length = hdr.length) →
      ∃ t, read (csvStream hdr (pre ++ row :: post)) = Outcome.ok t ∧
        ((∀ x ∈ post, baselineKey x ≠ baselineKey row) →
          t (baselineKey row) = some (baselineEntry row))) ∧
    (∀ (P : Platform) (t : Table) (hdr : List GoString) (pre post : List (List GoString)),
      (∀ d ∈ pre ++ row :: post, 13 ≤ d.length) →
      (∀ d ∈ pre ++ row :: post, d.length = hdr.length) →
      ((∀ d ∈ pre ++ row :: post, t (detailKey d) ≠ none) →
        ∃ recs, enrichData P (csvStream hdr (pre ++ row :: post)) t = Outcome.ok recs ∧
          List.Forall₂ (IsRecordOf P t) (pre ++ row :: post) recs) ∧
      ((∃ d ∈ pre ++ row :: post, t (detailKey d) = none) →
        ∃ d ∈ pre ++ row :: post, t (detailKey d) = none ∧
          enrichData P (csvStream hdr (pre ++ row :: post)) t
            = Outcome.error (Error.noPriceAverage (detailKey d)))) := by
  refine ⟨Atoi_error (field row i) h, ?_, ?_⟩
  · intro hdr pre post h11 hl
    obtain ⟨t, ht⟩ : ∃ t, read (csvStream hdr (pre ++ row :: post)) = Outcome.ok t := by
      rw [read_csvStream]
      exact readLoop_total hdr.length _ h11 hl _ _ (Or.inr rfl)
    exact ⟨t, ht, fun hlast => read_lookup_last hdr pre post row h11 hlast t ht⟩
  · intro P t hdr pre post h13 hl
    constructor
    · intro hhit
      obtain ⟨recs, hrecs⟩ :
          ∃ recs, enrichData P (csvStream hdr (pre ++ row :: post)) t = Outcome.ok recs := by
        rw [enrichData_csvStream]
        exact enrichLoop_total P t hdr.length _ h13 hl hhit _ _ (Or.inr rfl)
      exact ⟨recs, hrecs, enrichData_forall₂ P t hdr _ recs hrecs⟩
    · intro hmiss
      obtain ⟨e, he⟩ := enrichLoop_missing P t _ h13 hmiss hdr.length []
      obtain ⟨d, hd, h1, h2⟩ := enrichLoop_error_inv P t hdr.length _ h13 hl _ _ e
        (Or.inr rfl) he
      refine ⟨d, hd, h1, ?_⟩
      rw [enrichData_csvStream, he, h2]

set_option maxRecDepth 8000 in
set_option exponentiation.threshold 4096 in
/-- Witness of C10 as amended: the detail row of the worked example with the
realm field `1x` and the quantity field `abc`. Both are syntax errors and are
used as `0`: against the table of the worked example the row is looked up as
`0-2-3` and `enrichData` returns the missing-key error; against a table with
that key it succeeds, with the realm `0` and the current quantity `0`. -/
theorem rejected_field_value_witness :
    (((strconv.Atoi (field [ascii "x", ascii "1x", ascii "2", ascii "3", ascii "abc",
          ascii "y", ascii "z", ascii "11", ascii "22", ascii "33", ascii "44", ascii "55",
          ascii "66"] 1)).2 = some strconv.NumError.invalid ∧
        atoi (field [ascii "x", ascii "1x", ascii "2", ascii "3", ascii "abc",
          ascii "y", ascii "z", ascii "11", ascii "22", ascii "33", ascii "44", ascii "55",
          ascii "66"] 1) = 0) ∨
      ((strconv.Atoi (field [ascii "x", ascii "1x", ascii "2", ascii "3", ascii "abc",
          ascii "y", ascii "z", ascii "11", ascii "22", ascii "33", ascii "44", ascii "55",
          ascii "66"] 1)).2 = some strconv.NumError.range ∧
        (atoi (field [ascii "x", ascii "1x", ascii "2", ascii "3", ascii "abc",
          ascii "y", ascii "z", ascii "11", ascii "22", ascii "33", ascii "44", ascii "55",
          ascii "66"] 1) = 2 ^ 63 - 1 ∨
         atoi (field [ascii "x", ascii "1x", ascii "2", ascii "3", ascii "abc",
          ascii "y", ascii "z", ascii "11", ascii "22", ascii "33", ascii "44", ascii "55",
          ascii "66"] 1) = -2 ^ 63))) ∧
    enrichData exPlatform (csvStream (exHeader 13)
        [[ascii "x", ascii "1x", ascii "2", ascii "3", ascii "abc", ascii "y", ascii "z",
          ascii "11", ascii "22", ascii "33", ascii "44", ascii "55", ascii "66"]]) exTable
      = Outcome.error (Error.noPriceAverage (ascii "0-2-3")) ∧
    (∃ x, enrichData exPlatform (csvStream (exHeader 13)
        [[ascii "x", ascii "1x", ascii "2", ascii "3", ascii "abc", ascii "y", ascii "z",
          ascii "11", ascii "22", ascii "33", ascii "44", ascii "55", ascii "66"]])
        (Table.empty.set (ascii "0-2-3") exBaseline) = Outcome.ok [x] ∧
      x.RealmID = 0 ∧ x.QuantityCurrent = 0) :=
  ⟨(rejected_field_value [ascii "x", ascii "1x", ascii "2", ascii "3", ascii "abc",
      ascii "y", ascii "z", ascii "11", ascii "22", ascii "33", ascii "44", ascii "55",
      ascii "66"] 1 (by decide)).1,
    rfl, ⟨_, rfl, by decide⟩⟩

end AvgPrices

namespace AvgPrices

/-! ## The accuracy of the percent -/

/-- The fraction that `F64.mul` and `F64.toFloat32` hand to the rounding. -/
theorem scale_ratio (m : Nat) (k : ℤ) :
    ((m * 2 ^ k.toNat : ℕ) : ℚ) / ((2 ^ (-k).toNat : ℕ) : ℚ) = (m : ℚ) * (2 : ℚ) ^ k := by
  by_cases h : 0 ≤ k
  · have h1 := two_zpow_toNat k h
    have h2 : (-k).toNat = 0 := by omega
    rw [h2, Nat.cast_mul, h1]
    simp
  · have h1 := two_zpow_toNat (-k) (by omega)
    have h2 : k.toNat = 0 := by omega
    rw [h2, h1, zpow_neg]
    simp [div_eq_mul_inv]

/-- What `binary32.round` returns in the normal range: a finite value within
half a unit in the last place of the fraction, and the fraction itself when
it has the form `K * 2^(e - 23)`. -/
theorem round32_spec (s : Bool) (a b : Nat) (ha : 0 < a) (hb : 0 < b)
    (he1 : -126 ≤ floorLog2 a b) (he2 : floorLog2 a b ≤ 126) :
    ∃ m q, binary32.round s a b = GoFloat.fin s m q ∧ 0 < m ∧
      |(m : ℚ) * (2 : ℚ) ^ q - (a : ℚ) / b| ≤ (2 : ℚ) ^ (floorLog2 a b - 24) ∧
      (∀ K : ℕ, (a : ℚ) / b = K * (2 : ℚ) ^ (floorLog2 a b - 23) →
        m = K ∧ q = floorLog2 a b - 23) := by
  obtain ⟨l1, l2⟩ := floorLog2_spec a b ha hb
  generalize he : floorLog2 a b = e at he1 he2 l1 l2
  obtain ⟨n, d, hd, hnd, hy⟩ := scaled_ratio a b hb (e - 23)
  have hdq : (0 : ℚ) < d := by exact_mod_cast hd
  have hM := roundNearestEven_spec n d hd
  rw [hy] at hM
  have hunf : binary32.round s a b =
      if roundNearestEven n d = 2 ^ 24 then GoFloat.fin s (2 ^ 23) (e - 23 + 1)
      else GoFloat.fin s (roundNearestEven n d) (e - 23) := by
    unfold FloatFormat.round binary32
    simp only [he]
    rw [if_neg (by omega)]
    have hmax : max (e - (((24 : ℕ) : ℤ) - 1)) (-149) = e - 23 := by
      rw [max_eq_left (by omega)]; norm_num
    simp only [hmax, hnd]
    by_cases hm : roundNearestEven n d = 2 ^ 24
    · simp only [hm, if_true]
      rw [if_neg (by omega)]
    · simp only [hm, if_false]
      rw [if_neg (by omega)]
  have p23 : (0 : ℚ) < (2 : ℚ) ^ (e - 23) := by positivity
  have esplit : (2 : ℚ) ^ e = 2 ^ (23 : ℕ) * (2 : ℚ) ^ (e - 23) := by
    rw [← zpow_natCast, ← zpow_add₀ (by norm_num)]; congr 1; omega
  have esplit1 : (2 : ℚ) ^ (e + 1) = 2 ^ (24 : ℕ) * (2 : ℚ) ^ (e - 23) := by
    rw [← zpow_natCast, ← zpow_add₀ (by norm_num)]; congr 1; omega
  have e24 : (2 : ℚ) ^ (e - 24) = (2 : ℚ) ^ (e - 23) / 2 := by
    have : e - 24 = e - 23 - 1 := by omega
    rw [this, zpow_sub_one₀ (by norm_num)]; ring
  have hneg : (2 : ℚ) ^ (-(e - 23)) = ((2 : ℚ) ^ (e - 23))⁻¹ := zpow_neg _ _
  -- the scaled fraction lies in [2^23, 2^24)
  have hy1 : (2 : ℚ) ^ (23 : ℕ) ≤ (a : ℚ) / b * (2 : ℚ) ^ (-(e - 23)) := by
    rw [hneg, ← div_eq_mul_inv, le_div_iff₀ p23]; linarith
  have hy2 : (a : ℚ) / b * (2 : ℚ) ^ (-(e - 23)) < 2 ^ (24 : ℕ) := by
    rw [hneg, ← div_eq_mul_inv, div_lt_iff₀ p23]; linarith
  have hMpos : 0 < roundNearestEven n d := by
    by_contra h0
    have h0' : roundNearestEven n d = 0 := by omega
    rw [h0'] at hM
    have := (abs_le.1 hM).1
    norm_num at this hy1
    linarith
  -- the value is the rounded significand times the unit
  have hval : |((roundNearestEven n d : ℕ) : ℚ) * (2 : ℚ) ^ (e - 23) - (a : ℚ) / b|
      ≤ (2 : ℚ) ^ (e - 24) := by
    have h1 : ((roundNearestEven n d : ℕ) : ℚ) * (2 : ℚ) ^ (e - 23) - (a : ℚ) / b
        = (((roundNearestEven n d : ℕ) : ℚ) - (a : ℚ) / b * (2 : ℚ) ^ (-(e - 23)))
          * (2 : ℚ) ^ (e - 23) := by
      rw [hneg]; field_simp; ring
    rw [h1, abs_mul, abs_of_pos p23, e24]
    have := mul_le_mul_of_nonneg_right hM (le_of_lt p23)
    linarith
  have hexact : ∀ K : ℕ, (a : ℚ) / b = K * (2 : ℚ) ^ (e - 23) →
      roundNearestEven n d = K ∧ K < 2 ^ 24 := by
    intro K hK
    have hyK : (n : ℚ) / d = K := by
      rw [hy, hK, hneg]; field_simp
    have hnK : n = d * K := by
      have : (n : ℚ) = d * K := by
        rw [div_eq_iff (ne_of_gt hdq)] at hyK; linarith
      exact_mod_cast this
    refine ⟨by rw [hnK]; exact roundNearestEven_exact d K hd, ?_⟩
    have : (K : ℚ) < 2 ^ (24 : ℕ) := by
      have h3 : (K : ℚ) * (2 : ℚ) ^ (e - 23) < 2 ^ (24 : ℕ) * (2 : ℚ) ^ (e - 23) := by
        rw [← hK, ← esplit1]; exact l2
      exact lt_of_mul_lt_mul_right h3 (le_of_lt p23)
    exact_mod_cast this
  by_cases hm : roundNearestEven n d = 2 ^ 24
  · rw [if_pos hm] at hunf
    refine ⟨2 ^ 23, e - 23 + 1, hunf, by positivity, ?_, ?_⟩
    · have : ((2 ^ 23 : ℕ) : ℚ) * (2 : ℚ) ^ (e - 23 + 1)
          = ((roundNearestEven n d : ℕ) : ℚ) * (2 : ℚ) ^ (e - 23) := by
        rw [hm, zpow_add_one₀ (by norm_num)]; push_cast; ring
      rw [this]; exact hval
    · intro K hK
      obtain ⟨h1, h2⟩ := hexact K hK
      omega
  · rw [if_neg hm] at hunf
    refine ⟨roundNearestEven n d, e - 23, hunf, hMpos, hval, ?_⟩
    intro K hK
    exact ⟨(hexact K hK).1, rfl⟩


end AvgPrices

namespace AvgPrices

/-- The product of two finite `float64`. -/
theorem F64_mul_fin (s t : Bool) (m n : Nat) (e f : ℤ) :
    F64.mul (GoFloat.fin s m e) (GoFloat.fin t n f) =
      binary64.round (xor s t) (m * n * 2 ^ (e + f).toNat) (2 ^ (-(e + f)).toNat) := rfl

/-- The conversion of a finite `float64` to `float32`. -/
theorem F64_toFloat32_fin (s : Bool) (m : Nat) (e : ℤ) :
    F64.toFloat32 (GoFloat.fin s m e) =
      binary32.round s (m * 2 ^ e.toNat) (2 ^ (-e).toNat) := rfl

/-- The error of a rounding in the normal range of `float64`, relative to the
value. -/
theorem round64_rel (s : Bool) (a b : Nat) (ha : 0 < a) (hb : 0 < b) (lo hi : ℤ)
    (hlo : (2 : ℚ) ^ lo ≤ (a : ℚ) / b) (hhi : (a : ℚ) / b < (2 : ℚ) ^ hi)
    (h1 : -1022 ≤ lo) (h2 : hi ≤ 1023) :
    ∃ m q, binary64.round s a b = GoFloat.fin s m q ∧ 0 < m ∧
      |(m : ℚ) * (2 : ℚ) ^ q - (a : ℚ) / b| ≤ (a : ℚ) / b / 2 ^ (53 : ℕ) := by
  have e1 := le_floorLog2 a b ha hb lo hlo
  have e2 := floorLog2_lt a b ha hb hi hhi
  obtain ⟨m, q, hr, hm, hv, _⟩ := round64_spec s a b ha hb (by omega) (by omega)
  refine ⟨m, q, hr, hm, le_trans hv ?_⟩
  have l1 := (floorLog2_spec a b ha hb).1
  have : (2 : ℚ) ^ (floorLog2 a b - 53) = (2 : ℚ) ^ (floorLog2 a b) / 2 ^ (53 : ℕ) := by
    rw [zpow_sub₀ (by norm_num)]; norm_cast
  rw [this]
  exact div_le_div_of_nonneg_right l1 (by positivity)

/-- The error of a rounding in the normal range of `float32`, relative to the
value. -/
theorem round32_rel (s : Bool) (a b : Nat) (ha : 0 < a) (hb : 0 < b) (lo hi : ℤ)
    (hlo : (2 : ℚ) ^ lo ≤ (a : ℚ) / b) (hhi : (a : ℚ) / b < (2 : ℚ) ^ hi)
    (h1 : -126 ≤ lo) (h2 : hi ≤ 127) :
    ∃ m q, binary32.round s a b = GoFloat.fin s m q ∧ 0 < m ∧
      |(m : ℚ) * (2 : ℚ) ^ q - (a : ℚ) / b| ≤ (a : ℚ) / b / 2 ^ (24 : ℕ) := by
  have e1 := le_floorLog2 a b ha hb lo hlo
  have e2 := floorLog2_lt a b ha hb hi hhi
  obtain ⟨m, q, hr, hm, hv, _⟩ := round32_spec s a b ha hb (by omega) (by omega)
  refine ⟨m, q, hr, hm, le_trans hv ?_⟩
  have l1 := (floorLog2_spec a b ha hb).1
  have : (2 : ℚ) ^ (floorLog2 a b - 24) = (2 : ℚ) ^ (floorLog2 a b) / 2 ^ (24 : ℕ) := by
    rw [zpow_sub₀ (by norm_num)]; norm_cast
  rw [this]
  exact div_le_div_of_nonneg_right l1 (by positivity)

/-- The percent of two positive magnitudes: a finite `float32` within one part
in `2^23` of the exact value `a / b * 100`. -/
theorem percent_magnitude (sc sa : Bool) (a b : Nat) (ha : 0 < a) (ha31 : a ≤ 2 ^ 31)
    (hb : 0 < b) (hb31 : b ≤ 2 ^ 31) :
    ∃ m q, F64.toFloat32 (F64.mul (F64.div (binary64.round sc a 1) (binary64.round sa b 1))
        (F64.ofInt 100)) = GoFloat.fin (xor sc sa) m q ∧
      |(m : ℚ) * (2 : ℚ) ^ q - (a : ℚ) / b * 100| ≤ (a : ℚ) / b * 100 / 2 ^ (23 : ℕ) := by
  obtain ⟨mc, qc, hrc, hmc, hvc⟩ := round64_nat_exact sc a ha
    (lt_of_le_of_lt ha31 (by norm_num))
  obtain ⟨ma, qa, hra, hma, hva⟩ := round64_nat_exact sa b hb
    (lt_of_le_of_lt hb31 (by norm_num))
  have haq : (1 : ℚ) ≤ a := by exact_mod_cast ha
  have hbq : (1 : ℚ) ≤ b := by exact_mod_cast hb
  have ha31q : (a : ℚ) ≤ 2147483648 := by exact_mod_cast ha31
  have hb31q : (b : ℚ) ≤ 2147483648 := by exact_mod_cast hb31
  have hbpos : (0 : ℚ) < b := by linarith
  -- the quotient
  rw [hrc, hra, F64_div_fin sc sa mc ma qc qa hma]
  have hAB := div_ratio mc ma qc qa hma
  rw [hvc, hva] at hAB
  have hA : 0 < mc * 2 ^ (qc - qa).toNat := Nat.mul_pos hmc (by positivity)
  have hB : 0 < ma * 2 ^ (qa - qc).toNat := Nat.mul_pos hma (by positivity)
  have hX1 : (1 : ℚ) / 2147483648 ≤ (a : ℚ) / b := by
    rw [div_le_div_iff₀ (by norm_num) hbpos]; linarith
  have hX2 : (a : ℚ) / b ≤ 2147483648 := by
    rw [div_le_iff₀ hbpos]; nlinarith
  obtain ⟨m1, q1, hr1, hm1, hv1⟩ := round64_rel (xor sc sa) _ _ hA hB (-31) 32
    (by rw [hAB]; norm_num [zpow_neg]; linarith)
    (by rw [hAB]; norm_num; linarith) (by norm_num) (by norm_num)
  rw [hAB] at hv1
  rw [hr1, F64_ofInt_hundred, F64_mul_fin]
  -- the product with 100
  generalize hX : (a : ℚ) / b = X at hX1 hX2 hv1 ⊢
  generalize hD : (m1 : ℚ) * (2 : ℚ) ^ q1 = D at hv1
  obtain ⟨d1, d2⟩ := abs_le.1 hv1
  have hA2 : 0 < m1 * 7036874417766400 * 2 ^ (q1 + -46).toNat :=
    Nat.mul_pos (Nat.mul_pos hm1 (by norm_num)) (by positivity)
  have hB2 : 0 < 2 ^ (-(q1 + -46)).toNat := by positivity
  have hR2 : ((m1 * 7036874417766400 * 2 ^ (q1 + -46).toNat : ℕ) : ℚ)
      / ((2 ^ (-(q1 + -46)).toNat : ℕ) : ℚ) = D * 100 := by
    rw [scale_ratio (m1 * 7036874417766400) (q1 + -46), ← hD,
      zpow_add₀ (by norm_num : (2 : ℚ) ≠ 0)]
    push_cast
    norm_num [zpow_neg]
    ring
  obtain ⟨m2, q2, hr2, hm2, hv2⟩ := round64_rel (xor (xor sc sa) false) _ _ hA2 hB2 (-26) 39
    (by rw [hR2]; norm_num [zpow_neg] at d1 d2 ⊢; linarith)
    (by rw [hR2]; norm_num at d1 d2 ⊢; linarith) (by norm_num) (by norm_num)
  rw [hR2] at hv2
  rw [hr2, F64_toFloat32_fin]
  -- the conversion to float32
  generalize hY : (m2 : ℚ) * (2 : ℚ) ^ q2 = Y at hv2
  obtain ⟨y1, y2⟩ := abs_le.1 hv2
  have hA3 : 0 < m2 * 2 ^ q2.toNat := Nat.mul_pos hm2 (by positivity)
  have hB3 : 0 < 2 ^ (-q2).toNat := by positivity
  have hR3 := scale_ratio m2 q2
  rw [hY] at hR3
  obtain ⟨m3, q3, hr3, _, hv3⟩ := round32_rel (xor (xor sc sa) false) _ _ hA3 hB3 (-27) 40
    (by rw [hR3]; norm_num [zpow_neg] at d1 d2 y1 y2 ⊢; linarith)
    (by rw [hR3]; norm_num at d1 d2 y1 y2 ⊢; linarith) (by norm_num) (by norm_num)
  rw [hR3] at hv3
  simp only [Bool.xor_false] at hr3 ⊢
  refine ⟨m3, q3, hr3, ?_⟩
  generalize (m3 : ℚ) * (2 : ℚ) ^ q3 = V at hv3
  obtain ⟨v1, v2⟩ := abs_le.1 hv3
  rw [abs_le]
  norm_num at d1 d2 y1 y2 v1 v2 hX1 ⊢
  constructor <;> linarith

end AvgPrices

namespace AvgPrices

/-- The rounding of a zero to `float32` keeps the zero. -/
theorem round32_zero (s : Bool) (b : Nat) :
    binary32.round s 0 b = GoFloat.fin s 0 (-149) := by
  unfold FloatFormat.round binary32
  simp

/-- The percent of a zero current value over a non-zero average is a zero. -/
theorem percent_zero_current (avg : Int) (ha1 : -2 ^ 31 ≤ avg) (ha2 : avg < 2 ^ 31)
    (ha0 : avg ≠ 0) : ∃ s, percent 0 avg = GoFloat.fin s 0 (-149) := by
  have hpos : 0 < avg.natAbs := Int.natAbs_pos.2 ha0
  have h53 : avg.natAbs < 2 ^ 53 := by
    norm_num at ha1 ha2 ⊢
    omega
  obtain ⟨m, q, hr, hm, _⟩ := round64_nat_exact (decide (avg < 0)) avg.natAbs hpos h53
  have havg : F64.ofInt avg = GoFloat.fin (decide (avg < 0)) m q := hr
  unfold percent
  rw [havg, F64_ofInt_zero, F64_div_fin _ _ _ _ _ _ hm, zero_mul, round64_zero,
    F64_ofInt_hundred, F64_mul_fin, zero_mul, zero_mul, round64_zero, F64_toFloat32_fin,
    zero_mul, round32_zero]
  exact ⟨_, rfl⟩

/-- The percent `float32(float64(current) / float64(average) * 100)` of two
`int32` values with a non-zero average is a finite number within one part in
`2^23` of the exact value `current / average * 100`. -/
theorem percent_accuracy (cur avg : Int) (hc1 : -2 ^ 31 ≤ cur) (hc2 : cur < 2 ^ 31)
    (ha1 : -2 ^ 31 ≤ avg) (ha2 : avg < 2 ^ 31) (ha0 : avg ≠ 0) :
    ∃ v : ℚ, (percent cur avg).toRat = some v ∧
      |v - (cur : ℚ) / avg * 100| ≤ |(cur : ℚ) / avg * 100| / 2 ^ (23 : ℕ) := by
  by_cases hc0 : cur = 0
  · subst hc0
    obtain ⟨s, hs⟩ := percent_zero_current avg ha1 ha2 ha0
    refine ⟨0, by rw [hs]; simp [GoFloat.toRat], by simp⟩
  · have hcp : 0 < cur.natAbs := Int.natAbs_pos.2 hc0
    have hap : 0 < avg.natAbs := Int.natAbs_pos.2 ha0
    have hc31 : cur.natAbs ≤ 2 ^ 31 := by
      norm_num at hc1 hc2 ⊢
      omega
    have ha31 : avg.natAbs ≤ 2 ^ 31 := by
      norm_num at ha1 ha2 ⊢
      omega
    obtain ⟨m, q, hr, hv⟩ := percent_magnitude (decide (cur < 0)) (decide (avg < 0))
      cur.natAbs avg.natAbs hcp hc31 hap ha31
    have hper : percent cur avg
        = GoFloat.fin (xor (decide (cur < 0)) (decide (avg < 0))) m q := hr
    have hcast : ∀ n : Int, ((n.natAbs : ℕ) : ℚ) = |(n : ℚ)| := by
      intro n
      rw [Nat.cast_natAbs, Int.cast_abs]
    rw [hcast, hcast, ← abs_div] at hv
    have h100 : |(cur : ℚ) / avg| * 100 = |(cur : ℚ) / avg * 100| := by
      rw [abs_mul]; norm_num
    rw [h100] at hv
    have hcq : (cur : ℚ) ≠ 0 := by exact_mod_cast hc0
    have haq : (avg : ℚ) ≠ 0 := by exact_mod_cast ha0
    -- the sign of the exact value is the sign of the float
    have hsign : (cur : ℚ) / avg * 100 =
        (if xor (decide (cur < 0)) (decide (avg < 0)) = true then -1 else 1)
          * |(cur : ℚ) / avg * 100| := by
      rcases lt_or_gt_of_ne hc0 with c | c <;> rcases lt_or_gt_of_ne ha0 with a | a
      · have cq : (cur : ℚ) < 0 := by exact_mod_cast c
        have aq : (avg : ℚ) < 0 := by exact_mod_cast a
        have : 0 < (cur : ℚ) / avg * 100 := by
          have := div_pos_of_neg_of_neg cq aq
          linarith
        simp [c, a, abs_of_pos this]
      · have cq : (cur : ℚ) < 0 := by exact_mod_cast c
        have aq : (0 : ℚ) < avg := by exact_mod_cast a
        have : (cur : ℚ) / avg * 100 < 0 := by
          have := div_neg_of_neg_of_pos cq aq
          linarith
        have a1 : ¬ avg < 0 := by omega
        simp [c, a1, abs_of_neg this]
      · have cq : (0 : ℚ) < cur := by exact_mod_cast c
        have aq : (avg : ℚ) < 0 := by exact_mod_cast a
        have : (cur : ℚ) / avg * 100 < 0 := by
          have := div_neg_of_pos_of_neg cq aq
          linarith
        have c1 : ¬ cur < 0 := by omega
        simp [c1, a, abs_of_neg this]
      · have cq : (0 : ℚ) < cur := by exact_mod_cast c
        have aq : (0 : ℚ) < avg := by exact_mod_cast a
        have : 0 < (cur : ℚ) / avg * 100 := by
          have := div_pos cq aq
          linarith
        have c1 : ¬ cur < 0 := by omega
        have a1 : ¬ avg < 0 := by omega
        simp [c1, a1, abs_of_pos this]
    refine ⟨(if xor (decide (cur < 0)) (decide (avg < 0)) = true then -1 else 1)
      * ((m : ℚ) * (2 : ℚ) ^ q), ?_, ?_⟩
    · rw [hper]
      simp only [GoFloat.toRat]
      rw [mul_assoc]
    · have hone : |(if xor (decide (cur < 0)) (decide (avg < 0)) = true then (-1 : ℚ) else 1)|
          = 1 := by
        split <;> simp
      nth_rewrite 1 [hsign]
      rw [← mul_sub, abs_mul, hone, one_mul]
      exact hv

end AvgPrices

namespace AvgPrices

/-- The conversion `int32(f)` gives a value of the 32-bit signed range. -/
theorem toInt32_range (P : Platform) (x : GoFloat) :
    -2 ^ 31 ≤ F64.toInt32 P x ∧ F64.toInt32 P x < 2 ^ 31 := by
  have key : ∀ v w : Int, (-2 ^ 31 ≤ w ∧ w < 2 ^ 31) →
      -2 ^ 31 ≤ (if -2 ^ 31 ≤ v ∧ v < 2 ^ 31 then v else w) ∧
        (if -2 ^ 31 ≤ v ∧ v < 2 ^ 31 then v else w) < 2 ^ 31 := by
    intro v w hw
    by_cases h : -2 ^ 31 ≤ v ∧ v < 2 ^ 31
    · rw [if_pos h]; exact h
    · rw [if_neg h]; exact hw
  cases x with
  | fin s m e => exact key _ _ (wrapInt32_range _)
  | inf s => exact wrapInt32_range _
  | nan => exact wrapInt32_range _

/-- The average is a value of the 32-bit signed range. -/
theorem average_range (P : Platform) (s c : Int) :
    -2 ^ 31 ≤ average P s c ∧ average P s c < 2 ^ 31 :=
  toInt32_range P _

/-- C9, as amended. For every detail row with a baseline hit, the current
value of each metric is the row's column narrowed to `int32` (the row's value
itself when it lies in the 32-bit signed range), the average is the rounded
integer average of the table entry, and the percent emitted by `enrichData`
is `float32(float64(current) / float64(average) * 100)` on these two: when
the average is non-zero it is a finite number within one part in `2^23` of
the exact `(current / average) * 100`. The average is the rounded integer,
not the exact mean: a sum of 5 over two rows gives the average 3, and a
current value 3 then the percent 100. For `current = 50`, `average = 100` the
percent is exactly `50.0` and for `current = 150`, `average = 100` exactly
`150.0`. -/
theorem percent_of_rounded_average (P : Platform) (t : Table) (hdr : List GoString)
    (rows : List (List GoString)) :
    ((∀ d ∈ rows, 13 ≤ d.length) → (∀ d ∈ rows, d.length = hdr.length) →
      (∀ d ∈ rows, t (detailKey d) ≠ none) →
      ∃ recs, enrichData P (csvStream hdr rows) t = Outcome.ok recs) ∧
    (∀ recs, enrichData P (csvStream hdr rows) t = Outcome.ok recs →
      List.Forall₂ (fun d x => ∃ pa, t (detailKey d) = some pa ∧
        (metrics x).map (fun m => (m.1, m.2.1)) =
          [(wrapInt 32 (atoi (field d 4)), average P pa.QuantitySum pa.RowCount),
           (wrapInt 32 (atoi (field d 7)), average P pa.P05Sum pa.RowCount),
           (wrapInt 32 (atoi (field d 8)), average P pa.P10Sum pa.RowCount),
           (wrapInt 32 (atoi (field d 9)), average P pa.P25Sum pa.RowCount),
           (wrapInt 32 (atoi (field d 10)), average P pa.P50Sum pa.RowCount),
           (wrapInt 32 (atoi (field d 11)), average P pa.P75Sum pa.RowCount),
           (wrapInt 32 (atoi (field d 12)), average P pa.P90Sum pa.RowCount)] ∧
        (∀ c ∈ metricColumns, -2 ^ 31 ≤ atoi (field d c.1) → atoi (field d c.1) < 2 ^ 31 →
          wrapInt 32 (atoi (field d c.1)) = atoi (field d c.1)) ∧
        ∀ m ∈ metrics x, m.2.2 = percent m.1 m.2.1 ∧
          (m.2.1 ≠ 0 → ∃ v : ℚ, m.2.2.toRat = some v ∧
            |v - (m.1 : ℚ) / m.2.1 * 100| ≤ |(m.1 : ℚ) / m.2.1 * 100| / 2 ^ (23 : ℕ)))
        rows recs) ∧
    (average P 5 2 = 3 ∧ percent 3 (average P 5 2) = F32.ofInt 100) ∧
    (percent 50 100 = F32.ofInt 50 ∧ (F32.ofInt 50).toRat = some 50) ∧
    (percent 150 100 = F32.ofInt 150 ∧ (F32.ofInt 150).toRat = some 150) := by
  obtain ⟨e1, e2, e3, e4, e5, _⟩ := percent_examples
  refine ⟨?_, ?_, ⟨average_five_two P, by rw [average_five_two P]; exact e5⟩, ⟨e1, e2⟩,
    ⟨e3, e4⟩⟩
  · intro h13 hl hhit
    rw [enrichData_csvStream]
    exact enrichLoop_total P t hdr.length rows h13 hl hhit _ _ (Or.inr rfl)
  · intro recs h
    refine List.Forall₂.imp ?_ (enrichData_forall₂ P t hdr rows recs h)
    intro d x hx
    obtain ⟨pa, hpa, hxe⟩ := hx
    subst hxe
    refine ⟨pa, hpa, ?_, ?_, ?_⟩
    · rw [metrics_enrichRecord]
      rfl
    · intro c _ a b
      exact wrapInt32_of_range _ a b
    · intro m hm
      rw [metrics_enrichRecord] at hm
      simp only [List.mem_cons, List.mem_singleton, List.not_mem_nil, or_false] at hm
      rcases hm with rfl | rfl | rfl | rfl | rfl | rfl | rfl <;>
        exact ⟨rfl, fun h0 => percent_accuracy _ _ (wrapInt32_range _).1 (wrapInt32_range _).2
          (average_range P _ _).1 (average_range P _ _).2 h0⟩

set_option maxRecDepth 8000 in
set_option exponentiation.threshold 4096 in
/-- Witness of C9 as amended: the worked example, whose quantity percent is
`150.0`. -/
theorem percent_of_rounded_average_witness :
    ∃ x, enrichData exPlatform (csvStream (exHeader 13) [exDetailRow]) exTable
        = Outcome.ok [x] ∧
      (∀ m ∈ metrics x, m.2.2 = percent m.1 m.2.1 ∧
        (m.2.1 ≠ 0 → ∃ v : ℚ, m.2.2.toRat = some v ∧
          |v - (m.1 : ℚ) / m.2.1 * 100| ≤ |(m.1 : ℚ) / m.2.1 * 100| / 2 ^ (23 : ℕ))) ∧
      x.QuantityCurrent = 15 ∧ x.QuantityAverage = 10 ∧ x.QuantityPercent = F32.ofInt 150 := by
  obtain ⟨recs, hrecs⟩ := (percent_of_rounded_average exPlatform exTable (exHeader 13)
    [exDetailRow]).1 (by decide) (by decide) (by decide)
  have hall := (percent_of_rounded_average exPlatform exTable (exHeader 13)
    [exDetailRow]).2.1 recs hrecs
  have hval : enrichData exPlatform (csvStream (exHeader 13) [exDetailRow]) exTable
      = Outcome.ok [enrichRecord exPlatform (detailFields exDetailRow) exBaseline] := rfl
  cases hall with
  | cons hx hrest =>
    cases hrest
    obtain ⟨_, _, _, _, hm⟩ := hx
    refine ⟨_, hrecs, hm, ?_⟩
    rw [hval] at hrecs
    cases hrecs
    decide

set_option maxRecDepth 8000 in
set_option exponentiation.threshold 4096 in
/-- Counterexample to C9: the detail row of the worked example with the
quantity `3000000000`, against the average 10. The row's value is
3000000000, for which `(current / average) * 100` is `30000000000`; the
percent emitted is computed from the narrowed current value `-1294967296`
and is `-12949672960`. -/
theorem percent_of_wrapped_current :
    ∃ x, enrichData exPlatform (csvStream (exHeader 13) [exBigDetailRow]) exTable
        = Outcome.ok [x] ∧
      atoi (field exBigDetailRow 4) = 3000000000 ∧ x.QuantityAverage = 10 ∧
      x.QuantityPercent = percent (-1294967296) 10 ∧
      x.QuantityPercent = GoFloat.fin true 12646165 10 ∧
      percent (atoi (field exBigDetailRow 4)) x.QuantityAverage
        = GoFloat.fin false 14648438 11 ∧
      x.QuantityPercent ≠ percent (atoi (field exBigDetailRow 4)) x.QuantityAverage := by
  refine ⟨_, rfl, ?_⟩
  decide

end AvgPrices
